import Mathlib

/-
Verification of the ONNX scalar-type-analysis pass
(torch/csrc/jit/passes/onnx/scalar_type_analysis.cpp).

The embedding models the JIT IR fragment the pass touches: a graph is a
single block, i.e. an ordered list of nodes; each node has a kind, an
ordered list of input value ids, a single output value id, optional
tensor attribute "value", optional integer attribute "to", and the
TensorType annotation of its output value.  Nested sub-blocks are not
modelled (the driver's recursion into them is purely structural; every
claim is per-block).  Operations that would dereference a null pointer,
read a missing attribute, or index out of bounds in the C++ return
none in this model.
-/

namespace ScalarTypeAnalysis

abbrev ValueId := Nat

/-- The element-type enumeration (the fragment of c10::ScalarType relevant
to the pass: the nine wire-format types plus BFloat16, which has no
ONNX code in this mapping). -/
inductive ScalarType
  | Byte | Char | Short | Int | Long
  | Half | Float | Double
  | Bool
  | BFloat16
deriving DecidableEq, Repr, Fintype

/-- Category of a scalar type: boolean < integral < floating point.
Used only by the modelled promotion table. -/
def ScalarType.category : ScalarType → Nat
  | .Bool => 0
  | .Byte | .Char | .Short | .Int | .Long => 1
  | .Half | .BFloat16 | .Float | .Double => 2

/-- Width rank of a scalar type within its category.
Used only by the modelled promotion table. -/
def ScalarType.rank : ScalarType → Nat
  | .Bool => 0
  | .Byte => 1 | .Char => 1 | .Short => 2 | .Int => 3 | .Long => 4
  | .Half => 1 | .BFloat16 => 1 | .Float => 2 | .Double => 3

/-- Modelled from the spec: the element-type promotion function
(c10::promoteTypes) is an external collaborator, not part of this
repository's source.  The spec describes it as the standard frontend
promotion rule (e.g. Float + Int -> Float, Int + Long -> Long,
Bool + Int -> Int), commutative and associative.  This definition
reproduces that table: the higher category wins; within a category the
wider type wins; two distinct types of equal width promote to the next
wider type (Byte + Char -> Short, Half + BFloat16 -> Float). -/
def promoteTypes (a b : ScalarType) : ScalarType :=
  if a = b then a
  else if a.category < b.category then b
  else if b.category < a.category then a
  else if a.rank < b.rank then b
  else if b.rank < a.rank then a
  else if a.category = 2 then ScalarType.Float else ScalarType.Short

/-- ScalarTypeToONNXType, from the table scalarTypeToONNXTypeMap:
the wire-format code of an element type, or the sentinel -1. -/
def ScalarTypeToONNXType (st : ScalarType) : Int :=
  match st with
  | .Float => 1
  | .Byte => 2
  | .Char => 3
  | .Short => 5
  | .Int => 6
  | .Long => 7
  | .Bool => 9
  | .Half => 10
  | .Double => 11
  | .BFloat16 => -1

/-- Node kinds: the whitelisted operators, the kinds the pass creates or
inspects, Param for block inputs, and an escape hatch for all others. -/
inductive NodeKind
  | Add | Sub | Mul | Div | Gemm | Pow | Mod
  | Greater | Less | Equal | GreaterOrEqual | LessOrEqual
  | Cast | Constant | Gather | Shape | Unsqueeze
  | Param
  | Other (code : Nat)
deriving DecidableEq, Repr

/-- IsStandardOp: membership in standardOps. -/
def IsStandardOp (nkind : NodeKind) : Bool :=
  match nkind with
  | .Add | .Sub | .Mul | .Div | .Gemm | .Pow | .Mod => true
  | _ => false

/-- IsComparisonOp: membership in comparisonOps. -/
def IsComparisonOp (nkind : NodeKind) : Bool :=
  match nkind with
  | .Greater | .Less | .Equal | .GreaterOrEqual | .LessOrEqual => true
  | _ => false

/-- IsImplicitCastSupported: standard or comparison operator. -/
def IsImplicitCastSupported (nodeKind : NodeKind) : Bool :=
  IsStandardOp nodeKind || IsComparisonOp nodeKind

/-- The TensorType annotation of a value: an optional element type
(sizes and strides play no role in this pass). -/
structure TensorTypeAnn where
  scalarType : Option ScalarType
deriving DecidableEq, Repr

/-- A tensor literal: an abstract payload identity plus its element type. -/
structure Tensor where
  data : Nat
  dtype : ScalarType
deriving DecidableEq, Repr

/-- at::Tensor::to(scalar_type): element conversion of a literal keeps the
payload and changes the element type. -/
def Tensor.to (t : Tensor) (st : ScalarType) : Tensor :=
  { t with dtype := st }

/-- TensorType::create(tensor): the annotation of a freshly created
constant, carrying the tensor's element type. -/
def TensorTypeAnn.create (t : Tensor) : TensorTypeAnn :=
  ⟨some t.dtype⟩

/-- CreateProfiledTensorTypeWithScalarType: typePtr->withScalarType. -/
def CreateProfiledTensorTypeWithScalarType
    (_typePtr : TensorTypeAnn) (scalar_type : ScalarType) : TensorTypeAnn :=
  ⟨some scalar_type⟩

/-- A node of the IR. -/
structure Node where
  kind : NodeKind
  inputs : List ValueId
  output : ValueId
  attrValue : Option Tensor := none
  attrTo : Option Int := none
  outputType : Option TensorTypeAnn := none
deriving DecidableEq, Repr

/-- Node::replaceInputWith(from, to): every occurrence is replaced. -/
def Node.replaceInputWith (n : Node) (vOld vNew : ValueId) : Node :=
  { n with inputs := n.inputs.map (fun v => if v = vOld then vNew else v) }

/-- A graph (one block): typed block inputs, the ordered node list, the
block outputs (liveness roots for DCE), and the next fresh value id. -/
structure Graph where
  inputTypes : List (ValueId × TensorTypeAnn)
  nodes : List Node
  outs : List ValueId
  fresh : ValueId
deriving DecidableEq, Repr

/-- Value::node(): the producer of a value, looked up in the block. -/
def producerOf (nodes : List Node) (v : ValueId) : Option Node :=
  nodes.find? (fun n => n.output == v)

/-- The kind of a value's producer; block inputs are produced by the
Param node. -/
def kindOf (nodes : List Node) (v : ValueId) : NodeKind :=
  match producerOf nodes v with
  | some n => n.kind
  | none => .Param

/-- Value::type()->cast<TensorType>(): the TensorType annotation of a
value, when it has one. -/
def vtypeOf (g : Graph) (v : ValueId) : Option TensorTypeAnn :=
  match producerOf g.nodes v with
  | some n => n.outputType
  | none => (g.inputTypes.find? (fun p => p.1 == v)).map Prod.snd

/-- Diagnostics written to the warning channel. -/
inductive Warning
  | scalarTypeMismatch (op : NodeKind) (chosen : ScalarType)
  | unsupportedScalarType (st : ScalarType) (op : NodeKind)
deriving DecidableEq, Repr

/-- PromoteScalarTypes: left fold of promoteTypes over a list of types,
seeded with the first element; empty list yields nullopt. -/
def PromoteScalarTypes (types : List ScalarType) : Option ScalarType :=
  match types with
  | [] => none
  | t :: ts => some (ts.foldl promoteTypes t)

/-- The classification of one input made by the lambda in
InferExpectedScalarType: a contribution to typesFromScalars, a
contribution to typesFromTensors, or no contribution. -/
inductive BucketItem
  | scalarItem (st : ScalarType)
  | tensorItem (st : ScalarType)
  | noItem
deriving DecidableEq, Repr

/-- The else branch of the classification lambda: read the input's
TensorType annotation (the C++ dereferences the cast unguarded, hence
none when the annotation is missing) and contribute its element type to
typesFromTensors when known. -/
def InferInputTensorCase (g : Graph) (v : ValueId) : Option BucketItem :=
  match vtypeOf g v with
  | none => none
  | some tt =>
    match tt.scalarType with
    | some st => some (.tensorItem st)
    | none => some .noItem

/-- The classification lambda of InferExpectedScalarType applied to one
input: a Gather whose first operand is produced by a Shape contributes
Long as a scalar; a Constant contributes its literal's element type as
a scalar (t(attr::value) read unguarded); otherwise the TensorType
annotation decides.  A Gather producer with no first operand makes the
C++ input(0) access throw, hence none. -/
def InferInputItem (g : Graph) (v : ValueId) : Option BucketItem :=
  let nkind := kindOf g.nodes v
  if nkind = NodeKind.Gather then
    match (producerOf g.nodes v).bind (fun pn => pn.inputs.get? 0) with
    | none => none
    | some w =>
      if kindOf g.nodes w = NodeKind.Shape then
        some (.scalarItem ScalarType.Long)
      else
        InferInputTensorCase g v
  else if nkind = NodeKind.Constant then
    match (producerOf g.nodes v).bind Node.attrValue with
    | none => none
    | some t => some (.scalarItem t.dtype)
  else
    InferInputTensorCase g v

/-- The two buckets accumulated by the classification loop. -/
structure Buckets where
  typesFromTensors : List ScalarType
  typesFromScalars : List ScalarType
deriving DecidableEq, Repr

/-- Appending one classified input to the buckets. -/
def Buckets.push (b : Buckets) : BucketItem → Buckets
  | .scalarItem st => { b with typesFromScalars := b.typesFromScalars ++ [st] }
  | .tensorItem st => { b with typesFromTensors := b.typesFromTensors ++ [st] }
  | .noItem => b

/-- The std::for_each loop of InferExpectedScalarType: classify the
inputs in order into the two buckets. -/
def InferCollect (g : Graph) (n : Node) : Option Buckets :=
  n.inputs.foldlM (fun acc v => (InferInputItem g v).map acc.push) ⟨[], []⟩

/-- InferExpectedScalarType.  Returns the inferred type (possibly
nullopt) together with the warnings emitted while inferring; none models
a crash (missing TensorType annotation, missing attribute).  The
output's annotation is dereferenced before the branch, exactly as in
the C++. -/
def InferExpectedScalarType (g : Graph) (n : Node) :
    Option (Option ScalarType × List Warning) :=
  match InferCollect g n with
  | none => none
  | some buckets =>
    match n.outputType with
    | none => none
    | some ott =>
      let output_st := ott.scalarType
      if IsComparisonOp n.kind then
        some (PromoteScalarTypes
          (buckets.typesFromScalars ++ buckets.typesFromTensors), [])
      else
        if buckets.typesFromScalars.length = n.inputs.length then
          some (PromoteScalarTypes buckets.typesFromScalars, [])
        else if output_st.isSome then
          some (output_st, [])
        else
          match buckets.typesFromTensors with
          | [] => some (PromoteScalarTypes buckets.typesFromScalars, [])
          | st :: rest =>
            if (st :: rest).any (fun t => t ≠ st) then
              some (some st, [Warning.scalarTypeMismatch n.kind st])
            else
              some (some st, [])

/-- The state threaded through the input-rewriting loop of
UpdateScalarTypeForInputs: the nodes inserted before the rewritten node
so far (appended to the block prefix), the rewritten node itself, and
the next fresh value id. -/
structure RewriteState where
  pre : List Node
  node : Node
  fresh : ValueId
deriving DecidableEq, Repr

/-- One iteration of the input loop of UpdateScalarTypeForInputs,
processing input position i of the (current) node.  The input's
TensorType annotation is dereferenced unconditionally (line 178 of the
source); a Constant producer is always replaced by a fresh constant
converted to the target type; otherwise a known, differing element type
gets a Cast node; otherwise the edge is untouched.  Created nodes are
inserted immediately before the rewritten node, and rewiring replaces
every occurrence of the input value. -/
def UpdateLoopStep (it : List (ValueId × TensorTypeAnn)) (post : List Node)
    (scalar_type : ScalarType) (onnx_type : Int)
    (s : RewriteState) (i : Nat) : Option RewriteState :=
  match s.node.inputs.get? i with
  | none => none
  | some input =>
    let g : Graph := ⟨it, s.pre ++ s.node :: post, [], s.fresh⟩
    match vtypeOf g input with
    | none => none
    | some input_tensor_type =>
      let input_scalar_type := input_tensor_type.scalarType
      if kindOf g.nodes input = NodeKind.Constant ∨
          (input_scalar_type.isSome ∧ input_scalar_type ≠ some scalar_type) then
        if kindOf g.nodes input = NodeKind.Constant then
          match (producerOf g.nodes input).bind Node.attrValue with
          | none => none
          | some val =>
            let new_val := val.to scalar_type
            let const_node : Node :=
              { kind := .Constant, inputs := [], output := s.fresh,
                attrValue := some new_val,
                outputType := some (TensorTypeAnn.create new_val) }
            some ⟨s.pre ++ [const_node],
                  s.node.replaceInputWith input s.fresh, s.fresh + 1⟩
        else
          let cast_node : Node :=
            { kind := .Cast, inputs := [input], output := s.fresh,
              attrTo := some onnx_type,
              outputType := some (CreateProfiledTensorTypeWithScalarType
                input_tensor_type scalar_type) }
          some ⟨s.pre ++ [cast_node],
                s.node.replaceInputWith input s.fresh, s.fresh + 1⟩
      else
        some s

/-- UpdateScalarTypeForInputs.  When the target type has no wire-format
code (< 0) a warning is emitted and nothing is mutated; otherwise the
input loop runs over the node's input positions.  The block prefix is
returned extended with the inserted nodes. -/
def UpdateScalarTypeForInputs (it : List (ValueId × TensorTypeAnn))
    (pre : List Node) (n : Node) (post : List Node) (fresh : ValueId)
    (scalar_type : ScalarType) : Option (RewriteState × List Warning) :=
  let onnx_type := ScalarTypeToONNXType scalar_type
  if onnx_type < 0 then
    some (⟨pre, n, fresh⟩, [Warning.unsupportedScalarType scalar_type n.kind])
  else
    match (List.range n.inputs.length).foldlM
        (UpdateLoopStep it post scalar_type onnx_type) ⟨pre, n, fresh⟩ with
    | none => none
    | some s => some (s, [])

/-- UpdateScalarTypeForOutput: re-annotate the node's single output with
the target element type (the C++ dereferences the output's TensorType
unguarded, hence none when it is missing). -/
def UpdateScalarTypeForOutput (n : Node) (scalar_type : ScalarType) :
    Option Node :=
  match n.outputType with
  | none => none
  | some output_tensor_type =>
    some { n with outputType := some (CreateProfiledTensorTypeWithScalarType
      output_tensor_type scalar_type) }

/-- Result of processing a node or a block: the processed nodes, the
next fresh id, and the warnings emitted. -/
structure BlockResult where
  nodes : List Node
  fresh : ValueId
  warnings : List Warning
deriving DecidableEq, Repr

/-- The per-node body of the driver loop in ImplicitCastForONNX: for a
whitelisted kind run inference; on a concrete result rewrite the inputs
and, unless the node is a comparison, the output annotation.  done is
the already-processed prefix of the block, rest the unprocessed
suffix. -/
def ProcessNode (it : List (ValueId × TensorTypeAnn)) (done : List Node)
    (n : Node) (rest : List Node) (fresh : ValueId) : Option BlockResult :=
  if IsImplicitCastSupported n.kind then
    match InferExpectedScalarType ⟨it, done ++ n :: rest, [], fresh⟩ n with
    | none => none
    | some (none, ws) => some ⟨done ++ [n], fresh, ws⟩
    | some (some st, ws) =>
      match UpdateScalarTypeForInputs it done n rest fresh st with
      | none => none
      | some (s, ws2) =>
        if IsComparisonOp n.kind then
          some ⟨s.pre ++ [s.node], s.fresh, ws ++ ws2⟩
        else
          match UpdateScalarTypeForOutput s.node st with
          | none => none
          | some n2 => some ⟨s.pre ++ [n2], s.fresh, ws ++ ws2⟩
  else
    some ⟨done ++ [n], fresh, []⟩

/-- The driver loop of ImplicitCastForONNX over the nodes of a block. -/
def ProcessBlock (it : List (ValueId × TensorTypeAnn)) :
    List Node → List Node → ValueId → Option BlockResult
  | done, [], fresh => some ⟨done, fresh, []⟩
  | done, n :: rest, fresh =>
    match ProcessNode it done n rest fresh with
    | none => none
    | some r =>
      match ProcessBlock it r.nodes rest r.fresh with
      | none => none
      | some r2 => some ⟨r2.nodes, r2.fresh, r.warnings ++ r2.warnings⟩

/-- Modelled from the spec: the external DCE pass
(EliminateDeadCode with policy ALLOW_DELETING_NODES_WITH_SIDE_EFFECTS)
is not part of this repository's source; the spec describes it as
removing nodes whose outputs are unused.  Nodes are considered from the
last to the first; a node is kept iff its output is a block output or
is consumed by a kept node. -/
def EliminateDeadCode (outs : List ValueId) : List Node → List Node
  | [] => []
  | n :: rest =>
    let kept := EliminateDeadCode outs rest
    if n.output ∈ outs ∨ ∃ m ∈ kept, n.output ∈ m.inputs then n :: kept
    else kept

/-- ImplicitCastForONNX on a block: process every node, then run DCE. -/
def ImplicitCastForONNX (g : Graph) : Option (Graph × List Warning) :=
  match ProcessBlock g.inputTypes [] g.nodes g.fresh with
  | none => none
  | some r =>
    let g2 : Graph :=
      { g with nodes := EliminateDeadCode g.outs r.nodes, fresh := r.fresh }
    some (g2, r.warnings)

/-- ScalarTypeAnalysisForONNX: the entry point of the pass. -/
def ScalarTypeAnalysisForONNX (g : Graph) : Option (Graph × List Warning) :=
  ImplicitCastForONNX g

end ScalarTypeAnalysis

namespace ScalarTypeAnalysis

@[simp] theorem replaceInputWith_kind (n : Node) (a b : ValueId) :
    (n.replaceInputWith a b).kind = n.kind := rfl

@[simp] theorem replaceInputWith_output (n : Node) (a b : ValueId) :
    (n.replaceInputWith a b).output = n.output := rfl

@[simp] theorem replaceInputWith_outputType (n : Node) (a b : ValueId) :
    (n.replaceInputWith a b).outputType = n.outputType := rfl

@[simp] theorem replaceInputWith_attrValue (n : Node) (a b : ValueId) :
    (n.replaceInputWith a b).attrValue = n.attrValue := rfl

@[simp] theorem replaceInputWith_attrTo (n : Node) (a b : ValueId) :
    (n.replaceInputWith a b).attrTo = n.attrTo := rfl

@[simp] theorem replaceInputWith_inputs_length (n : Node) (a b : ValueId) :
    (n.replaceInputWith a b).inputs.length = n.inputs.length := by
  simp [Node.replaceInputWith]

theorem updateLoopStep_cases {it : List (ValueId × TensorTypeAnn)} {post : List Node}
    {T : ScalarType} {ot : Int} {s : RewriteState} {i : Nat} {s' : RewriteState}
    (h : UpdateLoopStep it post T ot s i = some s') :
    s' = s ∨ ∃ v c, (c.kind = NodeKind.Cast ∨ c.kind = NodeKind.Constant) ∧
      c.output = s.fresh ∧
      s' = ⟨s.pre ++ [c], s.node.replaceInputWith v s.fresh, s.fresh + 1⟩ := by
  simp only [UpdateLoopStep] at h
  split at h
  · cases h
  · split at h
    · cases h
    · split at h
      · split at h
        · split at h
          · cases h
          · cases h
            exact Or.inr ⟨_, _, Or.inr rfl, rfl, rfl⟩
        · cases h
          exact Or.inr ⟨_, _, Or.inl rfl, rfl, rfl⟩
      · cases h
        exact Or.inl rfl

end ScalarTypeAnalysis

namespace ScalarTypeAnalysis

theorem updateLoop_foldlM_meta {it : List (ValueId × TensorTypeAnn)} {post : List Node}
    {T : ScalarType} {ot : Int} :
    ∀ (l : List Nat) (s s' : RewriteState),
    l.foldlM (UpdateLoopStep it post T ot) s = some s' →
    (∃ ins, s'.pre = s.pre ++ ins ∧
      ∀ c ∈ ins, (c.kind = NodeKind.Cast ∨ c.kind = NodeKind.Constant) ∧
        s.fresh ≤ c.output) ∧
    s'.node.kind = s.node.kind ∧ s'.node.output = s.node.output ∧
    s'.node.outputType = s.node.outputType ∧
    s'.node.attrValue = s.node.attrValue ∧ s'.node.attrTo = s.node.attrTo ∧
    s'.node.inputs.length = s.node.inputs.length ∧ s.fresh ≤ s'.fresh := by
  intro l
  induction l with
  | nil =>
    intro s s' h
    simp only [List.foldlM_nil] at h
    cases h
    exact ⟨⟨[], by simp, by simp⟩, rfl, rfl, rfl, rfl, rfl, rfl, Nat.le_refl _⟩
  | cons i l ih =>
    intro s s' h
    rw [List.foldlM_cons] at h
    cases hstep : UpdateLoopStep it post T ot s i with
    | none => rw [hstep] at h; cases h
    | some s1 =>
      rw [hstep] at h
      simp only [Option.bind_eq_bind, Option.some_bind] at h
      obtain ⟨⟨ins, hpre, hkinds⟩, hk, ho, hot, hav, hat, hlen, hfr⟩ := ih s1 s' h
      rcases updateLoopStep_cases hstep with rfl | ⟨v, c, hck, hco, rfl⟩
      · exact ⟨⟨ins, hpre, hkinds⟩, hk, ho, hot, hav, hat, hlen, hfr⟩
      · refine ⟨⟨c :: ins, by simpa using hpre, ?_⟩, by simpa using hk,
          by simpa using ho, by simpa using hot, by simpa using hav,
          by simpa using hat, by simpa using hlen, ?_⟩
        · intro d hd
          rcases List.mem_cons.mp hd with rfl | hd
          · exact ⟨hck, Nat.le_of_eq hco.symm⟩
          · have hd2 := hkinds _ hd
            exact ⟨hd2.1, Nat.le_trans (Nat.le_succ _) (by simpa using hd2.2)⟩
        · exact Nat.le_trans (Nat.le_succ _) hfr

theorem updateInputs_meta {it : List (ValueId × TensorTypeAnn)} {pre : List Node}
    {n : Node} {post : List Node} {fresh : ValueId} {T : ScalarType}
    {s : RewriteState} {ws : List Warning}
    (h : UpdateScalarTypeForInputs it pre n post fresh T = some (s, ws)) :
    (∃ ins, s.pre = pre ++ ins ∧
      ∀ c ∈ ins, (c.kind = NodeKind.Cast ∨ c.kind = NodeKind.Constant) ∧
        fresh ≤ c.output) ∧
    s.node.kind = n.kind ∧ s.node.output = n.output ∧
    s.node.outputType = n.outputType ∧
    s.node.attrValue = n.attrValue ∧ s.node.attrTo = n.attrTo ∧
    s.node.inputs.length = n.inputs.length ∧ fresh ≤ s.fresh := by
  simp only [UpdateScalarTypeForInputs] at h
  split at h
  · simp only [Option.some.injEq, Prod.mk.injEq] at h
    obtain ⟨rfl, rfl⟩ := h
    exact ⟨⟨[], by simp, by simp⟩, rfl, rfl, rfl, rfl, rfl, rfl, Nat.le_refl _⟩
  · split at h
    · cases h
    · rename_i s1 hfold
      simp only [Option.some.injEq, Prod.mk.injEq] at h
      obtain ⟨rfl, rfl⟩ := h
      exact updateLoop_foldlM_meta _ _ _ hfold

end ScalarTypeAnalysis

namespace ScalarTypeAnalysis

theorem updateOutput_spec {n : Node} {T : ScalarType} {n2 : Node}
    (h : UpdateScalarTypeForOutput n T = some n2) :
    ∃ tt, n.outputType = some tt ∧
      n2 = { n with outputType := some ⟨some T⟩ } := by
  unfold UpdateScalarTypeForOutput at h
  split at h
  · cases h
  · rename_i tt htt
    cases h
    exact ⟨tt, htt, rfl⟩

theorem processNode_shape {it : List (ValueId × TensorTypeAnn)} {done : List Node}
    {n : Node} {rest : List Node} {fresh : ValueId} {r : BlockResult}
    (h : ProcessNode it done n rest fresh = some r) :
    ∃ ins n2, r.nodes = done ++ ins ++ [n2] ∧
      (∀ c ∈ ins, (c.kind = NodeKind.Cast ∨ c.kind = NodeKind.Constant) ∧
        fresh ≤ c.output) ∧
      n2.kind = n.kind ∧ n2.output = n.output ∧
      n2.attrValue = n.attrValue ∧ n2.attrTo = n.attrTo ∧
      n2.inputs.length = n.inputs.length ∧
      (IsComparisonOp n.kind = true → n2.outputType = n.outputType) ∧
      fresh ≤ r.fresh := by
  unfold ProcessNode at h
  by_cases hsup : IsImplicitCastSupported n.kind = true
  · rw [if_pos hsup] at h
    cases hinf : InferExpectedScalarType ⟨it, done ++ n :: rest, [], fresh⟩ n with
    | none => rw [hinf] at h; cases h
    | some p =>
      obtain ⟨ost, ws⟩ := p
      rw [hinf] at h
      cases ost with
      | none =>
        dsimp only at h
        simp only [Option.some.injEq] at h
        subst h
        exact ⟨[], n, by simp, by simp, rfl, rfl, rfl, rfl, rfl,
          fun _ => rfl, Nat.le_refl _⟩
      | some st =>
        dsimp only at h
        cases hupd : UpdateScalarTypeForInputs it done n rest fresh st with
        | none => rw [hupd] at h; dsimp only at h; cases h
        | some q =>
          obtain ⟨s, ws2⟩ := q
          rw [hupd] at h
          dsimp only at h
          obtain ⟨⟨ins, hpre, hkinds⟩, hk, ho, hot, hav, hat, hlen, hfr⟩ :=
            updateInputs_meta hupd
          by_cases hcmp : IsComparisonOp n.kind = true
          · rw [if_pos hcmp] at h
            simp only [Option.some.injEq] at h
            subst h
            exact ⟨ins, s.node, by simp [hpre], hkinds, hk, ho, hav, hat, hlen,
              fun _ => hot, hfr⟩
          · rw [if_neg hcmp] at h
            cases hout : UpdateScalarTypeForOutput s.node st with
            | none => rw [hout] at h; dsimp only at h; cases h
            | some n2 =>
              rw [hout] at h
              dsimp only at h
              simp only [Option.some.injEq] at h
              subst h
              obtain ⟨tt, htt, rfl⟩ := updateOutput_spec hout
              exact ⟨ins, { s.node with outputType := some ⟨some st⟩ },
                by simp [hpre], hkinds, hk, ho, hav, hat, hlen,
                fun hc => absurd hc hcmp, hfr⟩
  · rw [if_neg hsup] at h
    simp only [Option.some.injEq] at h
    subst h
    exact ⟨[], n, by simp, by simp, rfl, rfl, rfl, rfl, rfl,
      fun _ => rfl, Nat.le_refl _⟩

end ScalarTypeAnalysis

namespace ScalarTypeAnalysis

theorem processBlock_mem {it : List (ValueId × TensorTypeAnn)} :
    ∀ {rest done : List Node} {fresh : ValueId} {r : BlockResult},
    ProcessBlock it done rest fresh = some r →
    ∀ m ∈ r.nodes, m ∈ done ∨ (m.kind = NodeKind.Cast ∨ m.kind = NodeKind.Constant) ∨
      ∃ n ∈ rest, m.kind = n.kind ∧ m.output = n.output ∧
        (IsComparisonOp n.kind = true → m.outputType = n.outputType) := by
  intro rest
  induction rest with
  | nil =>
    intro done fresh r h m hm
    unfold ProcessBlock at h
    simp only [Option.some.injEq] at h
    subst h
    exact Or.inl hm
  | cons n rest ih =>
    intro done fresh r h m hm
    unfold ProcessBlock at h
    cases hpn : ProcessNode it done n rest fresh with
    | none => rw [hpn] at h; cases h
    | some r1 =>
      rw [hpn] at h
      dsimp only at h
      cases hpb : ProcessBlock it r1.nodes rest r1.fresh with
      | none => rw [hpb] at h; cases h
      | some r2 =>
        rw [hpb] at h
        dsimp only at h
        simp only [Option.some.injEq] at h
        subst h
        simp only at hm
        rcases ih hpb m hm with hmem | hcreated | ⟨n0, hn0, hprops⟩
        · obtain ⟨ins, n2, hshape, hkinds, hk, ho, hav, hat, hlen, hcout, hfr⟩ :=
            processNode_shape hpn
          rw [hshape] at hmem
          simp only [List.mem_append, List.mem_singleton] at hmem
          rcases hmem with (hd | hins) | rfl
          · exact Or.inl hd
          · exact Or.inr (Or.inl (hkinds m hins).1)
          · refine Or.inr (Or.inr ⟨n, List.mem_cons_self n rest, hk, ho, ?_⟩)
            intro hc
            exact hcout hc
        · exact Or.inr (Or.inl hcreated)
        · exact Or.inr (Or.inr ⟨n0, List.mem_cons_of_mem n hn0, hprops⟩)

theorem dce_subset {outs : List ValueId} :
    ∀ {l : List Node} {m : Node}, m ∈ EliminateDeadCode outs l → m ∈ l := by
  intro l
  induction l with
  | nil => intro m hm; simp [EliminateDeadCode] at hm
  | cons n rest ih =>
    intro m hm
    unfold EliminateDeadCode at hm
    simp only [] at hm
    split at hm
    · rcases hm with _ | hm
      · exact List.mem_cons_self n rest
      · exact List.mem_cons_of_mem n (ih (by assumption))
    · exact List.mem_cons_of_mem n (ih hm)

end ScalarTypeAnalysis

namespace ScalarTypeAnalysis

theorem standard_not_comparison {k : NodeKind} (h : IsStandardOp k = true) :
    IsComparisonOp k = false := by
  cases k <;> simp_all [IsStandardOp, IsComparisonOp]

/-- C9: the codec maps exactly Float to 1, Byte to 2, Char to 3, Short to 5,
Int to 6, Long to 7, Bool to 9, Half to 10, Double to 11; every element
type outside this set yields the sentinel -1, and the codes 4 and 8 are
never produced. -/
theorem C9_codec_exact :
    (ScalarTypeToONNXType ScalarType.Float = 1 ∧
     ScalarTypeToONNXType ScalarType.Byte = 2 ∧
     ScalarTypeToONNXType ScalarType.Char = 3 ∧
     ScalarTypeToONNXType ScalarType.Short = 5 ∧
     ScalarTypeToONNXType ScalarType.Int = 6 ∧
     ScalarTypeToONNXType ScalarType.Long = 7 ∧
     ScalarTypeToONNXType ScalarType.Bool = 9 ∧
     ScalarTypeToONNXType ScalarType.Half = 10 ∧
     ScalarTypeToONNXType ScalarType.Double = 11) ∧
    (∀ st : ScalarType,
      st ∉ ([.Float, .Byte, .Char, .Short, .Int, .Long, .Bool, .Half,
             .Double] : List ScalarType) →
      ScalarTypeToONNXType st = -1) ∧
    (∀ st : ScalarType,
      ScalarTypeToONNXType st ≠ 4 ∧ ScalarTypeToONNXType st ≠ 8) := by
  decide

theorem C9_codec_witness : ScalarTypeToONNXType ScalarType.BFloat16 = -1 :=
  C9_codec_exact.2.1 ScalarType.BFloat16 (by decide)

/-- C2: for a STANDARD node, inference applies, in this precedence order:
all-scalar inputs use the promotion fold over typesFromScalars; else a
known output annotation is used; else a non-empty tensor bucket yields
its first element, with a mismatch warning naming the operator and the
chosen type exactly when another tensor entry differs; else the
promotion fold over typesFromScalars (none when empty). -/
theorem C2_standard_inference_precedence
    (g : Graph) (n : Node) (b : Buckets) (ott : TensorTypeAnn)
    (hstd : IsStandardOp n.kind = true)
    (hc : InferCollect g n = some b)
    (ho : n.outputType = some ott) :
    (b.typesFromScalars.length = n.inputs.length →
      InferExpectedScalarType g n =
        some (PromoteScalarTypes b.typesFromScalars, [])) ∧
    (b.typesFromScalars.length ≠ n.inputs.length → ott.scalarType.isSome →
      InferExpectedScalarType g n = some (ott.scalarType, [])) ∧
    (∀ t0 ts, b.typesFromScalars.length ≠ n.inputs.length →
      ott.scalarType = none → b.typesFromTensors = t0 :: ts →
      InferExpectedScalarType g n =
        some (some t0,
          if ∃ t ∈ b.typesFromTensors, t ≠ t0 then
            [Warning.scalarTypeMismatch n.kind t0]
          else [])) ∧
    (b.typesFromScalars.length ≠ n.inputs.length → ott.scalarType = none →
      b.typesFromTensors = [] →
      InferExpectedScalarType g n =
        some (PromoteScalarTypes b.typesFromScalars, [])) := by
  have hcmp := standard_not_comparison hstd
  refine ⟨?_, ?_, ?_, ?_⟩
  · intro hall
    simp [InferExpectedScalarType, hc, ho, hcmp, hall]
  · intro hne hsome
    simp [InferExpectedScalarType, hc, ho, hcmp, hne, hsome]
  · intro t0 ts hne hnone htens
    by_cases hex : ∃ t ∈ b.typesFromTensors, t ≠ t0
    · have hany : (t0 :: ts).any (fun t => t ≠ t0) = true := by
        rw [← htens]
        simp only [List.any_eq_true, decide_eq_true_eq]
        exact hex
      have hexts : ∃ a ∈ ts, ¬a = t0 := by
        obtain ⟨t, ht, hne2⟩ := hex
        rw [htens] at ht
        rcases List.mem_cons.mp ht with rfl | ht
        · exact absurd rfl hne2
        · exact ⟨t, ht, hne2⟩
      simp only [InferExpectedScalarType, hc, ho, hcmp, hne, hnone, htens, hany]
      simp [hexts]
    · have hany : (t0 :: ts).any (fun t => t ≠ t0) = false := by
        rw [← htens]
        simp only [List.any_eq_false, decide_eq_true_eq]
        push_neg at hex
        intro x hx
        simp [hex x hx]
      have hnots : ¬∃ a ∈ ts, ¬a = t0 := by
        push_neg
        push_neg at hex
        intro a ha
        exact hex a (htens ▸ List.mem_cons_of_mem t0 ha)
      simp only [InferExpectedScalarType, hc, ho, hcmp, hne, hnone, htens, hany]
      simp [hnots]
  · intro hne hnone htens
    simp [InferExpectedScalarType, hc, ho, hcmp, hne, hnone, htens]

/-- C7: an input produced by a Gather whose first operand is produced by
a Shape contributes Long to typesFromScalars regardless of the input's
annotation; detection looks exactly two hops deep, so any other
non-Gather, non-Constant producer (e.g. an Unsqueeze hiding the same
pattern) falls through to the tensor-annotation case, which never
classifies the input as a scalar. -/
theorem C7_gather_shape_two_hops (g : Graph) (v w : ValueId) :
    (kindOf g.nodes v = NodeKind.Gather →
     (producerOf g.nodes v).bind (fun pn => pn.inputs.get? 0) = some w →
     kindOf g.nodes w = NodeKind.Shape →
     InferInputItem g v = some (BucketItem.scalarItem ScalarType.Long)) ∧
    (kindOf g.nodes v ≠ NodeKind.Gather → kindOf g.nodes v ≠ NodeKind.Constant →
     InferInputItem g v = InferInputTensorCase g v) ∧
    (∀ r, InferInputTensorCase g v = some r →
      ∀ st, r ≠ BucketItem.scalarItem st) := by
  refine ⟨?_, ?_, ?_⟩
  · intro hg hw hs
    simp only [List.get?_eq_getElem?] at hw
    simp [InferInputItem, hg, hw, hs]
  · intro hng hnc
    simp [InferInputItem, hng, hnc]
  · intro r hr st
    unfold InferInputTensorCase at hr
    split at hr
    · cases hr
    · split at hr
      · cases hr; simp
      · cases hr; simp

end ScalarTypeAnalysis

namespace ScalarTypeAnalysis

/-- C3: for a COMPARISON node the inferred type is the promotion fold
over typesFromScalars followed by typesFromTensors (the source appends
the tensor bucket to the scalar bucket before promoting), and the full
pass never modifies the output element-type annotation of a comparison
node. -/
theorem C3_comparison_promotion_output_unchanged :
    (∀ (g : Graph) (n : Node) (b : Buckets) (ott : TensorTypeAnn),
      IsComparisonOp n.kind = true →
      InferCollect g n = some b →
      n.outputType = some ott →
      InferExpectedScalarType g n =
        some (PromoteScalarTypes
          (b.typesFromScalars ++ b.typesFromTensors), [])) ∧
    (∀ (g g2 : Graph) (ws : List Warning),
      ImplicitCastForONNX g = some (g2, ws) →
      ∀ m ∈ g2.nodes, IsComparisonOp m.kind = true →
        ∃ n ∈ g.nodes, n.kind = m.kind ∧ n.output = m.output ∧
          n.outputType = m.outputType) := by
  constructor
  · intro g n b ott hcmp hc ho
    simp [InferExpectedScalarType, hc, ho, hcmp]
  · intro g g2 ws h m hm hcmp
    unfold ImplicitCastForONNX at h
    cases hpb : ProcessBlock g.inputTypes [] g.nodes g.fresh with
    | none => rw [hpb] at h; cases h
    | some r =>
      rw [hpb] at h
      dsimp only at h
      simp only [Option.some.injEq, Prod.mk.injEq] at h
      obtain ⟨h1, h2⟩ := h
      subst h1
      have hmem := dce_subset
        (show m ∈ EliminateDeadCode g.outs r.nodes from hm)
      rcases processBlock_mem hpb m hmem with hd | hck | ⟨n, hn, hk, ho, hot⟩
      · exact absurd hd (List.not_mem_nil m)
      · rcases hck with hck | hck <;> rw [hck] at hcmp <;> cases hcmp
      · refine ⟨n, hn, hk.symm, ho.symm, ?_⟩
        have hn2 : IsComparisonOp n.kind = true := hk ▸ hcmp
        exact (hot hn2).symm

end ScalarTypeAnalysis

namespace ScalarTypeAnalysis

/-- An Add node fed by two constant literals (Int and Long). -/
def wN2 : Node :=
  { kind := .Add, inputs := [1, 2], output := 3, outputType := some ⟨none⟩ }

/-- Witness graph for C2: Add over two constants. -/
def wG2 : Graph :=
  { inputTypes := [],
    nodes := [
      { kind := .Constant, inputs := [], output := 1,
        attrValue := some ⟨5, .Int⟩, outputType := some ⟨some .Int⟩ },
      { kind := .Constant, inputs := [], output := 2,
        attrValue := some ⟨6, .Long⟩, outputType := some ⟨some .Long⟩ },
      wN2],
    outs := [3], fresh := 4 }

theorem C2_witness :
    InferExpectedScalarType wG2 wN2 =
      some (PromoteScalarTypes [ScalarType.Int, ScalarType.Long], []) :=
  (C2_standard_inference_precedence wG2 wN2 ⟨[], [.Int, .Long]⟩ ⟨none⟩
    rfl (by decide) rfl).1 (by decide)

/-- The Greater node of the C3 witness graph. -/
def wN3 : Node :=
  { kind := .Greater, inputs := [0, 1], output := 2,
    outputType := some ⟨some .Bool⟩ }

/-- Witness graph for C3: Greater(Float input, Double constant). -/
def wG3 : Graph :=
  { inputTypes := [(0, ⟨some .Float⟩)],
    nodes := [
      { kind := .Constant, inputs := [], output := 1,
        attrValue := some ⟨9, .Double⟩, outputType := some ⟨some .Double⟩ },
      wN3],
    outs := [2], fresh := 3 }

/-- The graph produced by the pass on wG3. -/
def wG3r : Graph :=
  { inputTypes := [(0, ⟨some .Float⟩)],
    nodes := [
      { kind := .Cast, inputs := [0], output := 3, attrTo := some 11,
        outputType := some ⟨some .Double⟩ },
      { kind := .Constant, inputs := [], output := 4,
        attrValue := some ⟨9, .Double⟩, outputType := some ⟨some .Double⟩ },
      { kind := .Greater, inputs := [3, 4], output := 2,
        outputType := some ⟨some .Bool⟩ }],
    outs := [2], fresh := 5 }

/-- The comparison node of wG3r. -/
def wM3 : Node :=
  { kind := .Greater, inputs := [3, 4], output := 2,
    outputType := some ⟨some .Bool⟩ }

theorem C3_witness :
    (InferExpectedScalarType wG3 wN3 =
      some (PromoteScalarTypes
        ([ScalarType.Double] ++ [ScalarType.Float]), [])) ∧
    (∃ n ∈ wG3.nodes, n.kind = wM3.kind ∧ n.output = wM3.output ∧
      n.outputType = wM3.outputType) :=
  ⟨C3_comparison_promotion_output_unchanged.1 wG3 wN3 ⟨[.Float], [.Double]⟩
      ⟨some .Bool⟩ rfl (by decide) rfl,
   C3_comparison_promotion_output_unchanged.2 wG3 wG3r [] (by decide) wM3
      (by decide) rfl⟩

/-- Witness graph for C7: the Gather(Shape(x), i) pattern (annotated Int
to show the annotation is ignored) and the same pattern hidden behind
an Unsqueeze. -/
def wG7 : Graph :=
  { inputTypes := [(0, ⟨some .Float⟩)],
    nodes := [
      { kind := .Shape, inputs := [0], output := 1, outputType := some ⟨none⟩ },
      { kind := .Constant, inputs := [], output := 2,
        attrValue := some ⟨0, .Long⟩, outputType := some ⟨some .Long⟩ },
      { kind := .Gather, inputs := [1, 2], output := 3,
        outputType := some ⟨some .Int⟩ },
      { kind := .Unsqueeze, inputs := [3], output := 4,
        outputType := some ⟨some .Long⟩ }],
    outs := [4], fresh := 5 }

theorem C7_witness :
    InferInputItem wG7 3 = some (BucketItem.scalarItem ScalarType.Long) ∧
    InferInputItem wG7 4 = InferInputTensorCase wG7 4 ∧
    BucketItem.tensorItem ScalarType.Long ≠
      BucketItem.scalarItem ScalarType.Long :=
  ⟨(C7_gather_shape_two_hops wG7 3 1).1 (by decide) (by decide) (by decide),
   (C7_gather_shape_two_hops wG7 4 0).2.1 (by decide) (by decide),
   (C7_gather_shape_two_hops wG7 4 0).2.2
     (BucketItem.tensorItem ScalarType.Long) (by decide) ScalarType.Long⟩

end ScalarTypeAnalysis

namespace ScalarTypeAnalysis

theorem infer_some_outputType {g : Graph} {n : Node}
    {p : Option ScalarType × List Warning}
    (h : InferExpectedScalarType g n = some p) :
    ∃ ott, n.outputType = some ott := by
  unfold InferExpectedScalarType at h
  split at h
  · cases h
  · split at h
    · cases h
    · rename_i ott hott
      exact ⟨ott, hott⟩

theorem standard_implicit {k : NodeKind} (h : IsStandardOp k = true) :
    IsImplicitCastSupported k = true := by
  simp [IsImplicitCastSupported, h]

/-- C5: an input whose producer is a constant literal is always replaced
(no hypothesis on the constant's stored element type: even a matching
type is replaced) by a fresh constant holding the literal converted to
the target type, inserted directly before the consumer, annotated with
the target type, with the consumer's edge rewired to it; the old
producer node survives the rewrite (with its kind and literal intact,
identified by its output id). -/
theorem C5_constant_always_replaced
    (it : List (ValueId × TensorTypeAnn)) (post : List Node) (T : ScalarType)
    (s : RewriteState) (i : Nat) (v : ValueId) (t : Tensor) (tt : TensorTypeAnn)
    (hget : s.node.inputs.get? i = some v)
    (hvt : vtypeOf ⟨it, s.pre ++ s.node :: post, [], s.fresh⟩ v = some tt)
    (hk : kindOf (s.pre ++ s.node :: post) v = NodeKind.Constant)
    (ht : (producerOf (s.pre ++ s.node :: post) v).bind Node.attrValue = some t) :
    UpdateLoopStep it post T (ScalarTypeToONNXType T) s i =
      some ⟨s.pre ++ [{ kind := .Constant, inputs := [], output := s.fresh,
                        attrValue := some (t.to T),
                        outputType := some (TensorTypeAnn.create (t.to T)) }],
            s.node.replaceInputWith v s.fresh, s.fresh + 1⟩ ∧
    (∀ p, producerOf (s.pre ++ s.node :: post) v = some p →
      ∃ q ∈ s.pre ++ [{ kind := .Constant, inputs := [], output := s.fresh,
                        attrValue := some (t.to T),
                        outputType := some (TensorTypeAnn.create (t.to T)) :
                        Node }] ++
            (s.node.replaceInputWith v s.fresh) :: post,
        q.output = p.output ∧ q.kind = p.kind ∧ q.attrValue = p.attrValue) := by
  simp only [List.get?_eq_getElem?] at hget
  constructor
  · simp [UpdateLoopStep, hget, hvt, hk, ht]
  · intro p hp
    have hpmem : p ∈ s.pre ++ s.node :: post := List.mem_of_find?_eq_some hp
    rw [List.mem_append] at hpmem
    rcases hpmem with hpre | hpost
    · exact ⟨p, by simp [hpre], rfl, rfl, rfl⟩
    · rcases List.mem_cons.mp hpost with rfl | hpost
      · exact ⟨s.node.replaceInputWith v s.fresh, by simp, by simp, by simp,
          by simp⟩
      · exact ⟨p, by simp [hpost], rfl, rfl, rfl⟩

/-- C6: an input whose producer is not a constant and whose annotated
element type exists and differs from the target gets a fresh Cast node
with that input as sole operand and integer attribute "to" holding the
codec encoding of the target, inserted directly before the consumer,
its output annotated with the target type, and the consumer's edge
rewired to it; an input with matching type or no annotated element type
is left unchanged. -/
theorem C6_cast_or_skip
    (it : List (ValueId × TensorTypeAnn)) (post : List Node) (T : ScalarType)
    (s : RewriteState) (i : Nat) (v : ValueId) (tt : TensorTypeAnn)
    (hget : s.node.inputs.get? i = some v)
    (hvt : vtypeOf ⟨it, s.pre ++ s.node :: post, [], s.fresh⟩ v = some tt)
    (hk : kindOf (s.pre ++ s.node :: post) v ≠ NodeKind.Constant) :
    (∀ st0, tt.scalarType = some st0 → st0 ≠ T →
      UpdateLoopStep it post T (ScalarTypeToONNXType T) s i =
        some ⟨s.pre ++ [{ kind := .Cast, inputs := [v], output := s.fresh,
                          attrTo := some (ScalarTypeToONNXType T),
                          outputType := some ⟨some T⟩ }],
              s.node.replaceInputWith v s.fresh, s.fresh + 1⟩) ∧
    (tt.scalarType = none ∨ tt.scalarType = some T →
      UpdateLoopStep it post T (ScalarTypeToONNXType T) s i = some s) := by
  simp only [List.get?_eq_getElem?] at hget
  constructor
  · intro st0 hst0 hne
    have hcond : tt.scalarType.isSome ∧ tt.scalarType ≠ some T := by
      rw [hst0]
      exact ⟨rfl, by simpa using hne⟩
    simp [UpdateLoopStep, hget, hvt, hk, hcond, CreateProfiledTensorTypeWithScalarType]
  · intro htt
    simp only [UpdateLoopStep, List.get?_eq_getElem?, hget, hvt]
    split
    · rename_i hc
      rcases hc with hc | ⟨hs, hne⟩
      · exact absurd hc hk
      · rcases htt with hn | hT
        · rw [hn] at hs; cases hs
        · exact absurd hT hne
    · rfl

/-- C8: when the inferred type has no wire-format code the input
rewriter emits a warning naming the type and the operator kind and
returns with the node and block unchanged; the pass does not abort, and
for a STANDARD node the driver still updates the node's output
annotation to the inferred type. -/
theorem C8_sentinel_skips_inputs_still_updates_output
    (it : List (ValueId × TensorTypeAnn)) (pre post done rest : List Node)
    (n : Node) (fresh : ValueId) (T : ScalarType) (ws : List Warning)
    (hneg : ScalarTypeToONNXType T < 0) :
    (UpdateScalarTypeForInputs it pre n post fresh T =
      some (⟨pre, n, fresh⟩, [Warning.unsupportedScalarType T n.kind])) ∧
    (IsStandardOp n.kind = true →
      InferExpectedScalarType ⟨it, done ++ n :: rest, [], fresh⟩ n =
        some (some T, ws) →
      ProcessNode it done n rest fresh =
        some ⟨done ++ [{ n with outputType := some ⟨some T⟩ }], fresh,
              ws ++ [Warning.unsupportedScalarType T n.kind]⟩) := by
  constructor
  · simp [UpdateScalarTypeForInputs, hneg]
  · intro hstd hinf
    obtain ⟨ott, hott⟩ := infer_some_outputType hinf
    have hupd : UpdateScalarTypeForInputs it done n rest fresh T =
        some (⟨done, n, fresh⟩, [Warning.unsupportedScalarType T n.kind]) := by
      simp [UpdateScalarTypeForInputs, hneg]
    unfold ProcessNode
    rw [if_pos (standard_implicit hstd), hinf]
    dsimp only
    rw [hupd]
    dsimp only
    rw [if_neg (by simp [standard_not_comparison hstd])]
    simp [UpdateScalarTypeForOutput, hott, CreateProfiledTensorTypeWithScalarType]

end ScalarTypeAnalysis

namespace ScalarTypeAnalysis

/-- The constant node of the C5 witness. -/
def w5c : Node :=
  { kind := .Constant, inputs := [], output := 1,
    attrValue := some ⟨7, .Float⟩, outputType := some ⟨some .Float⟩ }

/-- The consumer node of the C5 witness. -/
def w5n : Node :=
  { kind := .Mul, inputs := [0, 1], output := 2, outputType := some ⟨none⟩ }

/-- The loop state of the C5 witness: the constant already sits in the
prefix; its stored type already equals the target Float. -/
def w5s : RewriteState := ⟨[w5c], w5n, 3⟩

theorem C5_witness :
    UpdateLoopStep [(0, ⟨some .Float⟩)] [] ScalarType.Float
        (ScalarTypeToONNXType ScalarType.Float) w5s 1 =
      some ⟨w5s.pre ++ [{ kind := .Constant, inputs := [], output := 3,
                          attrValue := some (Tensor.to ⟨7, .Float⟩ .Float),
                          outputType := some (TensorTypeAnn.create
                            (Tensor.to ⟨7, .Float⟩ .Float)) }],
            w5n.replaceInputWith 1 3, 4⟩ ∧
    (∃ q ∈ w5s.pre ++ [{ kind := .Constant, inputs := [], output := 3,
                         attrValue := some (Tensor.to ⟨7, .Float⟩ .Float),
                         outputType := some (TensorTypeAnn.create
                           (Tensor.to ⟨7, .Float⟩ .Float)) : Node }] ++
          (w5n.replaceInputWith 1 3) :: ([] : List Node),
      q.output = w5c.output ∧ q.kind = w5c.kind ∧
        q.attrValue = w5c.attrValue) := by
  have h := C5_constant_always_replaced [(0, ⟨some .Float⟩)] [] ScalarType.Float
    w5s 1 1 ⟨7, .Float⟩ ⟨some .Float⟩ (by decide) (by decide) (by decide)
    (by decide)
  exact ⟨h.1, h.2 w5c (by decide)⟩

/-- The consumer node of the C6 witness: input 0 is an Int tensor (cast
needed), input 1 is a Float tensor (match: untouched). -/
def w6n : Node :=
  { kind := .Add, inputs := [0, 1], output := 2, outputType := some ⟨none⟩ }

/-- The loop state of the C6 witness. -/
def w6s : RewriteState := ⟨[], w6n, 5⟩

/-- The block inputs of the C6 witness. -/
def w6it : List (ValueId × TensorTypeAnn) :=
  [(0, ⟨some .Int⟩), (1, ⟨some .Float⟩)]

theorem C6_witness :
    (UpdateLoopStep w6it [] ScalarType.Float
        (ScalarTypeToONNXType ScalarType.Float) w6s 0 =
      some ⟨[{ kind := .Cast, inputs := [0], output := 5,
               attrTo := some (ScalarTypeToONNXType ScalarType.Float),
               outputType := some ⟨some .Float⟩ }],
            w6n.replaceInputWith 0 5, 6⟩) ∧
    (UpdateLoopStep w6it [] ScalarType.Float
        (ScalarTypeToONNXType ScalarType.Float) w6s 1 = some w6s) :=
  ⟨(C6_cast_or_skip w6it [] ScalarType.Float w6s 0 0 ⟨some .Int⟩
      (by decide) (by decide) (by decide)).1 ScalarType.Int rfl (by decide),
   (C6_cast_or_skip w6it [] ScalarType.Float w6s 1 1 ⟨some .Float⟩
      (by decide) (by decide) (by decide)).2 (Or.inr rfl)⟩

/-- The node of the C8 witness: STANDARD op whose output is annotated
BFloat16, a type without a wire-format code. -/
def w8n : Node :=
  { kind := .Add, inputs := [0, 1], output := 2,
    outputType := some ⟨some .BFloat16⟩ }

/-- The block inputs of the C8 witness. -/
def w8it : List (ValueId × TensorTypeAnn) :=
  [(0, ⟨some .Float⟩), (1, ⟨some .Float⟩)]

theorem C8_witness :
    (UpdateScalarTypeForInputs w8it [] w8n [] 3 ScalarType.BFloat16 =
      some (⟨[], w8n, 3⟩,
        [Warning.unsupportedScalarType ScalarType.BFloat16 w8n.kind])) ∧
    (ProcessNode w8it [] w8n [] 3 =
      some ⟨[] ++ [{ w8n with outputType := some ⟨some .BFloat16⟩ }], 3,
            [] ++ [Warning.unsupportedScalarType ScalarType.BFloat16
                     w8n.kind]⟩) := by
  have h := C8_sentinel_skips_inputs_still_updates_output w8it [] [] [] [] w8n
    3 ScalarType.BFloat16 [] (by decide)
  exact ⟨h.1, h.2 rfl (by decide)⟩

end ScalarTypeAnalysis

namespace ScalarTypeAnalysis

/-- Availability-ordering of a block: every node's inputs are block
inputs or outputs of earlier nodes (the IR keeps blocks topologically
sorted). -/
def TopoOk (avail : List ValueId) : List Node → Prop
  | [] => True
  | n :: rest => (∀ v ∈ n.inputs, v ∈ avail) ∧ TopoOk (avail ++ [n.output]) rest

instance instDecTopoOk : ∀ (avail : List ValueId) (l : List Node),
    Decidable (TopoOk avail l)
  | _, [] => .isTrue trivial
  | avail, n :: rest =>
    have : Decidable (TopoOk (avail ++ [n.output]) rest) :=
      instDecTopoOk (avail ++ [n.output]) rest
    by unfold TopoOk; exact instDecidableAnd

/-- Every value id mentioned in the block is below the fresh-id
counter. -/
def IdsBounded (it : List (ValueId × TensorTypeAnn)) (nodes : List Node)
    (fresh : ValueId) : Prop :=
  (∀ p ∈ it, p.1 < fresh) ∧
  ∀ n ∈ nodes, n.output < fresh ∧ ∀ v ∈ n.inputs, v < fresh

/-- Block-input ids and node outputs are pairwise distinct (SSA). -/
def UniqueIds (it : List (ValueId × TensorTypeAnn)) (nodes : List Node) : Prop :=
  (it.map Prod.fst ++ nodes.map Node.output).Nodup

/-- Well-formedness of a graph as maintained by the IR. -/
def WellFormedGraph (g : Graph) : Prop :=
  IdsBounded g.inputTypes g.nodes g.fresh ∧
  UniqueIds g.inputTypes g.nodes ∧
  TopoOk (g.inputTypes.map Prod.fst) g.nodes

theorem producerOf_append (l1 l2 : List Node) (v : ValueId) :
    producerOf (l1 ++ l2) v = (producerOf l1 v).or (producerOf l2 v) := by
  simp [producerOf, List.find?_append]

theorem producerOf_append_of_some {l1 : List Node} {v : ValueId} {p : Node}
    (l2 : List Node) (h : producerOf l1 v = some p) :
    producerOf (l1 ++ l2) v = some p := by
  rw [producerOf_append, h]
  rfl

theorem producerOf_append_of_none {l1 : List Node} {v : ValueId}
    (l2 : List Node) (h : producerOf l1 v = none) :
    producerOf (l1 ++ l2) v = producerOf l2 v := by
  rw [producerOf_append, h]
  rfl

theorem producerOf_high_none {l : List Node} {v f : ValueId}
    (hb : ∀ m ∈ l, f ≤ m.output) (hv : v < f) :
    producerOf l v = none := by
  induction l with
  | nil => rfl
  | cons a l ih =>
    unfold producerOf
    rw [List.find?_cons]
    split
    · rename_i hc
      have ha := hb a (List.mem_cons_self a l)
      have hav : a.output = v := by simpa using hc
      exact absurd (hav ▸ ha) (Nat.not_le.mpr hv)
    · exact ih (fun m hm => hb m (List.mem_cons_of_mem a hm))

theorem producerOf_cons_ne {a : Node} {l : List Node} {v : ValueId}
    (h : a.output ≠ v) : producerOf (a :: l) v = producerOf l v := by
  unfold producerOf
  rw [List.find?_cons]
  split
  · rename_i hc
    exact absurd (by simpa using hc) h
  · rfl

end ScalarTypeAnalysis

namespace ScalarTypeAnalysis

/-- The precondition C10 claims: TensorType annotations on the output
and every input of a whitelisted node, and a "value" attribute on every
constant producer of such an input. -/
def ClaimedPrecond (g : Graph) : Prop :=
  ∀ n ∈ g.nodes, IsImplicitCastSupported n.kind = true →
    n.outputType.isSome ∧
    ∀ v ∈ n.inputs, (vtypeOf g v).isSome ∧
      (kindOf g.nodes v = NodeKind.Constant →
        ((producerOf g.nodes v).bind Node.attrValue).isSome)

/-- The condition the claimed precondition misses: a Gather producing an
input of a whitelisted node must have a first operand (the pattern check
reads input(0) of the producer unguarded). -/
def GatherArityOk (g : Graph) : Prop :=
  ∀ n ∈ g.nodes, IsImplicitCastSupported n.kind = true →
    ∀ v ∈ n.inputs, ∀ pn, producerOf g.nodes v = some pn →
      pn.kind = NodeKind.Gather → pn.inputs ≠ []

/-- What the input-rewriting loop needs of one input value. -/
def GoodIn (g : Graph) (v : ValueId) : Prop :=
  (vtypeOf g v).isSome ∧
  (kindOf g.nodes v = NodeKind.Constant →
    ((producerOf g.nodes v).bind Node.attrValue).isSome)

/-- What type inference needs of one node. -/
def InferPre (g : Graph) (n : Node) : Prop :=
  n.outputType.isSome ∧
  ∀ v ∈ n.inputs, GoodIn g v ∧
    (∀ pn, producerOf g.nodes v = some pn → pn.kind = NodeKind.Gather →
      pn.inputs ≠ [])

theorem kindOf_eq_some {nodes : List Node} {v : ValueId} {k : NodeKind}
    (hk : k ≠ .Param) (h : kindOf nodes v = k) :
    ∃ pn, producerOf nodes v = some pn ∧ pn.kind = k := by
  unfold kindOf at h
  split at h
  · rename_i pn hpn
    exact ⟨pn, hpn, h⟩
  · exact absurd h.symm hk

theorem inferInputTensorCase_total {g : Graph} {v : ValueId}
    (h : (vtypeOf g v).isSome) : (InferInputTensorCase g v).isSome := by
  unfold InferInputTensorCase
  obtain ⟨tt, htt⟩ := Option.isSome_iff_exists.mp h
  rw [htt]
  cases hst : tt.scalarType <;> simp [hst]

theorem inferInputItem_total {g : Graph} {v : ValueId}
    (hgood : GoodIn g v)
    (hga : ∀ pn, producerOf g.nodes v = some pn →
      pn.kind = NodeKind.Gather → pn.inputs ≠ []) :
    (InferInputItem g v).isSome := by
  unfold InferInputItem
  by_cases hkg : kindOf g.nodes v = NodeKind.Gather
  · obtain ⟨pn, hpn, hpnk⟩ := kindOf_eq_some (by simp) hkg
    have hne := hga pn hpn hpnk
    obtain ⟨w, hw⟩ : ∃ w, pn.inputs.get? 0 = some w := by
      cases hi : pn.inputs with
      | nil => exact absurd hi hne
      | cons a l => exact ⟨a, by simp [hi]⟩
    rw [if_pos hkg, hpn]
    simp only [Option.some_bind]
    rw [hw]
    split
    · rename_i heq
      cases heq
    · rename_i w2 heq
      split
      · simp
      · exact inferInputTensorCase_total hgood.1
  · rw [if_neg hkg]
    by_cases hkc : kindOf g.nodes v = NodeKind.Constant
    · rw [if_pos hkc]
      obtain ⟨t, ht⟩ := Option.isSome_iff_exists.mp (hgood.2 hkc)
      rw [ht]
      simp
    · rw [if_neg hkc]
      exact inferInputTensorCase_total hgood.1

theorem inferCollect_total {g : Graph} {n : Node}
    (h : ∀ v ∈ n.inputs, (InferInputItem g v).isSome) :
    (InferCollect g n).isSome := by
  unfold InferCollect
  suffices hgen : ∀ (l : List ValueId) (acc : Buckets),
      (∀ v ∈ l, (InferInputItem g v).isSome) →
      (l.foldlM (fun acc v => (InferInputItem g v).map acc.push) acc).isSome by
    exact hgen n.inputs ⟨[], []⟩ h
  intro l
  induction l with
  | nil => intro acc _; simp
  | cons v l ih =>
    intro acc hl
    rw [List.foldlM_cons]
    obtain ⟨item, hitem⟩ :=
      Option.isSome_iff_exists.mp (hl v (List.mem_cons_self v l))
    rw [hitem]
    simp only [Option.map_some, Option.bind_eq_bind, Option.some_bind]
    exact ih _ (fun w hw => hl w (List.mem_cons_of_mem v hw))

theorem infer_total {g : Graph} {n : Node} (h : InferPre g n) :
    (InferExpectedScalarType g n).isSome := by
  unfold InferExpectedScalarType
  obtain ⟨b, hb⟩ := Option.isSome_iff_exists.mp
    (inferCollect_total (fun v hv =>
      inferInputItem_total (h.2 v hv).1 (h.2 v hv).2))
  obtain ⟨ott, hott⟩ := Option.isSome_iff_exists.mp h.1
  rw [hb, hott]
  dsimp only
  split
  · simp
  · split
    · simp
    · split
      · simp
      · split
        · simp
        · split <;> simp

end ScalarTypeAnalysis

namespace ScalarTypeAnalysis

theorem producerOf_skip {l1 : List Node} {w : ValueId}
    (l2 : List Node) (h : ∀ c ∈ l1, c.output ≠ w) :
    producerOf (l1 ++ l2) w = producerOf l2 w := by
  induction l1 with
  | nil => simp
  | cons a l ih =>
    rw [List.cons_append,
      producerOf_cons_ne (h a (List.mem_cons_self a l))]
    exact ih (fun c hc => h c (List.mem_cons_of_mem a hc))

theorem producerOf_cons_self {n : Node} {l : List Node} :
    producerOf (n :: l) n.output = some n := by
  unfold producerOf
  rw [List.find?_cons]
  split
  · rfl
  · rename_i hc
    simp at hc

/-- One rewriting step replaces the block's view
pre ++ n :: post by pre2 ++ ins ++ n2 :: post where the inserted nodes
carry ids different from w and n2 shares n's output, kind, literal and
input arity; every lookup the pass makes at w is preserved. -/
theorem view_pres {it : List (ValueId × TensorTypeAnn)}
    {pre ins post : List Node} {n n2 : Node} {w : ValueId}
    {o1 o2 : List ValueId} {f1 f2 : ValueId}
    (hins : ∀ c ∈ ins, c.output ≠ w)
    (ho : n2.output = n.output) (hk : n2.kind = n.kind)
    (hav : n2.attrValue = n.attrValue)
    (hlen : n2.inputs.length = n.inputs.length)
    (hot : n.outputType.isSome → n2.outputType.isSome) :
    kindOf (pre ++ ins ++ n2 :: post) w = kindOf (pre ++ n :: post) w ∧
    ((vtypeOf ⟨it, pre ++ n :: post, o1, f1⟩ w).isSome →
      (vtypeOf ⟨it, pre ++ ins ++ n2 :: post, o2, f2⟩ w).isSome) ∧
    (producerOf (pre ++ ins ++ n2 :: post) w).bind Node.attrValue =
      (producerOf (pre ++ n :: post) w).bind Node.attrValue ∧
    (∀ pn, producerOf (pre ++ n :: post) w = some pn →
      ∃ pn2, producerOf (pre ++ ins ++ n2 :: post) w = some pn2 ∧
        pn2.kind = pn.kind ∧ pn2.inputs.length = pn.inputs.length) := by
  cases hpre : producerOf pre w with
  | some p =>
    have h1 : producerOf (pre ++ n :: post) w = some p :=
      producerOf_append_of_some _ hpre
    have h2 : producerOf (pre ++ ins ++ n2 :: post) w = some p := by
      rw [List.append_assoc]
      exact producerOf_append_of_some _ hpre
    refine ⟨?_, ?_, ?_, ?_⟩
    · unfold kindOf
      rw [h1, h2]
    · unfold vtypeOf
      simp only [h1, h2]
      exact fun h => h
    · rw [h1, h2]
    · intro pn hpn
      rw [h1] at hpn
      cases hpn
      exact ⟨p, h2, rfl, rfl⟩
  | none =>
    have h1 : producerOf (pre ++ n :: post) w = producerOf (n :: post) w :=
      producerOf_append_of_none _ hpre
    have h2 : producerOf (pre ++ ins ++ n2 :: post) w =
        producerOf (n2 :: post) w := by
      rw [List.append_assoc]
      rw [producerOf_append_of_none _ hpre]
      exact producerOf_skip _ hins
    by_cases hw : n.output = w
    · have h1s : producerOf (pre ++ n :: post) w = some n := by
        rw [h1, ← hw]
        exact producerOf_cons_self
      have h2s : producerOf (pre ++ ins ++ n2 :: post) w = some n2 := by
        rw [h2, ← hw, ← ho]
        exact producerOf_cons_self
      refine ⟨?_, ?_, ?_, ?_⟩
      · unfold kindOf
        rw [h1s, h2s]
        exact hk
      · unfold vtypeOf
        simp only [h1s, h2s]
        exact hot
      · rw [h1s, h2s]
        simp [hav]
      · intro pn hpn
        rw [h1s] at hpn
        cases hpn
        exact ⟨n2, h2s, hk, hlen⟩
    · have h1p : producerOf (pre ++ n :: post) w = producerOf post w := by
        rw [h1, producerOf_cons_ne hw]
      have h2p : producerOf (pre ++ ins ++ n2 :: post) w = producerOf post w := by
        rw [h2, producerOf_cons_ne (ho.trans_ne hw)]
      refine ⟨?_, ?_, ?_, ?_⟩
      · unfold kindOf
        rw [h1p, h2p]
      · unfold vtypeOf
        simp only [h1p, h2p]
        exact fun h => h
      · rw [h1p, h2p]
      · intro pn hpn
        rw [h1p] at hpn
        exact ⟨pn, by rw [h2p]; exact hpn, rfl, rfl⟩

end ScalarTypeAnalysis

namespace ScalarTypeAnalysis

theorem producerOf_none_of_ne {l : List Node} {v : ValueId}
    (h : ∀ m ∈ l, m.output ≠ v) : producerOf l v = none := by
  induction l with
  | nil => rfl
  | cons a rest ih =>
    rw [producerOf_cons_ne (h a (List.mem_cons_self a rest))]
    exact ih (fun m hm => h m (List.mem_cons_of_mem a hm))

/-- Invariant carried through the input-rewriting loop that guarantees
each iteration succeeds. -/
def LoopTotInv (it : List (ValueId × TensorTypeAnn)) (post : List Node)
    (s : RewriteState) : Prop :=
  (∀ p ∈ it, p.1 < s.fresh) ∧
  (∀ m ∈ s.pre ++ s.node :: post, m.output < s.fresh ∧
    ∀ u ∈ m.inputs, u < s.fresh) ∧
  (∀ v ∈ s.node.inputs, GoodIn ⟨it, s.pre ++ s.node :: post, [], s.fresh⟩ v)

theorem loopStep_total {it : List (ValueId × TensorTypeAnn)}
    {post : List Node} {T : ScalarType} {ot : Int} {s : RewriteState} {i : Nat}
    (hinv : LoopTotInv it post s) (hi : i < s.node.inputs.length) :
    ∃ s2, UpdateLoopStep it post T ot s i = some s2 ∧ LoopTotInv it post s2 ∧
      s2.node.inputs.length = s.node.inputs.length ∧ s.fresh ≤ s2.fresh := by
  obtain ⟨hit, hout, hin⟩ := hinv
  obtain ⟨v, hv⟩ : ∃ v, s.node.inputs.get? i = some v :=
    ⟨s.node.inputs.get ⟨i, hi⟩, List.get?_eq_get hi⟩
  have hvmem : v ∈ s.node.inputs := List.get?_mem hv
  have hvgood := hin v hvmem
  have hvlt : v < s.fresh := (hout s.node (by simp)).2 v hvmem
  obtain ⟨tt, htt⟩ := Option.isSome_iff_exists.mp hvgood.1
  have hinlt : ∀ w ∈ (s.node.replaceInputWith v s.fresh).inputs,
      w < s.fresh + 1 := by
    intro w hw
    simp only [Node.replaceInputWith, List.mem_map] at hw
    obtain ⟨u, hu, hfu⟩ := hw
    by_cases huv : u = v
    · rw [if_pos huv] at hfu
      rw [← hfu]
      exact Nat.lt_succ_self _
    · rw [if_neg huv] at hfu
      rw [← hfu]
      exact Nat.lt_succ_of_lt ((hout s.node (by simp)).2 u hu)
  -- bounds in the updated view, for any created node c with fresh output
  -- and bounded inputs
  have houtlt : ∀ (c : Node), c.output = s.fresh →
      (∀ u ∈ c.inputs, u < s.fresh) →
      ∀ m ∈ (s.pre ++ [c]) ++ (s.node.replaceInputWith v s.fresh) :: post,
        m.output < s.fresh + 1 ∧ ∀ u ∈ m.inputs, u < s.fresh + 1 := by
    intro c hc hcin m hm
    rcases List.mem_append.mp hm with hm1 | hm1
    · rcases List.mem_append.mp hm1 with hm2 | hm2
      · have hold := hout m (List.mem_append_left _ hm2)
        exact ⟨Nat.lt_succ_of_lt hold.1,
          fun u hu => Nat.lt_succ_of_lt (hold.2 u hu)⟩
      · rw [List.mem_singleton] at hm2
        subst hm2
        exact ⟨hc ▸ Nat.lt_succ_self _,
          fun u hu => Nat.lt_succ_of_lt (hcin u hu)⟩
    · rcases List.mem_cons.mp hm1 with hm2 | hm2
      · subst hm2
        exact ⟨Nat.lt_succ_of_lt (hout s.node (by simp)).1, hinlt⟩
      · have hold := hout m (by simp [hm2])
        exact ⟨Nat.lt_succ_of_lt hold.1,
          fun u hu => Nat.lt_succ_of_lt (hold.2 u hu)⟩
  -- GoodIn facts in the updated view
  have hgood2 : ∀ (c : Node), c.output = s.fresh → c.outputType.isSome →
      (c.kind = NodeKind.Constant → c.attrValue.isSome) →
      ∀ w ∈ (s.node.replaceInputWith v s.fresh).inputs,
        GoodIn ⟨it, (s.pre ++ [c]) ++ (s.node.replaceInputWith v s.fresh) :: post,
                [], s.fresh + 1⟩ w := by
    intro c hc hcty hcattr w hw
    simp only [Node.replaceInputWith, List.mem_map] at hw
    obtain ⟨u, hu, hfu⟩ := hw
    by_cases huv : u = v
    · -- the rewired edge: its producer is the created node
      rw [if_pos huv] at hfu
      subst hfu
      have hpc : producerOf ((s.pre ++ [c]) ++
          (s.node.replaceInputWith v s.fresh) :: post) s.fresh = some c := by
        have h1 : producerOf (s.pre ++ [c]) s.fresh = some c := by
          rw [producerOf_append,
            producerOf_none_of_ne
              (fun m hm => Nat.ne_of_lt (hout m (by simp [hm])).1),
            Option.none_or, ← hc]
          exact producerOf_cons_self
        exact producerOf_append_of_some _ h1
      constructor
      · unfold vtypeOf
        simp only [hpc]
        exact hcty
      · intro hkc
        rw [hpc]
        unfold kindOf at hkc
        rw [hpc] at hkc
        simpa using hcattr hkc
    · rw [if_neg huv] at hfu
      subst hfu
      have hulgood := hin u hu
      have hult : u < s.fresh := (hout s.node (by simp)).2 u hu
      have hp := @view_pres it s.pre [c] post
        s.node (s.node.replaceInputWith v s.fresh) u
        [] [] s.fresh (s.fresh + 1)
        (fun d hd => by
          rw [List.mem_singleton] at hd
          rw [hd, hc]
          exact Nat.ne_of_gt hult)
        (by simp) (by simp) (by simp) (by simp) (by simp)
      constructor
      · exact hp.2.1 hulgood.1
      · intro hkc
        rw [hp.1] at hkc
        rw [hp.2.2.1]
        exact hulgood.2 hkc
  -- run the step
  unfold UpdateLoopStep
  rw [hv]
  dsimp only
  rw [htt]
  dsimp only
  by_cases hcond : kindOf (s.pre ++ s.node :: post) v = NodeKind.Constant ∨
      (tt.scalarType.isSome ∧ tt.scalarType ≠ some T)
  · rw [if_pos hcond]
    by_cases hkc : kindOf (s.pre ++ s.node :: post) v = NodeKind.Constant
    · rw [if_pos hkc]
      obtain ⟨val, hval⟩ := Option.isSome_iff_exists.mp (hvgood.2 hkc)
      rw [hval]
      refine ⟨_, rfl, ⟨?_, ?_, ?_⟩, by simp, Nat.le_succ _⟩
      · exact fun p hp => Nat.lt_succ_of_lt (hit p hp)
      · exact houtlt _ rfl (by simp)
      · intro w hw
        exact hgood2 _ rfl (by simp) (by simp) w hw
    · rw [if_neg hkc]
      refine ⟨_, rfl, ⟨?_, ?_, ?_⟩, by simp, Nat.le_succ _⟩
      · exact fun p hp => Nat.lt_succ_of_lt (hit p hp)
      · exact houtlt _ rfl (by
          intro u hu
          rw [List.mem_singleton] at hu
          rw [hu]
          exact hvlt)
      · intro w hw
        exact hgood2 _ rfl (by simp) (by simp) w hw
  · rw [if_neg hcond]
    exact ⟨s, rfl, ⟨hit, hout, hin⟩, rfl, Nat.le_refl _⟩

end ScalarTypeAnalysis

namespace ScalarTypeAnalysis

theorem loopFold_total {it : List (ValueId × TensorTypeAnn)}
    {post : List Node} {T : ScalarType} {ot : Int} {len0 : Nat} :
    ∀ (l : List Nat) (s : RewriteState), (∀ j ∈ l, j < len0) →
    LoopTotInv it post s → s.node.inputs.length = len0 →
    ∃ s2, l.foldlM (UpdateLoopStep it post T ot) s = some s2 ∧
      LoopTotInv it post s2 ∧ s2.node.inputs.length = len0 ∧
      s.fresh ≤ s2.fresh := by
  intro l
  induction l with
  | nil =>
    intro s _ hinv hlen
    exact ⟨s, by simp, hinv, hlen, Nat.le_refl _⟩
  | cons j l ih =>
    intro s hl hinv hlen
    obtain ⟨s1, hs1, hinv1, hlen1, hfr1⟩ :=
      @loopStep_total it post T ot s j hinv
        (by rw [hlen]; exact hl j (List.mem_cons_self j l))
    obtain ⟨s2, hs2, hinv2, hlen2, hfr2⟩ := ih s1
      (fun k hk => hl k (List.mem_cons_of_mem j hk))
      hinv1 (hlen1.trans hlen)
    refine ⟨s2, ?_, hinv2, hlen2, Nat.le_trans hfr1 hfr2⟩
    rw [List.foldlM_cons, hs1]
    simpa using hs2

theorem updateInputs_total {it : List (ValueId × TensorTypeAnn)}
    {pre post : List Node} {n : Node} {fresh : ValueId} {T : ScalarType}
    (hinv : LoopTotInv it post ⟨pre, n, fresh⟩) :
    ∃ s2 ws, UpdateScalarTypeForInputs it pre n post fresh T = some (s2, ws) ∧
      LoopTotInv it post s2 ∧ s2.node.inputs.length = n.inputs.length ∧
      fresh ≤ s2.fresh := by
  unfold UpdateScalarTypeForInputs
  by_cases hneg : ScalarTypeToONNXType T < 0
  · rw [if_pos hneg]
    exact ⟨⟨pre, n, fresh⟩, _, rfl, hinv, rfl, Nat.le_refl _⟩
  · rw [if_neg hneg]
    obtain ⟨s2, hs2, hinv2, hlen2, hfr2⟩ :=
      @loopFold_total it post T (ScalarTypeToONNXType T) n.inputs.length
        (List.range n.inputs.length) ⟨pre, n, fresh⟩
        (fun j hj => List.mem_range.mp hj) hinv rfl
    rw [hs2]
    exact ⟨s2, [], rfl, hinv2, hlen2, hfr2⟩

end ScalarTypeAnalysis

namespace ScalarTypeAnalysis

/-- Invariant carried through the driver loop that guarantees each node
step succeeds: id bounds plus the inference precondition for every
still-unprocessed node. -/
def BlockTotInv (it : List (ValueId × TensorTypeAnn)) (all : List Node)
    (fresh : ValueId) (rest : List Node) : Prop :=
  (∀ p ∈ it, p.1 < fresh) ∧
  (∀ m ∈ all, m.output < fresh ∧ ∀ u ∈ m.inputs, u < fresh) ∧
  (∀ m ∈ rest, IsImplicitCastSupported m.kind = true →
    InferPre ⟨it, all, [], fresh⟩ m)

theorem list_reassoc (done rest : List Node) (n : Node) :
    (done ++ [n]) ++ rest = done ++ n :: rest := by
  rw [List.append_assoc, List.singleton_append]

theorem infermem_pres {it : List (ValueId × TensorTypeAnn)}
    {done ins rest : List Node} {n n2 m : Node} {F G : ValueId}
    (hm : ∀ w ∈ m.inputs, w < F)
    (hins : ∀ c ∈ ins, F ≤ c.output)
    (ho : n2.output = n.output) (hk : n2.kind = n.kind)
    (hav : n2.attrValue = n.attrValue)
    (hlen : n2.inputs.length = n.inputs.length)
    (hot : n.outputType.isSome → n2.outputType.isSome)
    (hpre : InferPre ⟨it, done ++ n :: rest, [], F⟩ m) :
    InferPre ⟨it, done ++ ins ++ n2 :: rest, [], G⟩ m := by
  obtain ⟨hmo, hmi⟩ := hpre
  refine ⟨hmo, ?_⟩
  intro w hw
  have hwlt := hm w hw
  have hp := @view_pres it done ins rest n n2 w [] [] F G
    (fun c hc => Nat.ne_of_gt (Nat.lt_of_lt_of_le hwlt (hins c hc)))
    ho hk hav hlen hot
  obtain ⟨hgw, haw⟩ := hmi w hw
  refine ⟨⟨hp.2.1 hgw.1, ?_⟩, ?_⟩
  · intro hkc
    rw [hp.1] at hkc
    rw [hp.2.2.1]
    exact hgw.2 hkc
  · intro pn2 hpn2 hpn2g
    have hkg : kindOf (done ++ ins ++ n2 :: rest) w = NodeKind.Gather := by
      unfold kindOf
      rw [hpn2]
      exact hpn2g
    rw [hp.1] at hkg
    obtain ⟨pn, hpn, hpng⟩ := kindOf_eq_some (by simp) hkg
    obtain ⟨pn2b, hpn2b, hpn2bk, hpn2blen⟩ := hp.2.2.2 pn hpn
    rw [hpn2] at hpn2b
    cases hpn2b
    have hne := haw pn hpn hpng
    intro hc
    rw [hc] at hpn2blen
    exact hne (List.length_eq_zero.mp hpn2blen.symm)

theorem processNode_total {it : List (ValueId × TensorTypeAnn)}
    {done rest : List Node} {n : Node} {fresh : ValueId}
    (hinv : BlockTotInv it (done ++ n :: rest) fresh (n :: rest)) :
    ∃ r, ProcessNode it done n rest fresh = some r ∧
      BlockTotInv it (r.nodes ++ rest) r.fresh rest ∧ fresh ≤ r.fresh := by
  obtain ⟨hit, hbound, hrest⟩ := hinv
  unfold ProcessNode
  by_cases hsup : IsImplicitCastSupported n.kind = true
  · rw [if_pos hsup]
    have hpre_n := hrest n (List.mem_cons_self n rest) hsup
    obtain ⟨p, hp⟩ := Option.isSome_iff_exists.mp (infer_total hpre_n)
    obtain ⟨ost, ws⟩ := p
    rw [hp]
    cases ost with
    | none =>
      dsimp only
      refine ⟨_, rfl, ⟨hit, ?_, ?_⟩, Nat.le_refl _⟩
      · intro m hm
        rw [list_reassoc] at hm
        exact hbound m hm
      · intro m hm hms
        rw [list_reassoc]
        exact hrest m (List.mem_cons_of_mem n hm) hms
    | some st =>
      dsimp only
      obtain ⟨s2, ws2, hupd, hinv2, hlen2, hfr2⟩ :=
        updateInputs_total (T := st)
          ⟨hit, hbound, fun v hv => (hpre_n.2 v hv).1⟩
      rw [hupd]
      dsimp only
      obtain ⟨⟨ins, hpre2, hkins⟩, hk, ho, hot, hav, hat, hlen, hfr⟩ :=
        updateInputs_meta hupd
      obtain ⟨hit2, hbound2, hgood2⟩ := hinv2
      by_cases hcmp : IsComparisonOp n.kind = true
      · rw [if_pos hcmp]
        refine ⟨_, rfl, ⟨?_, ?_, ?_⟩, hfr2⟩
        · exact fun p hp => Nat.lt_of_lt_of_le (hit p hp) hfr2
        · intro m hm
          simp only
          rw [list_reassoc] at hm
          exact hbound2 m hm
        · intro m hm hms
          simp only
          have heq : (s2.pre ++ [s2.node]) ++ rest =
              done ++ ins ++ s2.node :: rest := by
            rw [hpre2, list_reassoc, List.append_assoc]
          rw [heq]
          exact infermem_pres (F := fresh) (fun w hw =>
              (hbound m (by simp [hm]) ).2 w hw)
            (fun c hc => (hkins c hc).2) ho hk hav hlen
            (fun h => hot ▸ h)
            (hrest m (List.mem_cons_of_mem n hm) hms)
      · rw [if_neg hcmp]
        obtain ⟨ott, hott⟩ := Option.isSome_iff_exists.mp hpre_n.1
        have hout2 : UpdateScalarTypeForOutput s2.node st =
            some { s2.node with outputType := some ⟨some st⟩ } := by
          unfold UpdateScalarTypeForOutput
          rw [hot, hott]
          rfl
        rw [hout2]
        dsimp only
        refine ⟨_, rfl, ⟨?_, ?_, ?_⟩, hfr2⟩
        · exact fun p hp => Nat.lt_of_lt_of_le (hit p hp) hfr2
        · intro m hm
          simp only
          rw [list_reassoc] at hm
          rcases List.mem_append.mp hm with hm1 | hm1
          · exact hbound2 m (List.mem_append_left _ hm1)
          · rcases List.mem_cons.mp hm1 with hm2 | hm2
            · subst hm2
              exact hbound2 s2.node (by simp)
            · exact hbound2 m (by simp [hm2])
        · intro m hm hms
          simp only
          have heq : (s2.pre ++ [{ s2.node with outputType := some ⟨some st⟩ }])
              ++ rest = done ++ ins ++
                { s2.node with outputType := some ⟨some st⟩ } :: rest := by
            rw [hpre2, list_reassoc, List.append_assoc]
          rw [heq]
          exact infermem_pres (F := fresh) (fun w hw =>
              (hbound m (by simp [hm])).2 w hw)
            (fun c hc => (hkins c hc).2) ho hk hav hlen
            (fun _ => by simp)
            (hrest m (List.mem_cons_of_mem n hm) hms)
  · rw [if_neg hsup]
    refine ⟨_, rfl, ⟨hit, ?_, ?_⟩, Nat.le_refl _⟩
    · intro m hm
      rw [list_reassoc] at hm
      exact hbound m hm
    · intro m hm hms
      rw [list_reassoc]
      exact hrest m (List.mem_cons_of_mem n hm) hms

end ScalarTypeAnalysis

namespace ScalarTypeAnalysis

theorem processBlock_total {it : List (ValueId × TensorTypeAnn)} :
    ∀ {rest done : List Node} {fresh : ValueId},
    BlockTotInv it (done ++ rest) fresh rest →
    ∃ r, ProcessBlock it done rest fresh = some r := by
  intro rest
  induction rest with
  | nil =>
    intro done fresh _
    exact ⟨⟨done, fresh, []⟩, rfl⟩
  | cons n rest ih =>
    intro done fresh hinv
    obtain ⟨r1, hr1, hinv1, _⟩ := processNode_total hinv
    obtain ⟨r2, hr2⟩ := ih hinv1
    refine ⟨⟨r2.nodes, r2.fresh, r1.warnings ++ r2.warnings⟩, ?_⟩
    unfold ProcessBlock
    rw [hr1]
    dsimp only
    rw [hr2]

/-- Graph of the C10 counterexample: an Add node whose first input is
produced by a Gather node with no operands; every value carries a
TensorType annotation and there is no constant, so the precondition the
claim states holds, yet the pattern check dereferences the Gather's
missing first operand. -/
def cexG10 : Graph :=
  { inputTypes := [(0, ⟨some .Float⟩)],
    nodes := [
      { kind := .Gather, inputs := [], output := 1,
        outputType := some ⟨some .Long⟩ },
      { kind := .Add, inputs := [1, 0], output := 2,
        outputType := some ⟨none⟩ }],
    outs := [2], fresh := 3 }

/-- C10, counterexample: the stated precondition (TensorType annotations
on inputs and outputs of whitelisted nodes, "value" attributes on
constant producers) holds for cexG10, the graph is even well-formed,
and still the pass fails (the Gather producer has no first operand). -/
theorem C10_counterexample :
    ClaimedPrecond cexG10 ∧ WellFormedGraph cexG10 ∧
      ScalarTypeAnalysisForONNX cexG10 = none := by
  refine ⟨?_, ?_, ?_⟩
  · unfold ClaimedPrecond
    decide
  · unfold WellFormedGraph IdsBounded UniqueIds
    decide
  · decide

/-- C10, amended: with the missing Gather-arity condition added (and the
ambient id-bound well-formedness of the IR), the pass is total. -/
theorem C10_amended_totality (g : Graph)
    (hids : IdsBounded g.inputTypes g.nodes g.fresh)
    (hpre : ClaimedPrecond g) (hga : GatherArityOk g) :
    (ScalarTypeAnalysisForONNX g).isSome := by
  have hinv : BlockTotInv g.inputTypes ([] ++ g.nodes) g.fresh g.nodes := by
    refine ⟨hids.1, ?_, ?_⟩
    · intro m hm
      rw [List.nil_append] at hm
      exact hids.2 m hm
    · intro m hm hms
      rw [List.nil_append]
      obtain ⟨hmo, hmi⟩ := hpre m hm hms
      refine ⟨hmo, ?_⟩
      intro v hv
      obtain ⟨hvt, hvc⟩ := hmi v hv
      have hvg : vtypeOf ⟨g.inputTypes, g.nodes, [], g.fresh⟩ v = vtypeOf g v := by
        unfold vtypeOf
        rfl
      refine ⟨⟨by rw [hvg]; exact hvt, hvc⟩, ?_⟩
      intro pn hpn hpng
      exact hga m hm hms v hv pn hpn hpng
  obtain ⟨r, hr⟩ := processBlock_total hinv
  unfold ScalarTypeAnalysisForONNX ImplicitCastForONNX
  rw [hr]
  simp

/-- A small well-formed graph meeting the amended precondition. -/
def w10g : Graph :=
  { inputTypes := [(0, ⟨some .Float⟩)],
    nodes := [
      { kind := .Shape, inputs := [0], output := 1, outputType := some ⟨none⟩ },
      { kind := .Constant, inputs := [], output := 2,
        attrValue := some ⟨0, .Long⟩, outputType := some ⟨some .Long⟩ },
      { kind := .Gather, inputs := [1, 2], output := 3,
        outputType := some ⟨some .Long⟩ },
      { kind := .Add, inputs := [3, 0], output := 4,
        outputType := some ⟨none⟩ }],
    outs := [4], fresh := 5 }

theorem C10_witness : (ScalarTypeAnalysisForONNX w10g).isSome :=
  C10_amended_totality w10g (by unfold IdsBounded; decide)
    (by unfold ClaimedPrecond; decide) (by unfold GatherArityOk; decide)

end ScalarTypeAnalysis

namespace ScalarTypeAnalysis

/-- The promotion order: a is below b when promoting a into b is b. -/
def stLE (a b : ScalarType) : Prop := promoteTypes a b = b

theorem promote_idem : ∀ a, promoteTypes a a = a := by decide

theorem promote_comm : ∀ a b, promoteTypes a b = promoteTypes b a := by decide

theorem stLE_refl : ∀ a, stLE a a := promote_idem

theorem stLE_trans : ∀ a b c, stLE a b → stLE b c → stLE a c := by
  unfold stLE
  decide

theorem stLE_antisymm : ∀ a b, stLE a b → stLE b a → a = b := by
  unfold stLE
  decide

theorem promote_left_le : ∀ a b, stLE a (promoteTypes a b) := by
  unfold stLE
  decide

theorem promote_right_le : ∀ a b, stLE b (promoteTypes a b) := by
  unfold stLE
  decide

theorem promote_lub : ∀ a b c, stLE a c → stLE b c →
    stLE (promoteTypes a b) c := by
  unfold stLE
  decide

theorem promote_mono : ∀ a b a2 b2, stLE a a2 → stLE b b2 →
    stLE (promoteTypes a b) (promoteTypes a2 b2) := by
  intro a b a2 b2 h1 h2
  exact promote_lub a b (promoteTypes a2 b2)
    (stLE_trans _ _ _ h1 (promote_left_le a2 b2))
    (stLE_trans _ _ _ h2 (promote_right_le a2 b2))

theorem foldl_promote_le {c : ScalarType} :
    ∀ (l : List ScalarType) (seed : ScalarType), stLE seed c →
    (∀ x ∈ l, stLE x c) → stLE (l.foldl promoteTypes seed) c := by
  intro l
  induction l with
  | nil => intro seed hs _; exact hs
  | cons x l ih =>
    intro seed hs hl
    rw [List.foldl_cons]
    exact ih _ (promote_lub _ _ _ hs (hl x (List.mem_cons_self x l)))
      (fun y hy => hl y (List.mem_cons_of_mem x hy))

theorem seed_le_foldl_promote :
    ∀ (l : List ScalarType) (seed : ScalarType),
    stLE seed (l.foldl promoteTypes seed) := by
  intro l
  induction l with
  | nil => intro seed; exact stLE_refl seed
  | cons x l ih =>
    intro seed
    rw [List.foldl_cons]
    exact stLE_trans _ _ _ (promote_left_le seed x) (ih _)

theorem mem_le_foldl_promote {x : ScalarType} :
    ∀ {l : List ScalarType} (seed : ScalarType), x ∈ l →
    stLE x (l.foldl promoteTypes seed) := by
  intro l
  induction l with
  | nil => intro seed hx; cases hx
  | cons y l ih =>
    intro seed hx
    rw [List.foldl_cons]
    rcases List.mem_cons.mp hx with rfl | hx
    · exact stLE_trans _ _ _ (promote_right_le seed x) (seed_le_foldl_promote l _)
    · exact ih _ hx

theorem foldl_promote_mono :
    ∀ {l l2 : List ScalarType}, List.Forall₂ stLE l l2 →
    ∀ {seed seed2 : ScalarType}, stLE seed seed2 →
    stLE (l.foldl promoteTypes seed) (l2.foldl promoteTypes seed2) := by
  intro l l2 hl
  induction hl with
  | nil => intro s s2 hs; exact hs
  | cons hxy _ ih =>
    intro s s2 hs
    rw [List.foldl_cons, List.foldl_cons]
    exact ih (promote_mono _ _ _ _ hs hxy)

/-- The promotion fold of a pointwise-dominated list with the same
supremum is unchanged. -/
theorem forall₂_mem_right {α β : Type} {R : α → β → Prop} :
    ∀ {l1 : List α} {l2 : List β}, List.Forall₂ R l1 l2 →
    ∀ b ∈ l2, ∃ a ∈ l1, R a b := by
  intro l1 l2 h
  induction h with
  | nil => intro b hb; cases hb
  | cons hab _ ih =>
    intro b hb
    rcases List.mem_cons.mp hb with rfl | hb
    · exact ⟨_, List.mem_cons_self _ _, hab⟩
    · obtain ⟨a, ha, hr⟩ := ih b hb
      exact ⟨a, List.mem_cons_of_mem _ ha, hr⟩

theorem promote_fold_eq {x y : List ScalarType} {T : ScalarType}
    (hxy : List.Forall₂ (fun a b => stLE a b ∧ stLE b T) x y)
    (hx : PromoteScalarTypes x = some T) :
    PromoteScalarTypes y = some T := by
  cases hxy with
  | nil => cases hx
  | cons hab htail =>
    rename_i a b x2 y2
    unfold PromoteScalarTypes at hx ⊢
    simp only [Option.some.injEq] at hx ⊢
    have hle1 : stLE (y2.foldl promoteTypes b) T :=
      foldl_promote_le y2 b hab.2
        (fun z hz => by
          obtain ⟨w, hw, hzw⟩ := forall₂_mem_right htail z hz
          exact hzw.2)
    have hle2 : stLE (x2.foldl promoteTypes a) (y2.foldl promoteTypes b) :=
      foldl_promote_mono (List.Forall₂.imp (fun _ _ h => h.1) htail) hab.1
    rw [hx] at hle2
    exact stLE_antisymm _ _ hle1 hle2

end ScalarTypeAnalysis

namespace ScalarTypeAnalysis

/-- The scalar-bucket contribution of a classified input. -/
def BucketItem.sPart : BucketItem → Option ScalarType
  | .scalarItem st => some st
  | _ => none

/-- The tensor-bucket contribution of a classified input. -/
def BucketItem.tPart : BucketItem → Option ScalarType
  | .tensorItem st => some st
  | _ => none

/-- The element type a classified input contributes, to either bucket. -/
def BucketItem.val : BucketItem → Option ScalarType
  | .scalarItem st => some st
  | .tensorItem st => some st
  | .noItem => none

theorem push_scalars (acc : Buckets) (i : BucketItem) :
    (acc.push i).typesFromScalars = acc.typesFromScalars ++ i.sPart.toList := by
  cases i <;> simp [Buckets.push, BucketItem.sPart]

theorem push_tensors (acc : Buckets) (i : BucketItem) :
    (acc.push i).typesFromTensors = acc.typesFromTensors ++ i.tPart.toList := by
  cases i <;> simp [Buckets.push, BucketItem.tPart]

theorem inferCollect_char {g : Graph} {n : Node} {b : Buckets}
    (h : InferCollect g n = some b) :
    ∃ items, n.inputs.mapM (InferInputItem g) = some items ∧
      b.typesFromScalars = items.filterMap BucketItem.sPart ∧
      b.typesFromTensors = items.filterMap BucketItem.tPart ∧
      items.length = n.inputs.length := by
  unfold InferCollect at h
  suffices hgen : ∀ (l : List ValueId) (acc b2 : Buckets),
      l.foldlM (fun acc v => (InferInputItem g v).map acc.push) acc = some b2 →
      ∃ items, l.mapM (InferInputItem g) = some items ∧
        b2.typesFromScalars = acc.typesFromScalars ++
          items.filterMap BucketItem.sPart ∧
        b2.typesFromTensors = acc.typesFromTensors ++
          items.filterMap BucketItem.tPart ∧
        items.length = l.length by
    obtain ⟨items, h1, h2, h3, h4⟩ := hgen n.inputs ⟨[], []⟩ b h
    exact ⟨items, h1, by simpa using h2, by simpa using h3, h4⟩
  intro l
  induction l with
  | nil =>
    intro acc b2 hf
    simp only [List.foldlM_nil] at hf
    cases hf
    exact ⟨[], rfl, by simp, by simp, rfl⟩
  | cons v l ih =>
    intro acc b2 hf
    rw [List.foldlM_cons] at hf
    cases hitem : InferInputItem g v with
    | none => rw [hitem] at hf; cases hf
    | some item =>
      rw [hitem] at hf
      simp only [Option.map_some, Option.bind_eq_bind, Option.some_bind] at hf
      obtain ⟨items, h1, h2, h3, h4⟩ := ih (acc.push item) b2 hf
      refine ⟨item :: items, ?_, ?_, ?_, by simp [h4]⟩
      · rw [List.mapM_cons, hitem, h1]
        rfl
      · rw [h2, push_scalars]
        cases item <;> simp [BucketItem.sPart]
      · rw [h3, push_tensors]
        cases item <;> simp [BucketItem.tPart]

theorem sPart_length_iff :
    ∀ (items : List BucketItem),
    ((items.filterMap BucketItem.sPart).length = items.length ↔
      ∀ i ∈ items, ∃ st, i = BucketItem.scalarItem st) := by
  intro items
  induction items with
  | nil => simp
  | cons i items ih =>
    cases i with
    | scalarItem st =>
      simp only [List.filterMap_cons, BucketItem.sPart, List.length_cons]
      constructor
      · intro h j hj
        rcases List.mem_cons.mp hj with rfl | hj
        · exact ⟨st, rfl⟩
        · exact (ih.mp (by simpa using h)) j hj
      · intro h
        simp only [List.length_cons, Nat.succ.injEq]
        exact ih.mpr (fun j hj => h j (List.mem_cons_of_mem _ hj))
    | tensorItem st =>
      simp only [List.filterMap_cons, BucketItem.sPart]
      constructor
      · intro h
        have hle := List.length_filterMap_le BucketItem.sPart items
        simp only [List.length_cons] at h
        exact absurd h (by intro hc; exact absurd hc (Nat.ne_of_lt (Nat.lt_succ_of_le hle)))
      · intro h
        obtain ⟨st2, hst2⟩ := h _ (List.mem_cons_self _ _)
        cases hst2
    | noItem =>
      simp only [List.filterMap_cons, BucketItem.sPart]
      constructor
      · intro h
        have hle := List.length_filterMap_le BucketItem.sPart items
        simp only [List.length_cons] at h
        exact absurd h (by intro hc; exact absurd hc (Nat.ne_of_lt (Nat.lt_succ_of_le hle)))
      · intro h
        obtain ⟨st2, hst2⟩ := h _ (List.mem_cons_self _ _)
        cases hst2

theorem sPart_tPart_perm :
    ∀ (items : List BucketItem),
    (items.filterMap BucketItem.sPart ++
      items.filterMap BucketItem.tPart).Perm
      (items.filterMap BucketItem.val) := by
  intro items
  induction items with
  | nil => simp
  | cons i items ih =>
    cases i with
    | scalarItem st =>
      simp only [List.filterMap_cons, BucketItem.sPart, BucketItem.tPart,
        BucketItem.val, List.cons_append]
      exact List.Perm.cons st ih
    | tensorItem st =>
      simp only [List.filterMap_cons, BucketItem.sPart, BucketItem.tPart,
        BucketItem.val]
      exact (List.perm_middle).trans (List.Perm.cons st ih)
    | noItem =>
      simp only [List.filterMap_cons, BucketItem.sPart, BucketItem.tPart,
        BucketItem.val]
      exact ih

theorem promote_assoc : ∀ a b c,
    promoteTypes (promoteTypes a b) c = promoteTypes a (promoteTypes b c) := by
  decide

theorem promote_bot : ∀ a, promoteTypes ScalarType.Bool a = a := by decide

theorem promote_comm_fold {l1 l2 : List ScalarType} (hp : l1.Perm l2)
    (seed : ScalarType) :
    l1.foldl promoteTypes seed = l2.foldl promoteTypes seed :=
  hp.foldl_eq' (fun x _ y _ z => by
    rw [promote_assoc, promote_assoc, promote_comm x y]) seed

theorem promoteScalarTypes_cons (t : ScalarType) (ts : List ScalarType) :
    PromoteScalarTypes (t :: ts) =
      some ((t :: ts).foldl promoteTypes ScalarType.Bool) := by
  unfold PromoteScalarTypes
  rw [List.foldl_cons, promote_bot]

theorem promoteScalarTypes_perm {l1 l2 : List ScalarType} (hp : l1.Perm l2) :
    PromoteScalarTypes l1 = PromoteScalarTypes l2 := by
  cases l1 with
  | nil =>
    rw [List.Perm.nil_eq hp]
  | cons a ts =>
    cases l2 with
    | nil => exact absurd hp.symm (by simp)
    | cons b ts2 =>
      rw [promoteScalarTypes_cons, promoteScalarTypes_cons,
        promote_comm_fold hp]

end ScalarTypeAnalysis

namespace ScalarTypeAnalysis

theorem vtypeOf_congr {it : List (ValueId × TensorTypeAnn)}
    {L1 L2 : List Node} {o1 o2 : List ValueId} {f1 f2 : ValueId} {v : ValueId}
    (h1 : producerOf L2 v = producerOf L1 v) :
    vtypeOf ⟨it, L2, o2, f2⟩ v = vtypeOf ⟨it, L1, o1, f1⟩ v := by
  unfold vtypeOf
  dsimp only
  rw [h1]

theorem inferInputItem_congr {it : List (ValueId × TensorTypeAnn)}
    {L1 L2 : List Node} {o1 o2 : List ValueId} {f1 f2 : ValueId} {v : ValueId}
    (h1 : producerOf L2 v = producerOf L1 v)
    (h2 : ∀ pn w, producerOf L1 v = some pn → pn.inputs.get? 0 = some w →
      kindOf L2 w = kindOf L1 w) :
    InferInputItem ⟨it, L2, o2, f2⟩ v = InferInputItem ⟨it, L1, o1, f1⟩ v := by
  have htc : InferInputTensorCase ⟨it, L2, o2, f2⟩ v =
      InferInputTensorCase ⟨it, L1, o1, f1⟩ v := by
    unfold InferInputTensorCase
    rw [vtypeOf_congr h1]
  unfold InferInputItem
  dsimp only
  have hk : kindOf L2 v = kindOf L1 v := by
    unfold kindOf
    rw [h1]
  rw [hk, h1, htc]
  cases hp : producerOf L1 v with
  | none => rfl
  | some pn =>
    simp only [Option.some_bind]
    cases hw : pn.inputs.get? 0 with
    | none => rfl
    | some w =>
      have hkw := h2 pn w hp hw
      dsimp only
      rw [hkw]

theorem infer_congr {it : List (ValueId × TensorTypeAnn)}
    {L1 L2 : List Node} {o1 o2 : List ValueId} {f1 f2 : ValueId} {n : Node}
    (hv : ∀ v ∈ n.inputs, producerOf L2 v = producerOf L1 v ∧
      (∀ pn w, producerOf L1 v = some pn → pn.inputs.get? 0 = some w →
        kindOf L2 w = kindOf L1 w)) :
    InferExpectedScalarType ⟨it, L2, o2, f2⟩ n =
      InferExpectedScalarType ⟨it, L1, o1, f1⟩ n := by
  have hc : InferCollect ⟨it, L2, o2, f2⟩ n =
      InferCollect ⟨it, L1, o1, f1⟩ n := by
    unfold InferCollect
    suffices hgen : ∀ (l : List ValueId), (∀ v ∈ l, v ∈ n.inputs) →
        ∀ (acc : Buckets),
        l.foldlM (fun acc v =>
          (InferInputItem ⟨it, L2, o2, f2⟩ v).map acc.push) acc =
        l.foldlM (fun acc v =>
          (InferInputItem ⟨it, L1, o1, f1⟩ v).map acc.push) acc by
      exact hgen n.inputs (fun v hv => hv) ⟨[], []⟩
    intro l
    induction l with
    | nil => intro _ acc; rfl
    | cons v l ih =>
      intro hl acc
      rw [List.foldlM_cons, List.foldlM_cons]
      have hvi := hv v (hl v (List.mem_cons_self v l))
      rw [inferInputItem_congr hvi.1 hvi.2]
      cases InferInputItem ⟨it, L1, o1, f1⟩ v with
      | none => rfl
      | some item =>
        simp only [Option.map_some, Option.bind_eq_bind, Option.some_bind]
        exact ih (fun w hw => hl w (List.mem_cons_of_mem v hw)) _
  unfold InferExpectedScalarType
  rw [hc]

end ScalarTypeAnalysis

namespace ScalarTypeAnalysis

theorem producerOf_eq_of_mem {l : List Node} {c : Node} {w : ValueId}
    (hnd : (l.map Node.output).Nodup) (hc : c ∈ l) (hco : c.output = w) :
    producerOf l w = some c := by
  induction l with
  | nil => cases hc
  | cons a rest ih =>
    rcases List.mem_cons.mp hc with rfl | hc2
    · unfold producerOf
      rw [List.find?_cons]
      split
      · rfl
      · rename_i hfalse
        simp [hco] at hfalse
    · have hane : a.output ≠ w := by
        intro hae
        have : c.output ∈ rest.map Node.output := List.mem_map_of_mem _ hc2
        rw [hco, ← hae] at this
        exact (List.nodup_cons.mp (by simpa using hnd)).1 this
      rw [producerOf_cons_ne hane]
      exact ih (List.nodup_cons.mp (by simpa using hnd)).2 hc2

/-- Classification of an input value at the original view that makes the
rewriting loop leave its edge unchanged. -/
def OrigCondFalse (it : List (ValueId × TensorTypeAnn)) (done rest : List Node)
    (n : Node) (fresh0 : ValueId) (T : ScalarType) (u : ValueId) : Prop :=
  kindOf (done ++ n :: rest) u ≠ NodeKind.Constant ∧
  ∃ tt, vtypeOf ⟨it, done ++ n :: rest, [], fresh0⟩ u = some tt ∧
    (tt.scalarType = none ∨ tt.scalarType = some T)

/-- The shape of a node the rewriting loop creates for target type T:
either a Cast of the original value or a Constant converted to T; in
both cases the output annotation carries T. -/
def CreatedProps (T : ScalarType) (c : Node) (u : ValueId) : Prop :=
  c.outputType = some ⟨some T⟩ ∧
  ((c.kind = NodeKind.Cast ∧ c.attrTo = some (ScalarTypeToONNXType T) ∧
      c.inputs = [u]) ∨
   (c.kind = NodeKind.Constant ∧ c.inputs = [] ∧
      ∃ t, c.attrValue = some t ∧ t.dtype = T))

/-- The value w is the output of a node created by the loop for the
original input u. -/
def CreatedFor (T : ScalarType) (ins : List Node) (u w : ValueId) : Prop :=
  ∃ c ∈ ins, c.output = w ∧ CreatedProps T c u

/-- The producer lookup of u is unaffected by inserted high-id nodes and
by the mutation of the processed node (its producer lies in the block
prefix or is a block input). -/
def IdStable (done rest : List Node) (n : Node) (fresh0 : ValueId)
    (u : ValueId) : Prop :=
  ∀ (ins2 : List Node) (m2 : Node), (∀ c ∈ ins2, fresh0 ≤ c.output) →
    m2.output = n.output →
    producerOf (done ++ ins2 ++ m2 :: rest) u = producerOf (done ++ n :: rest) u

theorem idStable_of_done {done rest : List Node} {n : Node} {fresh0 : ValueId}
    {u : ValueId} (h : (producerOf done u).isSome) :
    IdStable done rest n fresh0 u := by
  intro ins2 m2 _ _
  obtain ⟨p, hp⟩ := Option.isSome_iff_exists.mp h
  rw [producerOf_append_of_some _ (producerOf_append_of_some ins2 hp)]
  rw [producerOf_append_of_some _ hp]

theorem idStable_of_nowhere {done rest : List Node} {n : Node}
    {fresh0 : ValueId} {u : ValueId}
    (hd : producerOf done u = none) (hn : n.output ≠ u)
    (hu : u < fresh0) :
    IdStable done rest n fresh0 u := by
  intro ins2 m2 hins2 hm2
  rw [producerOf_append_of_none _
    (by
      rw [producerOf_append, hd, Option.none_or]
      exact producerOf_none_of_ne (fun c hc =>
        Nat.ne_of_gt (Nat.lt_of_lt_of_le hu (hins2 c hc))))]
  rw [producerOf_append_of_none _ hd]
  rw [producerOf_cons_ne (hm2.trans_ne hn), producerOf_cons_ne hn]

end ScalarTypeAnalysis

namespace ScalarTypeAnalysis

/-- Invariant of the input-rewriting loop describing, position by
position, how the processed node's inputs relate to the original ones:
untouched, or rewired to a created Cast/Constant; processed positions
additionally satisfy the loop's negative condition when untouched. -/
def LoopFix (it : List (ValueId × TensorTypeAnn)) (done rest : List Node)
    (n : Node) (fresh0 : ValueId) (T : ScalarType) (k : Nat)
    (ins : List Node) (s : RewriteState) : Prop :=
  s.pre = done ++ ins ∧
  s.node.inputs.length = n.inputs.length ∧
  s.node.kind = n.kind ∧ s.node.output = n.output ∧
  s.node.outputType = n.outputType ∧ s.node.attrValue = n.attrValue ∧
  fresh0 ≤ s.fresh ∧
  (∀ c ∈ ins, fresh0 ≤ c.output ∧ c.output < s.fresh) ∧
  (ins.map Node.output).Nodup ∧
  (∀ j u w, n.inputs.get? j = some u → s.node.inputs.get? j = some w →
    (w = u ∨ CreatedFor T ins u w) ∧
    (j < k → w = u → OrigCondFalse it done rest n fresh0 T u) ∧
    (w ≠ u → ∃ c ∈ ins, c.output = w ∧ CreatedProps T c u ∧
      (c.kind = NodeKind.Constant →
        kindOf (done ++ n :: rest) u = NodeKind.Constant) ∧
      (c.kind = NodeKind.Cast → ∃ tt S,
        vtypeOf ⟨it, done ++ n :: rest, [], fresh0⟩ u = some tt ∧
          tt.scalarType = some S))) ∧
  (∀ c ∈ ins, c.inputs = [] ∨ ∃ u ∈ n.inputs, c.inputs = [u])

theorem loopFix_step {it : List (ValueId × TensorTypeAnn)}
    {done rest : List Node} {n : Node} {fresh0 : ValueId} {T : ScalarType}
    {k : Nat} {ins : List Node} {s s2 : RewriteState}
    (Hdone : ∀ m ∈ done, m.output < fresh0)
    (Horig : ∀ u ∈ n.inputs, u < fresh0)
    (Hstable : ∀ u ∈ n.inputs, IdStable done rest n fresh0 u)
    (hstep : UpdateLoopStep it rest T (ScalarTypeToONNXType T) s k = some s2)
    (hinv : LoopFix it done rest n fresh0 T k ins s) :
    ∃ ins2, LoopFix it done rest n fresh0 T (k + 1) ins2 s2 ∧
      ((∀ u2 ∈ n.inputs, kindOf (done ++ n :: rest) u2 ≠ NodeKind.Constant) →
        (∀ c ∈ ins, c.kind = NodeKind.Cast) →
        ∀ c ∈ ins2, c.kind = NodeKind.Cast) := by
  obtain ⟨hpre, hlen, hkind, hout, hoty, hattr, hfr, hbnd, hnd, hpos, hins11⟩ :=
    hinv
  have horig_look : ∀ u' ∈ n.inputs,
      producerOf (s.pre ++ s.node :: rest) u' =
        producerOf (done ++ n :: rest) u' := by
    intro u' hu'
    rw [hpre]
    exact Hstable u' hu' ins s.node (fun c hc => (hbnd c hc).1) hout
  have hcre_look : ∀ c0 ∈ ins,
      producerOf (s.pre ++ s.node :: rest) c0.output = some c0 := by
    intro c0 hc0
    rw [hpre]
    apply producerOf_append_of_some
    rw [producerOf_append,
      producerOf_none_of_ne (fun m hm =>
        Nat.ne_of_lt (Nat.lt_of_lt_of_le (Hdone m hm) (hbnd c0 hc0).1)),
      Option.none_or]
    exact producerOf_eq_of_mem hnd hc0 rfl
  unfold UpdateLoopStep at hstep
  cases hw : s.node.inputs.get? k with
  | none =>
    rw [hw] at hstep
    cases hstep
  | some w =>
    rw [hw] at hstep
    dsimp only at hstep
    have hklen : k < n.inputs.length := by
      rw [← hlen]
      obtain ⟨hlt, _⟩ := List.get?_eq_some.mp hw
      exact hlt
    obtain ⟨u, hu⟩ : ∃ u, n.inputs.get? k = some u :=
      ⟨n.inputs.get ⟨k, hklen⟩, List.get?_eq_get hklen⟩
    have humem : u ∈ n.inputs := List.get?_mem hu
    have hult : u < fresh0 := Horig u humem
    have hposk := hpos k u w hu hw
    cases htt : vtypeOf ⟨it, s.pre ++ s.node :: rest, [], s.fresh⟩ w with
    | none =>
      rw [htt] at hstep
      cases hstep
    | some tt =>
      rw [htt] at hstep
      dsimp only at hstep
      by_cases hcond : kindOf (s.pre ++ s.node :: rest) w = NodeKind.Constant ∨
          (tt.scalarType.isSome ∧ tt.scalarType ≠ some T)
      · rw [if_pos hcond] at hstep
        by_cases hkc : kindOf (s.pre ++ s.node :: rest) w = NodeKind.Constant
        · -- constant branch: the current producer is replaced by a fresh
          -- constant converted to T
          rw [if_pos hkc] at hstep
          cases hval : (producerOf (s.pre ++ s.node :: rest) w).bind
              Node.attrValue with
          | none =>
            rw [hval] at hstep
            cases hstep
          | some val =>
            rw [hval] at hstep
            dsimp only at hstep
            rw [Option.some.injEq] at hstep
            subst hstep
            refine ⟨ins ++ [⟨NodeKind.Constant, [], s.fresh,
                some (val.to T), none,
                some (TensorTypeAnn.create (val.to T))⟩],
              ⟨?_, by simpa using hlen, by simpa using hkind,
              by simpa using hout, by simpa using hoty,
              by simpa using hattr, Nat.le_succ_of_le hfr, ?_, ?_, ?_, ?_⟩, ?_⟩
            · rw [hpre, List.append_assoc]
            · intro c hc
              rcases List.mem_append.mp hc with hc1 | hc1
              · exact ⟨(hbnd c hc1).1, Nat.lt_succ_of_lt (hbnd c hc1).2⟩
              · rw [List.mem_singleton] at hc1
                subst hc1
                exact ⟨hfr, Nat.lt_succ_self _⟩
            · rw [List.map_append]
              apply List.Nodup.append hnd (by simp)
              intro a ha hb
              rw [List.mem_map] at ha
              obtain ⟨c, hc, hco⟩ := ha
              simp only [List.map_cons, List.map_nil,
                List.mem_singleton] at hb
              rw [hb] at hco
              exact Nat.ne_of_lt (hbnd c hc).2 hco
            · intro j u' w' hju' hjw'
              simp only [Node.replaceInputWith] at hjw'
              rw [List.get?_map] at hjw'
              cases hjw0 : s.node.inputs.get? j with
              | none => rw [hjw0] at hjw'; cases hjw'
              | some w0 =>
                rw [hjw0] at hjw'
                rw [show ∀ (x : ValueId) (f : ValueId → ValueId),
                    Option.map f (some x) = some (f x) from fun _ _ => rfl,
                  Option.some.injEq] at hjw'
                have hold := hpos j u' w0 hju' hjw0
                have humem' : u' ∈ n.inputs := List.get?_mem hju'
                by_cases hww0 : w0 = w
                · rw [if_pos hww0] at hjw'
                  subst hjw'
                  refine ⟨?_, ?_, ?_⟩
                  · exact Or.inr ⟨_, List.mem_append_right _
                      (List.mem_singleton_self _), rfl, rfl,
                      Or.inr ⟨rfl, rfl, val.to T, rfl, rfl⟩⟩
                  · intro _ hwu
                    exact absurd hwu.symm
                      (Nat.ne_of_lt (Nat.lt_of_lt_of_le
                        (Horig u' humem') hfr))
                  · intro _
                    refine ⟨_, List.mem_append_right _
                      (List.mem_singleton_self _), rfl, ?_, ?_, ?_⟩
                    · exact ⟨rfl, Or.inr ⟨rfl, rfl, val.to T, rfl, rfl⟩⟩
                    · intro _
                      rcases hold.1 with h1 | h1
                      · have hu'w : u' = w := h1.symm.trans hww0
                        unfold kindOf at hkc ⊢
                        rw [← horig_look u' humem', hu'w]
                        exact hkc
                      · obtain ⟨c0, hc0, hc0o, _⟩ := h1
                        have hne0 : w0 ≠ u' := by
                          rw [← hc0o]
                          exact Nat.ne_of_gt (Nat.lt_of_lt_of_le
                            (Horig u' humem') (hbnd c0 hc0).1)
                        obtain ⟨c1, hc1, hc1o, _, hconst1, _⟩ := hold.2.2 hne0
                        have hlk := hcre_look c1 hc1
                        rw [hc1o, hww0] at hlk
                        unfold kindOf at hkc
                        rw [hlk] at hkc
                        dsimp only at hkc
                        exact hconst1 hkc
                    · intro h
                      cases h
                · rw [if_neg hww0] at hjw'
                  subst hjw'
                  refine ⟨?_, ?_, ?_⟩
                  · rcases hold.1 with h1 | h1
                    · exact Or.inl h1
                    · obtain ⟨c, hc, hcw, hcp⟩ := h1
                      exact Or.inr ⟨c, List.mem_append_left _ hc, hcw, hcp⟩
                  · intro hjk
                    rcases Nat.lt_succ_iff_lt_or_eq.mp hjk with hjk2 | hjk2
                    · exact hold.2.1 hjk2
                    · subst hjk2
                      rw [hw] at hjw0
                      cases hjw0
                      exact absurd rfl hww0
                  · intro hne
                    obtain ⟨c, hc, hcw, hcp, hc1, hc2⟩ := hold.2.2 hne
                    exact ⟨c, List.mem_append_left _ hc, hcw, hcp, hc1, hc2⟩
            · intro c hc
              rcases List.mem_append.mp hc with hc1 | hc1
              · exact hins11 c hc1
              · rw [List.mem_singleton] at hc1
                subst hc1
                exact Or.inl rfl
            · intro hNC hCO
              exfalso
              rcases hposk.1 with h1 | h1
              · exact absurd (by
                  unfold kindOf at hkc ⊢
                  rw [← horig_look u humem, ← h1]
                  exact hkc) (hNC u humem)
              · obtain ⟨c0, hc0, hc0w, hc0p⟩ := h1
                have hlook := hcre_look c0 hc0
                rw [hc0w] at hlook
                have hck := hCO c0 hc0
                unfold kindOf at hkc
                rw [hlook] at hkc
                dsimp only at hkc
                rw [hck] at hkc
                cases hkc
        · -- cast branch: the current value must still be the original
          -- input, and gets a fresh Cast
          rw [if_neg hkc] at hstep
          rw [Option.some.injEq] at hstep
          subst hstep
          have hwu : w = u := by
            rcases hposk.1 with h1 | h1
            · exact h1
            · obtain ⟨c0, hc0, hc0w, hc0p⟩ := h1
              have hlook := hcre_look c0 hc0
              rw [hc0w] at hlook
              have hvt : vtypeOf ⟨it, s.pre ++ s.node :: rest, [],
                  s.fresh⟩ w = c0.outputType := by
                unfold vtypeOf
                dsimp only
                rw [hlook]
              rw [htt, hc0p.1] at hvt
              rcases hc0p.2 with hcast | hconst
              · exfalso
                apply hcond.elim hkc
                intro hx
                rw [Option.some.injEq] at hvt
                rw [hvt] at hx
                exact hx.2 rfl
              · exfalso
                apply hkc
                unfold kindOf
                rw [hlook]
                exact hconst.1
          subst hwu
          refine ⟨ins ++ [⟨NodeKind.Cast, [w], s.fresh, none,
              some (ScalarTypeToONNXType T),
              some (CreateProfiledTensorTypeWithScalarType tt T)⟩],
            ⟨?_, by simpa using hlen, by simpa using hkind,
            by simpa using hout, by simpa using hoty,
            by simpa using hattr, Nat.le_succ_of_le hfr, ?_, ?_, ?_, ?_⟩, ?_⟩
          · rw [hpre, List.append_assoc]
          · intro c hc
            rcases List.mem_append.mp hc with hc1 | hc1
            · exact ⟨(hbnd c hc1).1, Nat.lt_succ_of_lt (hbnd c hc1).2⟩
            · rw [List.mem_singleton] at hc1
              subst hc1
              exact ⟨hfr, Nat.lt_succ_self _⟩
          · rw [List.map_append]
            apply List.Nodup.append hnd (by simp)
            intro a ha hb
            rw [List.mem_map] at ha
            obtain ⟨c, hc, hco⟩ := ha
            simp only [List.map_cons, List.map_nil, List.mem_singleton] at hb
            rw [hb] at hco
            exact Nat.ne_of_lt (hbnd c hc).2 hco
          · intro j u' w' hju' hjw'
            simp only [Node.replaceInputWith] at hjw'
            rw [List.get?_map] at hjw'
            cases hjw0 : s.node.inputs.get? j with
            | none => rw [hjw0] at hjw'; cases hjw'
            | some w0 =>
              rw [hjw0] at hjw'
              rw [show ∀ (x : ValueId) (f : ValueId → ValueId),
                  Option.map f (some x) = some (f x) from fun _ _ => rfl,
                Option.some.injEq] at hjw'
              have hold := hpos j u' w0 hju' hjw0
              by_cases hww0 : w0 = w
              · rw [if_pos hww0] at hjw'
                subst hjw'
                have hu'w : u' = w := by
                  rcases hold.1 with h1 | h1
                  · rw [← h1]
                    exact hww0
                  · obtain ⟨c, hc, hcw, _⟩ := h1
                    exfalso
                    rw [hww0] at hcw
                    have h2 : fresh0 ≤ w := hcw ▸ (hbnd c hc).1
                    exact Nat.lt_irrefl _ (Nat.lt_of_lt_of_le hult h2)
                have hcond2 : tt.scalarType.isSome ∧ tt.scalarType ≠ some T := by
                  rcases hcond with hc | hc
                  · exact absurd hc hkc
                  · exact hc
                obtain ⟨S, hS⟩ := Option.isSome_iff_exists.mp hcond2.1
                have hvo : vtypeOf ⟨it, done ++ n :: rest, [], fresh0⟩ w =
                    vtypeOf ⟨it, s.pre ++ s.node :: rest, [], s.fresh⟩ w :=
                  (vtypeOf_congr (horig_look w humem)).symm
                refine ⟨?_, ?_, ?_⟩
                · exact Or.inr ⟨_, List.mem_append_right _
                    (List.mem_singleton_self _), rfl, rfl,
                    Or.inl ⟨rfl, rfl, by rw [hu'w]⟩⟩
                · intro _ hwu2
                  exact absurd hwu2.symm
                    (Nat.ne_of_lt (Nat.lt_of_lt_of_le
                      (Horig u' (List.get?_mem hju')) hfr))
                · intro _
                  refine ⟨_, List.mem_append_right _
                    (List.mem_singleton_self _), rfl, ?_, ?_, ?_⟩
                  · exact ⟨rfl, Or.inl ⟨rfl, rfl, by rw [hu'w]⟩⟩
                  · intro h
                    cases h
                  · intro _
                    exact ⟨tt, S, by rw [hu'w, hvo]; exact htt, hS⟩
              · rw [if_neg hww0] at hjw'
                subst hjw'
                refine ⟨?_, ?_, ?_⟩
                · rcases hold.1 with h1 | h1
                  · exact Or.inl h1
                  · obtain ⟨c, hc, hcw, hcp⟩ := h1
                    exact Or.inr ⟨c, List.mem_append_left _ hc, hcw, hcp⟩
                · intro hjk
                  rcases Nat.lt_succ_iff_lt_or_eq.mp hjk with hjk2 | hjk2
                  · exact hold.2.1 hjk2
                  · subst hjk2
                    rw [hw] at hjw0
                    cases hjw0
                    exact absurd rfl hww0
                · intro hne
                  obtain ⟨c, hc, hcw, hcp, hc1, hc2⟩ := hold.2.2 hne
                  exact ⟨c, List.mem_append_left _ hc, hcw, hcp, hc1, hc2⟩
          · intro c hc
            rcases List.mem_append.mp hc with hc1 | hc1
            · exact hins11 c hc1
            · rw [List.mem_singleton] at hc1
              subst hc1
              exact Or.inr ⟨w, humem, rfl⟩
          · intro _ hCO c hc
            rcases List.mem_append.mp hc with hc1 | hc1
            · exact hCO c hc1
            · rw [List.mem_singleton] at hc1
              subst hc1
              rfl
      · -- untouched: the condition is false, which transfers to the
        -- original view
        rw [if_neg hcond] at hstep
        rw [Option.some.injEq] at hstep
        subst hstep
        refine ⟨ins, ⟨hpre, hlen, hkind, hout, hoty, hattr, hfr, hbnd, hnd, ?_,
          hins11⟩, fun _ hCO => hCO⟩
        intro j u' w' hju' hjw'
        have hold := hpos j u' w' hju' hjw'
        refine ⟨hold.1, ?_, hold.2.2⟩
        intro hjk
        rcases Nat.lt_succ_iff_lt_or_eq.mp hjk with hjk2 | hjk2
        · exact hold.2.1 hjk2
        · subst hjk2
          rw [hw] at hjw'
          cases hjw'
          rw [hu] at hju'
          cases hju'
          intro hwu
          subst hwu
          have hpeq := horig_look w humem
          have hveq : vtypeOf ⟨it, done ++ n :: rest, [], fresh0⟩ w =
              vtypeOf ⟨it, s.pre ++ s.node :: rest, [], s.fresh⟩ w :=
            (vtypeOf_congr hpeq).symm
          refine ⟨?_, tt, by rw [hveq]; exact htt, ?_⟩
          · intro hx
            apply hcond
            apply Or.inl
            unfold kindOf at hx ⊢
            rw [hpeq]
            exact hx
          · cases hsc : tt.scalarType with
            | none => exact Or.inl rfl
            | some st =>
              by_cases hstT : st = T
              · exact Or.inr (by rw [hstT])
              · exfalso
                apply hcond
                apply Or.inr
                refine ⟨by rw [hsc]; rfl, ?_⟩
                rw [hsc]
                intro hx
                rw [Option.some.injEq] at hx
                exact hstT hx

end ScalarTypeAnalysis

namespace ScalarTypeAnalysis

theorem loopFix_fold {it : List (ValueId × TensorTypeAnn)}
    {done rest : List Node} {n : Node} {fresh0 : ValueId} {T : ScalarType}
    (Hdone : ∀ m ∈ done, m.output < fresh0)
    (Horig : ∀ u ∈ n.inputs, u < fresh0)
    (Hstable : ∀ u ∈ n.inputs, IdStable done rest n fresh0 u) :
    ∀ (cnt start : Nat) (s s2 : RewriteState) (ins : List Node),
    (List.range' start cnt).foldlM
      (UpdateLoopStep it rest T (ScalarTypeToONNXType T)) s = some s2 →
    LoopFix it done rest n fresh0 T start ins s →
    ∃ ins2, LoopFix it done rest n fresh0 T (start + cnt) ins2 s2 ∧
      ((∀ u2 ∈ n.inputs, kindOf (done ++ n :: rest) u2 ≠ NodeKind.Constant) →
        (∀ c ∈ ins, c.kind = NodeKind.Cast) →
        ∀ c ∈ ins2, c.kind = NodeKind.Cast) := by
  intro cnt
  induction cnt with
  | zero =>
    intro start s s2 ins hf hinv
    simp only [List.range', List.foldlM_nil] at hf
    cases hf
    exact ⟨ins, hinv, fun _ h => h⟩
  | succ cnt ih =>
    intro start s s2 ins hf hinv
    rw [List.range'_succ, List.foldlM_cons] at hf
    cases hstep : UpdateLoopStep it rest T (ScalarTypeToONNXType T) s start with
    | none => rw [hstep] at hf; cases hf
    | some s1 =>
      rw [hstep] at hf
      simp only [Option.bind_eq_bind, Option.some_bind] at hf
      obtain ⟨ins1, hinv1, hnc1⟩ := loopFix_step Hdone Horig Hstable hstep hinv
      obtain ⟨ins2, hinv2, hnc2⟩ := ih (start + 1) s1 s2 ins1 hf hinv1
      refine ⟨ins2, ?_, fun hNC hCO => hnc2 hNC (hnc1 hNC hCO)⟩
      have : start + 1 + cnt = start + (cnt + 1) := by omega
      rw [← this]
      exact hinv2

end ScalarTypeAnalysis

namespace ScalarTypeAnalysis

theorem updateInputs_fix {it : List (ValueId × TensorTypeAnn)}
    {done rest : List Node} {n : Node} {fresh0 : ValueId} {T : ScalarType}
    {s : RewriteState} {ws : List Warning}
    (hcodec : 0 ≤ ScalarTypeToONNXType T)
    (Hdone : ∀ m ∈ done, m.output < fresh0)
    (Horig : ∀ u ∈ n.inputs, u < fresh0)
    (Hstable : ∀ u ∈ n.inputs, IdStable done rest n fresh0 u)
    (h : UpdateScalarTypeForInputs it done n rest fresh0 T = some (s, ws)) :
    ws = [] ∧ ∃ ins, LoopFix it done rest n fresh0 T n.inputs.length ins s ∧
      ((∀ u2 ∈ n.inputs, kindOf (done ++ n :: rest) u2 ≠ NodeKind.Constant) →
        ∀ c ∈ ins, c.kind = NodeKind.Cast) := by
  unfold UpdateScalarTypeForInputs at h
  dsimp only at h
  rw [if_neg (Int.not_lt.mpr hcodec)] at h
  cases hfold : (List.range n.inputs.length).foldlM
      (UpdateLoopStep it rest T (ScalarTypeToONNXType T)) ⟨done, n, fresh0⟩ with
  | none =>
    rw [hfold] at h
    cases h
  | some s1 =>
    rw [hfold] at h
    dsimp only at h
    rw [Option.some.injEq, Prod.mk.injEq] at h
    obtain ⟨rfl, rfl⟩ := h
    refine ⟨rfl, ?_⟩
    have hinit : LoopFix it done rest n fresh0 T 0 [] ⟨done, n, fresh0⟩ := by
      refine ⟨by simp, rfl, rfl, rfl, rfl, rfl, Nat.le_refl _, by simp, by simp,
        ?_, fun c hc => absurd hc (List.not_mem_nil c)⟩
      intro j u w hju hjw
      have hwu : w = u := by
        rw [hju, Option.some.injEq] at hjw
        exact hjw.symm
      exact ⟨Or.inl hwu, fun hj0 => absurd hj0 (Nat.not_lt_zero j),
        fun hne => absurd hwu hne⟩
    rw [List.range_eq_range'] at hfold
    obtain ⟨ins, hfix, hnc⟩ :=
      loopFix_fold Hdone Horig Hstable n.inputs.length 0 _ _ [] hfold hinit
    rw [Nat.zero_add] at hfix
    exact ⟨ins, hfix,
      fun hNC => hnc hNC (fun c hc => absurd hc (List.not_mem_nil c))⟩

end ScalarTypeAnalysis

namespace ScalarTypeAnalysis

/-- Relation between an original input value and the value sitting at the
same position after the rewriting loop: untouched (with the loop's
negative condition) or rewired to a created node, whose origin is
recorded. -/
def InRel (it : List (ValueId × TensorTypeAnn)) (done rest : List Node)
    (n : Node) (fresh0 : ValueId) (T : ScalarType) (ins : List Node)
    (u w : ValueId) : Prop :=
  (w = u ∧ OrigCondFalse it done rest n fresh0 T u) ∨
  (∃ c ∈ ins, c.output = w ∧ CreatedProps T c u ∧
    (c.kind = NodeKind.Constant →
      kindOf (done ++ n :: rest) u = NodeKind.Constant) ∧
    (c.kind = NodeKind.Cast → ∃ tt S,
      vtypeOf ⟨it, done ++ n :: rest, [], fresh0⟩ u = some tt ∧
        tt.scalarType = some S))

theorem loopFix_inRel {it : List (ValueId × TensorTypeAnn)}
    {done rest : List Node} {n : Node} {fresh0 : ValueId} {T : ScalarType}
    {ins : List Node} {s : RewriteState}
    (Horig : ∀ u ∈ n.inputs, u < fresh0)
    (hfix : LoopFix it done rest n fresh0 T n.inputs.length ins s) :
    List.Forall₂ (InRel it done rest n fresh0 T ins) n.inputs s.node.inputs := by
  obtain ⟨_, hlen, _, _, _, _, _, hbnd, _, hpos, _⟩ := hfix
  apply List.forall₂_of_length_eq_of_get hlen.symm
  intro i h1 h2
  have hju : n.inputs.get? i = some (n.inputs.get ⟨i, h1⟩) := List.get?_eq_get h1
  have hjw : s.node.inputs.get? i = some (s.node.inputs.get ⟨i, h2⟩) :=
    List.get?_eq_get h2
  have hp := hpos i _ _ hju hjw
  rcases hp.1 with h | h
  · exact Or.inl ⟨h, hp.2.1 h1 h⟩
  · obtain ⟨c, hc, hcw, _⟩ := h
    have hne : s.node.inputs.get ⟨i, h2⟩ ≠ n.inputs.get ⟨i, h1⟩ := by
      rw [← hcw]
      exact Nat.ne_of_gt (Nat.lt_of_lt_of_le
        (Horig _ (List.get_mem _ _ _)) (hbnd c hc).1)
    exact Or.inr (hp.2.2 hne)

theorem producerOf_new_orig {done ins rest : List Node} {n n2 : Node}
    {fresh0 : ValueId} {u : ValueId}
    (hst : IdStable done rest n fresh0 u)
    (hins : ∀ c ∈ ins, fresh0 ≤ c.output) (ho2 : n2.output = n.output) :
    producerOf (done ++ ins ++ n2 :: rest) u = producerOf (done ++ n :: rest) u := by
  exact hst ins n2 hins ho2

theorem producerOf_new_created {done ins rest : List Node} {n2 c : Node}
    {fresh0 : ValueId}
    (Hdone : ∀ m ∈ done, m.output < fresh0)
    (hins : ∀ m ∈ ins, fresh0 ≤ m.output)
    (hnd : (ins.map Node.output).Nodup) (hc : c ∈ ins) :
    producerOf (done ++ ins ++ n2 :: rest) c.output = some c := by
  rw [List.append_assoc]
  rw [producerOf_append_of_none _ (producerOf_none_of_ne (fun m hm =>
    Nat.ne_of_lt (Nat.lt_of_lt_of_le (Hdone m hm) (hins c hc))))]
  exact producerOf_append_of_some _ (producerOf_eq_of_mem hnd hc rfl)

end ScalarTypeAnalysis

namespace ScalarTypeAnalysis

/-- How the classification of one input position changes across the
rewriting loop: unchanged, or replaced by a tensor contribution of the
target type (Cast), or by a scalar contribution of the target type
(re-created Constant, which was a scalar contribution before). -/
def PosRel (T : ScalarType) (oi ni : BucketItem) : Prop :=
  ni = oi ∨
  (ni = .tensorItem T ∧ ∃ s, oi.val = some s) ∨
  (ni = .scalarItem T ∧ ∃ s, oi = .scalarItem s)

theorem item_scalar_of_const {g : Graph} {u : ValueId} {oi : BucketItem}
    (h : InferInputItem g u = some oi)
    (hk : kindOf g.nodes u = NodeKind.Constant) :
    ∃ s, oi = .scalarItem s := by
  unfold InferInputItem at h
  dsimp only at h
  rw [hk] at h
  rw [if_neg (by intro h2; cases h2), if_pos rfl] at h
  cases hv : (producerOf g.nodes u).bind Node.attrValue with
  | none => rw [hv] at h; cases h
  | some t =>
    rw [hv] at h
    dsimp only at h
    rw [Option.some.injEq] at h
    exact ⟨t.dtype, h.symm⟩

theorem item_val_of_annot {g : Graph} {u : ValueId} {oi : BucketItem}
    {tt : TensorTypeAnn} {S : ScalarType}
    (h : InferInputItem g u = some oi) (hvt : vtypeOf g u = some tt)
    (hS : tt.scalarType = some S) : ∃ s, oi.val = some s := by
  unfold InferInputItem at h
  dsimp only at h
  by_cases hkg : kindOf g.nodes u = NodeKind.Gather
  · rw [if_pos hkg] at h
    cases hw : (producerOf g.nodes u).bind (fun pn => pn.inputs.get? 0) with
    | none => rw [hw] at h; cases h
    | some w2 =>
      rw [hw] at h
      dsimp only at h
      by_cases hsh : kindOf g.nodes w2 = NodeKind.Shape
      · rw [if_pos hsh, Option.some.injEq] at h
        exact ⟨ScalarType.Long, by rw [← h]; rfl⟩
      · rw [if_neg hsh] at h
        unfold InferInputTensorCase at h
        rw [hvt] at h
        dsimp only at h
        rw [hS] at h
        dsimp only at h
        rw [Option.some.injEq] at h
        exact ⟨S, by rw [← h]; rfl⟩
  · rw [if_neg hkg] at h
    by_cases hkc : kindOf g.nodes u = NodeKind.Constant
    · rw [if_pos hkc] at h
      cases hv : (producerOf g.nodes u).bind Node.attrValue with
      | none => rw [hv] at h; cases h
      | some t =>
        rw [hv] at h
        dsimp only at h
        rw [Option.some.injEq] at h
        exact ⟨t.dtype, by rw [← h]; rfl⟩
    · rw [if_neg hkc] at h
      unfold InferInputTensorCase at h
      rw [hvt] at h
      dsimp only at h
      rw [hS] at h
      dsimp only at h
      rw [Option.some.injEq] at h
      exact ⟨S, by rw [← h]; rfl⟩

end ScalarTypeAnalysis

namespace ScalarTypeAnalysis

theorem item_new {it : List (ValueId × TensorTypeAnn)}
    {done rest ins : List Node} {n n2 : Node} {fresh0 f1 : ValueId}
    {T : ScalarType} {u w : ValueId} {oi : BucketItem}
    (Hdone : ∀ m ∈ done, m.output < fresh0)
    (hins : ∀ c ∈ ins, fresh0 ≤ c.output)
    (hnd : (ins.map Node.output).Nodup) (ho2 : n2.output = n.output)
    (hst : IdStable done rest n fresh0 u)
    (hstG : ∀ pn w2, producerOf (done ++ n :: rest) u = some pn →
      pn.inputs.get? 0 = some w2 → IdStable done rest n fresh0 w2)
    (hrel : InRel it done rest n fresh0 T ins u w)
    (hoi : InferInputItem ⟨it, done ++ n :: rest, [], fresh0⟩ u = some oi) :
    ∃ ni, InferInputItem ⟨it, done ++ ins ++ n2 :: rest, [], f1⟩ w = some ni ∧
      PosRel T oi ni := by
  rcases hrel with ⟨rfl, _⟩ | ⟨c, hc, hcw, hcp, hconstO, hcastO⟩
  · refine ⟨oi, ?_, Or.inl rfl⟩
    have h2 : ∀ pn w2, producerOf (done ++ n :: rest) w = some pn →
        pn.inputs.get? 0 = some w2 →
        kindOf (done ++ ins ++ n2 :: rest) w2 = kindOf (done ++ n :: rest) w2 := by
      intro pn w2 hpn hw2
      unfold kindOf
      rw [producerOf_new_orig (hstG pn w2 hpn hw2) hins ho2]
    rw [inferInputItem_congr (producerOf_new_orig hst hins ho2) h2]
    exact hoi
  · obtain ⟨hcty, hkinds⟩ := hcp
    have hlook : producerOf (done ++ ins ++ n2 :: rest) w = some c := by
      rw [← hcw]
      exact producerOf_new_created Hdone hins hnd hc
    have hkw : kindOf (done ++ ins ++ n2 :: rest) w = c.kind := by
      unfold kindOf
      rw [hlook]
    rcases hkinds with ⟨hck, hcto, hcin⟩ | ⟨hck, hcin, t, hct, htd⟩
    · -- created Cast: a tensor contribution of type T
      obtain ⟨tt, S, hvtO, hSO⟩ := hcastO hck
      refine ⟨.tensorItem T, ?_, Or.inr (Or.inl ⟨rfl,
        item_val_of_annot hoi hvtO hSO⟩)⟩
      rw [hck] at hkw
      unfold InferInputItem
      dsimp only
      rw [hkw]
      rw [if_neg (by intro h2; cases h2), if_neg (by intro h2; cases h2)]
      unfold InferInputTensorCase
      have hvt : vtypeOf ⟨it, done ++ ins ++ n2 :: rest, [], f1⟩ w =
          some ⟨some T⟩ := by
        unfold vtypeOf
        dsimp only
        rw [hlook]
        exact hcty
      rw [hvt]
    · -- created Constant: a scalar contribution of type T
      obtain ⟨s0, hs0⟩ := item_scalar_of_const hoi (hconstO hck)
      refine ⟨.scalarItem T, ?_, Or.inr (Or.inr ⟨rfl, s0, hs0⟩)⟩
      rw [hck] at hkw
      unfold InferInputItem
      dsimp only
      rw [hkw]
      rw [if_neg (by intro h2; cases h2), if_pos rfl]
      have hbind : (producerOf (done ++ ins ++ n2 :: rest) w).bind
          Node.attrValue = some t := by
        rw [hlook]
        dsimp only [Option.some_bind]
        exact hct
      rw [hbind]
      dsimp only
      rw [htd]

end ScalarTypeAnalysis

namespace ScalarTypeAnalysis

theorem items_build {it : List (ValueId × TensorTypeAnn)}
    {done rest ins : List Node} {n n2 : Node} {fresh0 f1 : ValueId}
    {T : ScalarType}
    (Hdone : ∀ m ∈ done, m.output < fresh0)
    (hins : ∀ c ∈ ins, fresh0 ≤ c.output)
    (hnd : (ins.map Node.output).Nodup) (ho2 : n2.output = n.output)
    (hstAll : ∀ u ∈ n.inputs, IdStable done rest n fresh0 u)
    (hstGAll : ∀ u ∈ n.inputs, ∀ pn w2,
      producerOf (done ++ n :: rest) u = some pn →
      pn.inputs.get? 0 = some w2 → IdStable done rest n fresh0 w2) :
    ∀ {us ws : List ValueId},
    List.Forall₂ (InRel it done rest n fresh0 T ins) us ws →
    (∀ u ∈ us, u ∈ n.inputs) →
    ∀ {ois : List BucketItem},
    us.mapM (InferInputItem ⟨it, done ++ n :: rest, [], fresh0⟩) = some ois →
    ∃ nis, ws.mapM
        (InferInputItem ⟨it, done ++ ins ++ n2 :: rest, [], f1⟩) = some nis ∧
      List.Forall₂ (PosRel T) ois nis := by
  intro us ws hf
  induction hf with
  | nil =>
    intro _ ois h
    have h2 : some [] = some ois := h
    rw [Option.some.injEq] at h2
    subst h2
    exact ⟨[], rfl, List.Forall₂.nil⟩
  | @cons a b l1 l2 hr ht ih =>
    intro hsub ois h
    rw [List.mapM_cons] at h
    cases hoi : InferInputItem ⟨it, done ++ n :: rest, [], fresh0⟩ a with
    | none => rw [hoi] at h; simp at h
    | some oi =>
      rw [hoi] at h
      cases hois : l1.mapM (InferInputItem ⟨it, done ++ n :: rest, [],
          fresh0⟩) with
      | none => rw [hois] at h; simp at h
      | some ois1 =>
        rw [hois] at h
        have h2 : some (oi :: ois1) = some ois := h
        rw [Option.some.injEq] at h2
        subst h2
        have hamem := hsub a (List.mem_cons_self a l1)
        obtain ⟨ni, hni, hpr⟩ := item_new Hdone hins hnd ho2
          (hstAll a hamem) (hstGAll a hamem) hr hoi
        obtain ⟨nis, hnis, hf2⟩ :=
          ih (fun u hu => hsub u (List.mem_cons_of_mem a hu)) hois
        refine ⟨ni :: nis, ?_, List.Forall₂.cons hpr hf2⟩
        rw [List.mapM_cons, hni, hnis]
        rfl

theorem inferCollect_of_mapM {g : Graph} {n : Node} {items : List BucketItem}
    (h : n.inputs.mapM (InferInputItem g) = some items) :
    InferCollect g n = some ⟨items.filterMap BucketItem.tPart,
      items.filterMap BucketItem.sPart⟩ := by
  unfold InferCollect
  suffices hgen : ∀ (l : List ValueId) (its : List BucketItem),
      l.mapM (InferInputItem g) = some its → ∀ (acc : Buckets),
      l.foldlM (fun acc v => (InferInputItem g v).map acc.push) acc =
      some ⟨acc.typesFromTensors ++ its.filterMap BucketItem.tPart,
        acc.typesFromScalars ++ its.filterMap BucketItem.sPart⟩ by
    rw [hgen n.inputs items h ⟨[], []⟩]
    simp
  intro l
  induction l with
  | nil =>
    intro its h acc
    have h2 : some [] = some its := h
    rw [Option.some.injEq] at h2
    subst h2
    simp
  | cons v l ih =>
    intro its h acc
    rw [List.mapM_cons] at h
    cases hoi : InferInputItem g v with
    | none => rw [hoi] at h; simp at h
    | some oi =>
      rw [hoi] at h
      cases hrest : l.mapM (InferInputItem g) with
      | none => rw [hrest] at h; simp at h
      | some its1 =>
        rw [hrest] at h
        have h2 : some (oi :: its1) = some its := h
        rw [Option.some.injEq] at h2
        subst h2
        rw [List.foldlM_cons, hoi]
        simp only [Option.bind_eq_bind]
        rw [show Option.map acc.push (some oi) = some (acc.push oi) from rfl,
          Option.some_bind]
        rw [ih its1 hrest (acc.push oi)]
        cases oi <;>
          simp [Buckets.push, BucketItem.tPart, BucketItem.sPart]

theorem forall₂_mem_left {α β : Type} {R : α → β → Prop} :
    ∀ {l1 : List α} {l2 : List β}, List.Forall₂ R l1 l2 →
    ∀ a ∈ l1, ∃ b ∈ l2, R a b := by
  intro l1 l2 h
  induction h with
  | nil => intro a ha; cases ha
  | cons hab _ ih =>
    intro a ha
    rcases List.mem_cons.mp ha with rfl | ha
    · exact ⟨_, List.mem_cons_self _ _, hab⟩
    · obtain ⟨b, hb, hr⟩ := ih a ha
      exact ⟨b, List.mem_cons_of_mem _ hb, hr⟩

theorem promoteScalarTypes_mem_le {l : List ScalarType} {T : ScalarType}
    (h : PromoteScalarTypes l = some T) : ∀ x ∈ l, stLE x T := by
  cases l with
  | nil => cases h
  | cons t ts =>
    rw [promoteScalarTypes_cons, Option.some.injEq] at h
    intro x hx
    rw [← h]
    exact mem_le_foldl_promote _ hx

end ScalarTypeAnalysis

namespace ScalarTypeAnalysis

theorem filterVal_rel {T : ScalarType} :
    ∀ {olds news : List BucketItem},
    List.Forall₂ (PosRel T) olds news →
    (∀ s ∈ olds.filterMap BucketItem.val, stLE s T) →
    List.Forall₂ (fun a b => stLE a b ∧ stLE b T)
      (olds.filterMap BucketItem.val) (news.filterMap BucketItem.val) := by
  intro olds news hf
  induction hf with
  | nil =>
    intro _
    exact List.Forall₂.nil
  | @cons oi ni olds1 news1 hr ht ih =>
    intro hle
    rcases hr with rfl | ⟨hni, s, hs⟩ | ⟨hni, hs⟩
    · cases hv : ni.val with
      | none =>
        rw [List.filterMap_cons_none hv, List.filterMap_cons_none hv]
        rw [List.filterMap_cons_none hv] at hle
        exact ih hle
      | some sv =>
        rw [List.filterMap_cons_some hv, List.filterMap_cons_some hv]
        rw [List.filterMap_cons_some hv] at hle
        exact List.Forall₂.cons
          ⟨stLE_refl sv, hle sv (List.mem_cons_self _ _)⟩
          (ih (fun x hx => hle x (List.mem_cons_of_mem _ hx)))
    · subst hni
      rw [List.filterMap_cons_some hs,
        List.filterMap_cons_some (show (BucketItem.tensorItem T).val = some T
          from rfl)]
      rw [List.filterMap_cons_some hs] at hle
      exact List.Forall₂.cons
        ⟨hle s (List.mem_cons_self _ _), stLE_refl T⟩
        (ih (fun x hx => hle x (List.mem_cons_of_mem _ hx)))
    · obtain ⟨s, hs⟩ := hs
      subst hni
      subst hs
      rw [List.filterMap_cons_some (show (BucketItem.scalarItem s).val = some s
          from rfl),
        List.filterMap_cons_some (show (BucketItem.scalarItem T).val = some T
          from rfl)]
      rw [List.filterMap_cons_some (show (BucketItem.scalarItem s).val = some s
          from rfl)] at hle
      exact List.Forall₂.cons
        ⟨hle s (List.mem_cons_self _ _), stLE_refl T⟩
        (ih (fun x hx => hle x (List.mem_cons_of_mem _ hx)))

theorem filterS_rel {T : ScalarType} :
    ∀ {olds news : List BucketItem},
    List.Forall₂ (PosRel T) olds news →
    (∀ i ∈ news, ∃ st, i = BucketItem.scalarItem st) →
    (∀ s ∈ olds.filterMap BucketItem.sPart, stLE s T) →
    List.Forall₂ (fun a b => stLE a b ∧ stLE b T)
      (olds.filterMap BucketItem.sPart) (news.filterMap BucketItem.sPart) := by
  intro olds news hf
  induction hf with
  | nil =>
    intro _ _
    exact List.Forall₂.nil
  | @cons oi ni olds1 news1 hr ht ih =>
    intro hsc hle
    have hsc1 : ∀ i ∈ news1, ∃ st, i = BucketItem.scalarItem st :=
      fun i hi => hsc i (List.mem_cons_of_mem _ hi)
    rcases hr with rfl | ⟨hni, _⟩ | ⟨hni, hs⟩
    · cases hv : ni.sPart with
      | none =>
        rw [List.filterMap_cons_none hv, List.filterMap_cons_none hv]
        rw [List.filterMap_cons_none hv] at hle
        exact ih hsc1 hle
      | some sv =>
        rw [List.filterMap_cons_some hv, List.filterMap_cons_some hv]
        rw [List.filterMap_cons_some hv] at hle
        exact List.Forall₂.cons
          ⟨stLE_refl sv, hle sv (List.mem_cons_self _ _)⟩
          (ih hsc1 (fun x hx => hle x (List.mem_cons_of_mem _ hx)))
    · obtain ⟨st, hst⟩ := hsc ni (List.mem_cons_self _ _)
      rw [hst] at hni
      cases hni
    · obtain ⟨s, hs⟩ := hs
      subst hni
      subst hs
      rw [List.filterMap_cons_some
          (show (BucketItem.scalarItem s).sPart = some s from rfl),
        List.filterMap_cons_some
          (show (BucketItem.scalarItem T).sPart = some T from rfl)]
      rw [List.filterMap_cons_some
          (show (BucketItem.scalarItem s).sPart = some s from rfl)] at hle
      exact List.Forall₂.cons
        ⟨hle s (List.mem_cons_self _ _), stLE_refl T⟩
        (ih hsc1 (fun x hx => hle x (List.mem_cons_of_mem _ hx)))

theorem sPart_len_left {T : ScalarType} {olds news : List BucketItem}
    (hf : List.Forall₂ (PosRel T) olds news)
    (hlen : (news.filterMap BucketItem.sPart).length = news.length) :
    (olds.filterMap BucketItem.sPart).length = olds.length := by
  rw [sPart_length_iff] at hlen ⊢
  intro oi hoi
  obtain ⟨ni, hni, hr⟩ := forall₂_mem_left hf oi hoi
  obtain ⟨st, hst⟩ := hlen ni hni
  rcases hr with heq | ⟨h2, _⟩ | ⟨_, s, hs⟩
  · exact ⟨st, by rw [← heq, hst]⟩
  · rw [hst] at h2
    cases h2
  · exact ⟨s, hs⟩

end ScalarTypeAnalysis

namespace ScalarTypeAnalysis

/-- Re-running type inference after the rewrite yields the same concrete
type: the per-position bucket contributions are untouched or replaced by
contributions of the inferred type, and for non-comparison nodes the
output annotation now carries the inferred type. -/
theorem infer_new_of_items {it : List (ValueId × TensorTypeAnn)}
    {L1 L2 : List Node} {n q : Node} {f0 f1 : ValueId} {T : ScalarType}
    {ws : List Warning}
    (hkind : q.kind = n.kind)
    (hlen : q.inputs.length = n.inputs.length)
    (Hinfer : InferExpectedScalarType ⟨it, L1, [], f0⟩ n = some (some T, ws))
    (hout2 : IsComparisonOp n.kind = true → q.outputType = n.outputType)
    (hout2' : IsComparisonOp n.kind = false → q.outputType = some ⟨some T⟩)
    (hmap : ∀ ois, n.inputs.mapM (InferInputItem ⟨it, L1, [], f0⟩) = some ois →
      ∃ nis, q.inputs.mapM (InferInputItem ⟨it, L2, [], f1⟩) = some nis ∧
        List.Forall₂ (PosRel T) ois nis) :
    ∃ ws2, InferExpectedScalarType ⟨it, L2, [], f1⟩ q =
      some (some T, ws2) := by
  unfold InferExpectedScalarType at Hinfer
  cases hcol : InferCollect ⟨it, L1, [], f0⟩ n with
  | none => rw [hcol] at Hinfer; cases Hinfer
  | some ob =>
    rw [hcol] at Hinfer
    dsimp only at Hinfer
    cases hott : n.outputType with
    | none => rw [hott] at Hinfer; cases Hinfer
    | some ott =>
      rw [hott] at Hinfer
      dsimp only at Hinfer
      obtain ⟨ois, hmapO, hobS, hobT, hlenO⟩ := inferCollect_char hcol
      obtain ⟨nis, hmapN, hford⟩ := hmap ois hmapO
      have hnlen : nis.length = q.inputs.length := by
        rw [hlen, ← hlenO]
        exact hford.length_eq.symm
      unfold InferExpectedScalarType
      rw [inferCollect_of_mapM hmapN]
      dsimp only
      by_cases hcmp : IsComparisonOp n.kind = true
      · rw [hout2 hcmp, hott]
        dsimp only
        rw [hkind, if_pos hcmp]
        rw [if_pos hcmp] at Hinfer
        rw [Option.some.injEq, Prod.mk.injEq] at Hinfer
        have hfold := Hinfer.1
        rw [hobS, hobT] at hfold
        have hvalsO : PromoteScalarTypes (ois.filterMap BucketItem.val) =
            some T := by
          rw [← promoteScalarTypes_perm (sPart_tPart_perm ois)]
          exact hfold
        have hvalsN : PromoteScalarTypes (nis.filterMap BucketItem.val) =
            some T :=
          promote_fold_eq (filterVal_rel hford
            (promoteScalarTypes_mem_le hvalsO)) hvalsO
        refine ⟨[], ?_⟩
        rw [Option.some.injEq, Prod.mk.injEq]
        refine ⟨?_, rfl⟩
        rw [promoteScalarTypes_perm (sPart_tPart_perm nis)]
        exact hvalsN
      · have hcmpf : IsComparisonOp n.kind = false :=
          Bool.not_eq_true _ ▸ Bool.of_not_eq_true hcmp
        rw [hout2' hcmpf]
        dsimp only
        rw [hkind, if_neg hcmp]
        rw [if_neg hcmp] at Hinfer
        by_cases hns : (nis.filterMap BucketItem.sPart).length =
            q.inputs.length
        · rw [if_pos hns]
          have hnsAll : (nis.filterMap BucketItem.sPart).length =
              nis.length := by
            rw [hns, hnlen]
          have hosAll : (ois.filterMap BucketItem.sPart).length =
              ois.length := sPart_len_left hford hnsAll
          have hcondO : ob.typesFromScalars.length = n.inputs.length := by
            rw [hobS, hosAll, hlenO]
          rw [if_pos hcondO] at Hinfer
          rw [Option.some.injEq, Prod.mk.injEq] at Hinfer
          have hfoldS := Hinfer.1
          rw [hobS] at hfoldS
          have hscN : ∀ i ∈ nis, ∃ st, i = BucketItem.scalarItem st :=
            (sPart_length_iff nis).mp hnsAll
          have hfoldN : PromoteScalarTypes (nis.filterMap BucketItem.sPart) =
              some T :=
            promote_fold_eq (filterS_rel hford hscN
              (promoteScalarTypes_mem_le hfoldS)) hfoldS
          exact ⟨[], by rw [hfoldN]⟩
        · rw [if_neg hns]
          exact ⟨[], rfl⟩

end ScalarTypeAnalysis

namespace ScalarTypeAnalysis

theorem topoOk_mono : ∀ {l : List Node} {avail avail2 : List ValueId},
    (∀ v ∈ avail, v ∈ avail2) → TopoOk avail l → TopoOk avail2 l := by
  intro l
  induction l with
  | nil => intro avail avail2 _ _; trivial
  | cons a l ih =>
    intro avail avail2 hsub h
    refine ⟨fun v hv => hsub v (h.1 v hv), ?_⟩
    refine ih ?_ h.2
    intro v hv
    rcases List.mem_append.mp hv with hv | hv
    · exact List.mem_append_left _ (hsub v hv)
    · exact List.mem_append_right _ hv

theorem topoOk_of_forall : ∀ {l : List Node} {avail : List ValueId},
    (∀ p ∈ l, ∀ v ∈ p.inputs, v ∈ avail) → TopoOk avail l := by
  intro l
  induction l with
  | nil => intro avail _; trivial
  | cons a l ih =>
    intro avail h
    refine ⟨h a (List.mem_cons_self a l) , ?_⟩
    exact topoOk_mono (fun v hv => List.mem_append_left _ hv)
      (ih (fun p hp => h p (List.mem_cons_of_mem a hp)))

theorem topoOk_split : ∀ {l1 l2 : List Node} {avail : List ValueId},
    TopoOk avail (l1 ++ l2) ↔
      TopoOk avail l1 ∧ TopoOk (avail ++ l1.map Node.output) l2 := by
  intro l1
  induction l1 with
  | nil =>
    intro l2 avail
    simp only [List.nil_append, List.map_nil, List.append_nil]
    exact ⟨fun h => ⟨trivial, h⟩, fun h => h.2⟩
  | cons a l1 ih =>
    intro l2 avail
    constructor
    · intro h
      obtain ⟨h1, h2⟩ := (@ih l2 (avail ++ [a.output])).mp h.2
      refine ⟨⟨h.1, h1⟩, ?_⟩
      apply topoOk_mono ?_ h2
      intro v hv
      simp only [List.append_assoc, List.mem_append, List.mem_cons,
        List.mem_singleton, List.map_cons] at hv ⊢
      tauto
    · intro ⟨⟨ha, h1⟩, h2⟩
      refine ⟨ha, ?_⟩
      apply (@ih l2 (avail ++ [a.output])).mpr
      refine ⟨h1, ?_⟩
      apply topoOk_mono ?_ h2
      intro v hv
      simp only [List.append_assoc, List.mem_append, List.mem_cons,
        List.mem_singleton, List.map_cons] at hv ⊢
      tauto

theorem topoOk_mem : ∀ {l : List Node} {avail : List ValueId},
    TopoOk avail l → ∀ p ∈ l, ∀ v ∈ p.inputs,
      v ∈ avail ∨ ∃ q ∈ l, q.output = v := by
  intro l
  induction l with
  | nil => intro avail _ p hp; cases hp
  | cons a l ih =>
    intro avail h p hp v hv
    rcases List.mem_cons.mp hp with rfl | hp
    · exact Or.inl (h.1 v hv)
    · rcases ih h.2 p hp v hv with hin | ⟨q, hq, hqo⟩
      · rcases List.mem_append.mp hin with hin | hin
        · exact Or.inl hin
        · rw [List.mem_singleton] at hin
          exact Or.inr ⟨a, List.mem_cons_self a l, hin.symm⟩
      · exact Or.inr ⟨q, List.mem_cons_of_mem a hq, hqo⟩

theorem topoOk_mid : ∀ {l1 : List Node} {n : Node} {l2 : List Node}
    {avail : List ValueId},
    TopoOk avail (l1 ++ n :: l2) → ∀ v ∈ n.inputs,
      v ∈ avail ∨ ∃ q ∈ l1, q.output = v := by
  intro l1 n l2 avail h v hv
  obtain ⟨_, h2⟩ := topoOk_split.mp h
  rcases List.mem_append.mp (h2.1 v hv) with hin | hin
  · exact Or.inl hin
  · obtain ⟨q, hq, hqo⟩ := List.mem_map.mp hin
    exact Or.inr ⟨q, hq, hqo⟩

end ScalarTypeAnalysis

namespace ScalarTypeAnalysis

theorem producerOf_isSome_of_mem {l : List Node} {q : Node} {v : ValueId}
    (hq : q ∈ l) (hqo : q.output = v) : (producerOf l v).isSome := by
  unfold producerOf
  rw [List.find?_isSome]
  exact ⟨q, hq, by simp [hqo]⟩

/-- No well-formed early value (a block input or an output of the
processed prefix) changes producer when the loop inserts fresh nodes and
mutates the processed node in place. -/
theorem idStable_of_avail {it : List (ValueId × TensorTypeAnn)}
    {done rest : List Node} {n : Node} {fresh : ValueId} {u : ValueId}
    (huniq : UniqueIds it (done ++ n :: rest))
    (hu : u ∈ it.map Prod.fst ∨ ∃ q ∈ done, q.output = u)
    (hult : u < fresh) :
    IdStable done rest n fresh u := by
  rcases hu with hu | ⟨q, hq, hqo⟩
  · have hnocol : ∀ m ∈ done ++ n :: rest, m.output ≠ u := by
      intro m hm
      have hdisj := List.disjoint_of_nodup_append huniq
      intro he
      exact hdisj hu (he ▸ List.mem_map_of_mem Node.output hm)
    apply idStable_of_nowhere
    · exact producerOf_none_of_ne (fun m hm =>
        hnocol m (List.mem_append_left _ hm))
    · exact hnocol n (List.mem_append_right _ (List.mem_cons_self n rest))
    · exact hult
  · exact idStable_of_done (producerOf_isSome_of_mem hq hqo)

/-- Kinds of producers of previously existing values are unchanged by
one rewriting step. -/
theorem kindOf_step {done ins rest : List Node} {n n2 : Node}
    {fresh : ValueId} {v : ValueId}
    (hv : v < fresh) (hins : ∀ c ∈ ins, fresh ≤ c.output)
    (ho2 : n2.output = n.output) (hk2 : n2.kind = n.kind) :
    kindOf (done ++ ins ++ n2 :: rest) v = kindOf (done ++ n :: rest) v := by
  unfold kindOf
  rw [List.append_assoc, producerOf_append, producerOf_append,
    show producerOf ins v = none from producerOf_none_of_ne (fun c hc =>
      Nat.ne_of_gt (Nat.lt_of_lt_of_le hv (hins c hc))),
    Option.none_or, producerOf_append]
  cases hd : producerOf done v with
  | some p => rfl
  | none =>
    simp only [Option.none_or]
    by_cases hnv : n.output = v
    · subst hnv
      rw [show producerOf (n2 :: rest) n.output = some n2 from by
        rw [← ho2]; exact producerOf_cons_self]
      rw [producerOf_cons_self]
      exact hk2
    · rw [producerOf_cons_ne (ho2.trans_ne hnv), producerOf_cons_ne hnv]

end ScalarTypeAnalysis

namespace ScalarTypeAnalysis

theorem nodup_insert_mid {A D I X : List ValueId}
    (hnodup : (A ++ (D ++ X)).Nodup) (hI : I.Nodup)
    (hdisj : ∀ a ∈ A ++ (D ++ X), a ∉ I) :
    (A ++ (D ++ (I ++ X))).Nodup := by
  have hp : (A ++ (D ++ (I ++ X))).Perm ((A ++ (D ++ X)) ++ I) := by
    rw [List.append_assoc A (D ++ X) I]
    apply List.Perm.append_left
    refine (List.Perm.append_left D List.perm_append_comm).trans ?_
    rw [← List.append_assoc]
  exact (List.Perm.nodup_iff hp).mpr (List.Nodup.append hnodup hI hdisj)

theorem uniqueIds_step {it : List (ValueId × TensorTypeAnn)}
    {done ins rest : List Node} {n n2 : Node} {fresh : ValueId}
    (huniq : UniqueIds it (done ++ n :: rest))
    (hboundA : ∀ p ∈ it, p.1 < fresh)
    (hboundO : ∀ m ∈ done ++ n :: rest, m.output < fresh)
    (hins : ∀ c ∈ ins, fresh ≤ c.output)
    (hnd : (ins.map Node.output).Nodup)
    (ho2 : n2.output = n.output) :
    UniqueIds it (done ++ ins ++ n2 :: rest) := by
  unfold UniqueIds at huniq ⊢
  rw [List.map_append, List.map_cons] at huniq
  rw [List.map_append, List.map_append, List.map_cons, ho2,
    List.append_assoc (done.map Node.output)]
  apply nodup_insert_mid huniq hnd
  intro a ha hb
  obtain ⟨c, hc, hco⟩ := List.mem_map.mp hb
  have halt : a < fresh := by
    rcases List.mem_append.mp ha with h | h
    · obtain ⟨p, hp, hpo⟩ := List.mem_map.mp h
      exact hpo ▸ hboundA p hp
    · rcases List.mem_append.mp h with h | h
      · obtain ⟨m, hm, hmo⟩ := List.mem_map.mp h
        exact hmo ▸ hboundO m (List.mem_append_left _ hm)
      · rcases List.mem_cons.mp h with rfl | h
        · exact hboundO n (List.mem_append_right _ (List.mem_cons_self _ _))
        · obtain ⟨m, hm, hmo⟩ := List.mem_map.mp h
          exact hmo ▸ hboundO m
            (List.mem_append_right _ (List.mem_cons_of_mem _ hm))
  exact Nat.lt_irrefl _ (Nat.lt_of_lt_of_le halt (hco ▸ hins c hc))

theorem mapM_congr_fn {α β : Type} {f g : α → Option β} :
    ∀ {l : List α}, (∀ a ∈ l, f a = g a) → l.mapM f = l.mapM g := by
  intro l
  induction l with
  | nil => intro _; rfl
  | cons a l ih =>
    intro h
    rw [List.mapM_cons, List.mapM_cons, h a (List.mem_cons_self a l),
      ih (fun b hb => h b (List.mem_cons_of_mem a hb))]

end ScalarTypeAnalysis

namespace ScalarTypeAnalysis

/-- No input of a whitelisted node is produced by a Constant (the
assumption under which the pass inserts only Cast nodes). -/
def NCW (g : Graph) : Prop :=
  ∀ m ∈ g.nodes, IsImplicitCastSupported m.kind = true →
    ∀ u ∈ m.inputs, kindOf g.nodes u ≠ NodeKind.Constant

/-- The state of one input value of a processed whitelisted node in the
view (it, L, F): its annotation is readable, and the edge is untouched
with an unknown or agreeing element type, or rewired to a node the pass
created (a Cast carrying the wire-format code of the inferred type, or a
Constant), annotated with the inferred type. -/
def InputOK (it : List (ValueId × TensorTypeAnn)) (L : List Node)
    (F : ValueId) (fresh0 : ValueId) (T : ScalarType) (u : ValueId) : Prop :=
  ∃ tt, vtypeOf ⟨it, L, [], F⟩ u = some tt ∧
    ((kindOf L u ≠ NodeKind.Constant ∧
        (tt.scalarType = none ∨ tt.scalarType = some T)) ∨
      ∃ c, producerOf L u = some c ∧ fresh0 ≤ c.output ∧
        tt.scalarType = some T ∧
        ((c.kind = NodeKind.Cast ∧
            c.attrTo = some (ScalarTypeToONNXType T)) ∨
          c.kind = NodeKind.Constant))

/-- What the pass guarantees of a processed node in the view (it, L, F):
inference still succeeds; when it yields a concrete type T, the output
annotation of a non-comparison node carries T, and — when T has a
wire-format code — every input is in the InputOK state (and, when no
whitelisted node of the original graph had a Constant input, no input is
produced by a Constant). -/
def NodeOK (it : List (ValueId × TensorTypeAnn)) (L : List Node)
    (F : ValueId) (fresh0 : ValueId) (nc : Prop) (m : Node) : Prop :=
  IsImplicitCastSupported m.kind = true →
  ∃ st ws, InferExpectedScalarType ⟨it, L, [], F⟩ m = some (st, ws) ∧
    ∀ T, st = some T →
      (IsComparisonOp m.kind = false → m.outputType = some ⟨some T⟩) ∧
      (0 ≤ ScalarTypeToONNXType T → ∀ u ∈ m.inputs,
        InputOK it L F fresh0 T u ∧ (nc → kindOf L u ≠ NodeKind.Constant))

/-- The invariant carried along the driver loop: id bounds, unique ids,
topological order, the unprocessed suffix is original, kinds of original
values are preserved, and every processed node satisfies NodeOK. -/
def BlockInv (g : Graph) (nc : Prop) (done rest : List Node)
    (fresh : ValueId) : Prop :=
  (∀ m ∈ done ++ rest, m.output < fresh ∧ ∀ u ∈ m.inputs, u < fresh) ∧
  g.fresh ≤ fresh ∧
  UniqueIds g.inputTypes (done ++ rest) ∧
  TopoOk (g.inputTypes.map Prod.fst) (done ++ rest) ∧
  (∀ m ∈ rest, m ∈ g.nodes ∧ m.output < g.fresh ∧
    ∀ u ∈ m.inputs, u < g.fresh) ∧
  (∀ v, v < g.fresh → kindOf (done ++ rest) v = kindOf g.nodes v) ∧
  (∀ m ∈ done, NodeOK g.inputTypes (done ++ rest) fresh g.fresh nc m)

end ScalarTypeAnalysis

namespace ScalarTypeAnalysis

theorem inputOK_step {it : List (ValueId × TensorTypeAnn)}
    {done ins rest : List Node} {n n2 : Node}
    {freshCur F F2 fresh0 : ValueId} {T : ScalarType} {u : ValueId}
    (hst : IdStable done rest n freshCur u)
    (hins : ∀ c ∈ ins, freshCur ≤ c.output) (ho2 : n2.output = n.output)
    (h : InputOK it (done ++ n :: rest) F fresh0 T u) :
    InputOK it (done ++ ins ++ n2 :: rest) F2 fresh0 T u := by
  obtain ⟨tt, hvt, hdisj⟩ := h
  have hpe : producerOf (done ++ ins ++ n2 :: rest) u =
      producerOf (done ++ n :: rest) u := hst ins n2 hins ho2
  refine ⟨tt, ?_, ?_⟩
  · rw [vtypeOf_congr hpe]
    exact hvt
  · rcases hdisj with ⟨hk, hsc⟩ | ⟨c, hc, hcf, hcs, hck⟩
    · refine Or.inl ⟨?_, hsc⟩
      intro hx
      apply hk
      unfold kindOf at hx ⊢
      rw [hpe] at hx
      exact hx
    · exact Or.inr ⟨c, by rw [hpe]; exact hc, hcf, hcs, hck⟩

theorem nodeOK_step {it : List (ValueId × TensorTypeAnn)}
    {done ins rest : List Node} {n n2 : Node}
    {freshCur F F2 fresh0 : ValueId} {nc : Prop} {m : Node}
    (hstm : ∀ u ∈ m.inputs, IdStable done rest n freshCur u ∧
      ∀ pn w2, producerOf (done ++ n :: rest) u = some pn →
        pn.inputs.get? 0 = some w2 → IdStable done rest n freshCur w2)
    (hins : ∀ c ∈ ins, freshCur ≤ c.output) (ho2 : n2.output = n.output)
    (h : NodeOK it (done ++ n :: rest) F fresh0 nc m) :
    NodeOK it (done ++ ins ++ n2 :: rest) F2 fresh0 nc m := by
  intro hsup
  obtain ⟨st, ws, hinf, hT⟩ := h hsup
  have hcongr : InferExpectedScalarType
      ⟨it, done ++ ins ++ n2 :: rest, [], F2⟩ m =
      InferExpectedScalarType ⟨it, done ++ n :: rest, [], F⟩ m := by
    apply infer_congr
    intro v hv
    refine ⟨(hstm v hv).1 ins n2 hins ho2, ?_⟩
    intro pn w2 hpn hw2
    unfold kindOf
    rw [(hstm v hv).2 pn w2 hpn hw2 ins n2 hins ho2]
  refine ⟨st, ws, by rw [hcongr]; exact hinf, ?_⟩
  intro T hstT
  obtain ⟨hout, hinp⟩ := hT T hstT
  refine ⟨hout, ?_⟩
  intro hcodec u hu
  obtain ⟨hok, hnc⟩ := hinp hcodec u hu
  refine ⟨inputOK_step (hstm u hu).1 hins ho2 hok, ?_⟩
  intro hncp hx
  apply hnc hncp
  unfold kindOf at hx ⊢
  rw [(hstm u hu).1 ins n2 hins ho2] at hx
  exact hx

end ScalarTypeAnalysis

namespace ScalarTypeAnalysis

/-- NodeOK for the freshly processed node, assembled from the final loop
invariant, the cast-only refinement and re-inference stability. -/
theorem nodeOK_new {it : List (ValueId × TensorTypeAnn)}
    {done rest ins : List Node} {n q : Node} {fresh G : ValueId}
    {fresh0g : ValueId} {T : ScalarType} {s : RewriteState}
    {ws : List Warning} {P : Prop}
    (Hdone : ∀ m ∈ done, m.output < fresh)
    (Horig : ∀ u ∈ n.inputs, u < fresh)
    (Hstable : ∀ u ∈ n.inputs, IdStable done rest n fresh u)
    (HstableG : ∀ u ∈ n.inputs, ∀ pn w2,
      producerOf (done ++ n :: rest) u = some pn →
      pn.inputs.get? 0 = some w2 → IdStable done rest n fresh w2)
    (hfix : LoopFix it done rest n fresh T n.inputs.length ins s)
    (hcastonly : (∀ u2 ∈ n.inputs,
        kindOf (done ++ n :: rest) u2 ≠ NodeKind.Constant) →
      ∀ c ∈ ins, c.kind = NodeKind.Cast)
    (Hinfer : InferExpectedScalarType ⟨it, done ++ n :: rest, [], fresh⟩ n =
      some (some T, ws))
    (hfresh0 : fresh0g ≤ fresh)
    (hnccur : P → ∀ u2 ∈ n.inputs,
      kindOf (done ++ n :: rest) u2 ≠ NodeKind.Constant)
    (hn2k : q.kind = n.kind) (hn2i : q.inputs = s.node.inputs)
    (hn2o : q.output = n.output)
    (hn2ty : IsComparisonOp n.kind = true → q.outputType = n.outputType)
    (hn2ty' : IsComparisonOp n.kind = false →
      q.outputType = some ⟨some T⟩) :
    NodeOK it (done ++ ins ++ q :: rest) G fresh0g P q := by
  intro _
  obtain ⟨hpre, hlen, hk, ho, hoty, hattr, hfr, hbnd, hnd, hpos, hinsin⟩ := hfix
  have hfix2 : LoopFix it done rest n fresh T n.inputs.length ins s :=
    ⟨hpre, hlen, hk, ho, hoty, hattr, hfr, hbnd, hnd, hpos, hinsin⟩
  have hinsge : ∀ c ∈ ins, fresh ≤ c.output := fun c hc => (hbnd c hc).1
  have hrel := loopFix_inRel Horig hfix2
  have hmap : ∀ ois, n.inputs.mapM
      (InferInputItem ⟨it, done ++ n :: rest, [], fresh⟩) = some ois →
      ∃ nis, q.inputs.mapM
        (InferInputItem ⟨it, done ++ ins ++ q :: rest, [], G⟩) = some nis ∧
        List.Forall₂ (PosRel T) ois nis := by
    intro ois hois
    rw [hn2i]
    exact items_build Hdone hinsge hnd hn2o Hstable HstableG hrel
      (fun u hu => hu) hois
  have hlen2 : q.inputs.length = n.inputs.length := by
    rw [hn2i, hlen]
  obtain ⟨ws2, hinf2⟩ :=
    infer_new_of_items hn2k hlen2 Hinfer hn2ty hn2ty' hmap
  refine ⟨some T, ws2, hinf2, ?_⟩
  intro T' hTT'
  rw [Option.some.injEq] at hTT'
  subst hTT'
  refine ⟨fun hcmp => hn2ty' (by rw [← hn2k]; exact hcmp), ?_⟩
  intro _ w hw
  rw [hn2i] at hw
  obtain ⟨u, hu, hrel2⟩ := forall₂_mem_right hrel w hw
  rcases hrel2 with ⟨heq, hkne, tt, hvtO, hscO⟩ |
    ⟨c, hc, hcw, ⟨hcty, hdisj2⟩, hconstO, hcastO⟩
  · subst heq
    have hpe := producerOf_new_orig (Hstable w hu) hinsge hn2o
    constructor
    · refine ⟨tt, ?_, Or.inl ⟨?_, hscO⟩⟩
      · rw [vtypeOf_congr hpe]
        exact hvtO
      · intro hx
        apply hkne
        unfold kindOf at hx ⊢
        rw [hpe] at hx
        exact hx
    · intro _ hx
      apply hkne
      unfold kindOf at hx ⊢
      rw [hpe] at hx
      exact hx
  · have hlook : producerOf (done ++ ins ++ q :: rest) w = some c := by
      rw [← hcw]
      exact producerOf_new_created Hdone hinsge hnd hc
    constructor
    · refine ⟨⟨some T⟩, ?_, Or.inr ⟨c, hlook,
        Nat.le_trans hfresh0 (hbnd c hc).1, rfl, ?_⟩⟩
      · unfold vtypeOf
        dsimp only
        rw [hlook]
        exact hcty
      · rcases hdisj2 with ⟨hck, hcto, _⟩ | ⟨hck, _⟩
        · exact Or.inl ⟨hck, hcto⟩
        · exact Or.inr hck
    · intro hncp hx
      unfold kindOf at hx
      rw [hlook] at hx
      dsimp only at hx
      rw [hcastonly (hnccur hncp) c hc] at hx
      cases hx

end ScalarTypeAnalysis

namespace ScalarTypeAnalysis

theorem topoOk_step {avail : List ValueId} {done ins rest : List Node}
    {n n2 : Node}
    (h : TopoOk avail (done ++ n :: rest))
    (hins : ∀ c ∈ ins, ∀ v ∈ c.inputs, v ∈ avail ++ done.map Node.output)
    (hn2 : ∀ v ∈ n2.inputs,
      v ∈ (avail ++ done.map Node.output) ++ ins.map Node.output)
    (ho2 : n2.output = n.output) :
    TopoOk avail (done ++ ins ++ n2 :: rest) := by
  obtain ⟨h1, h2⟩ := topoOk_split.mp h
  rw [List.append_assoc]
  apply topoOk_split.mpr
  refine ⟨h1, ?_⟩
  apply topoOk_split.mpr
  refine ⟨topoOk_of_forall hins, ?_⟩
  refine ⟨hn2, ?_⟩
  apply topoOk_mono ?_ h2.2
  intro v hv
  rcases List.mem_append.mp hv with hv | hv
  · exact List.mem_append_left _ (List.mem_append_left _ hv)
  · rw [List.mem_singleton] at hv
    rw [List.mem_append]
    right
    rw [hv, ← ho2]
    exact List.mem_singleton_self _

theorem producerOf_upd {done rest : List Node} {n q : Node}
    {fresh : ValueId} {u : ValueId}
    (hst : IdStable done rest n fresh u) (ho2 : q.output = n.output) :
    producerOf (done ++ q :: rest) u = producerOf (done ++ n :: rest) u := by
  have := hst [] q (by intro c hc; cases hc) ho2
  simpa using this

/-- NodeOK for a non-comparison node on the sentinel path: inputs are
untouched, the output annotation is set to the inferred (unencodable)
type, and re-inference still yields that type. -/
theorem nodeOK_sentinel {it : List (ValueId × TensorTypeAnn)}
    {done rest : List Node} {n n2 : Node} {fresh F2 : ValueId}
    {fresh0g : ValueId} {T : ScalarType} {ws : List Warning} {nc : Prop}
    (Hstable : ∀ u ∈ n.inputs, IdStable done rest n fresh u)
    (HstableG : ∀ u ∈ n.inputs, ∀ pn w2,
      producerOf (done ++ n :: rest) u = some pn →
      pn.inputs.get? 0 = some w2 → IdStable done rest n fresh w2)
    (Hinfer : InferExpectedScalarType ⟨it, done ++ n :: rest, [], fresh⟩ n =
      some (some T, ws))
    (hlt : ScalarTypeToONNXType T < 0)
    (hcmpf : IsComparisonOp n.kind = false)
    (hn2 : n2 = { n with outputType := some ⟨some T⟩ }) :
    NodeOK it (done ++ n2 :: rest) F2 fresh0g nc n2 := by
  subst hn2
  intro _
  have hcg : ∀ u ∈ n.inputs,
      InferInputItem ⟨it, done ++
        ({ n with outputType := some ⟨some T⟩ } : Node) :: rest, [], F2⟩ u =
      InferInputItem ⟨it, done ++ n :: rest, [], fresh⟩ u := by
    intro u hu
    apply inferInputItem_congr
    · exact producerOf_upd (Hstable u hu) rfl
    · intro pn w2 hpn hw2
      unfold kindOf
      rw [producerOf_upd (q := { n with outputType := some ⟨some T⟩ })
        (HstableG u hu pn w2 hpn hw2) rfl]
  have hmap : ∀ ois, n.inputs.mapM
      (InferInputItem ⟨it, done ++ n :: rest, [], fresh⟩) = some ois →
      ∃ nis, ({ n with outputType := some ⟨some T⟩ } : Node).inputs.mapM
        (InferInputItem ⟨it, done ++
          ({ n with outputType := some ⟨some T⟩ } : Node) :: rest, [], F2⟩) =
          some nis ∧
        List.Forall₂ (PosRel T) ois nis := by
    intro ois hois
    refine ⟨ois, ?_, List.forall₂_same.mpr (fun x _ => Or.inl rfl)⟩
    have hi : ({ n with outputType := some ⟨some T⟩ } : Node).inputs =
        n.inputs := rfl
    rw [hi, mapM_congr_fn hcg]
    exact hois
  obtain ⟨ws2, hinf2⟩ := infer_new_of_items (n := n)
    (q := { n with outputType := some ⟨some T⟩ }) rfl rfl Hinfer
    (fun hc => by rw [hcmpf] at hc; cases hc) (fun _ => rfl) hmap
  refine ⟨some T, ws2, hinf2, ?_⟩
  intro T' hTT'
  rw [Option.some.injEq] at hTT'
  subst hTT'
  refine ⟨fun _ => rfl, ?_⟩
  intro hge
  exact absurd hge (Int.not_le.mpr hlt)

end ScalarTypeAnalysis

namespace ScalarTypeAnalysis

theorem notSup_of_created {k : NodeKind}
    (h : k = NodeKind.Cast ∨ k = NodeKind.Constant) :
    IsImplicitCastSupported k = false := by
  rcases h with rfl | rfl <;> rfl

/-- A driver step that leaves the node unchanged preserves the block
invariant once NodeOK of the node itself is provided. -/
theorem blockInv_keep {g : Graph} {nc : Prop} {done rest : List Node}
    {n : Node} {fresh : ValueId}
    (hinv : BlockInv g nc done (n :: rest) fresh)
    (hok : NodeOK g.inputTypes (done ++ n :: rest) fresh g.fresh nc n) :
    BlockInv g nc (done ++ [n]) rest fresh := by
  obtain ⟨hbound, hgf, huniq, htopo, hrest, hkp, hdone⟩ := hinv
  have hre : (done ++ [n]) ++ rest = done ++ n :: rest :=
    list_reassoc done rest n
  refine ⟨?_, hgf, ?_, ?_,
    fun m hm => hrest m (List.mem_cons_of_mem n hm), ?_, ?_⟩
  · rw [hre]; exact hbound
  · rw [hre]; exact huniq
  · rw [hre]; exact htopo
  · intro v hv; rw [hre]; exact hkp v hv
  · intro m hm
    rw [hre]
    rcases List.mem_append.mp hm with hmd | hmn
    · exact hdone m hmd
    · rw [List.mem_singleton] at hmn
      subst hmn
      exact hok

/-- A driver step that rewrites the node and inserts fresh nodes before
it preserves the block invariant. -/
theorem blockInv_upd {g : Graph} {nc : Prop} {done J rest : List Node}
    {n y : Node} {fresh fresh2 : ValueId}
    (hit : ∀ p ∈ g.inputTypes, p.1 < g.fresh)
    (hinv : BlockInv g nc done (n :: rest) fresh)
    (hfr2 : fresh ≤ fresh2)
    (hins : ∀ c ∈ J, fresh ≤ c.output ∧ c.output < fresh2)
    (hnd : (J.map Node.output).Nodup)
    (hinskind : ∀ c ∈ J, c.kind = NodeKind.Cast ∨
      c.kind = NodeKind.Constant)
    (hininp : ∀ c ∈ J, ∀ v ∈ c.inputs, v ∈ n.inputs)
    (hn2o : y.output = n.output) (hn2k : y.kind = n.kind)
    (hn2in : ∀ w ∈ y.inputs, w ∈ n.inputs ∨ ∃ c ∈ J, c.output = w)
    (hok : NodeOK g.inputTypes (done ++ J ++ y :: rest) fresh2 g.fresh
      nc y)
    (hstab_m : ∀ m ∈ done, ∀ u ∈ m.inputs, IdStable done rest n fresh u ∧
      (∀ pn w2, producerOf (done ++ n :: rest) u = some pn →
        pn.inputs.get? 0 = some w2 → IdStable done rest n fresh w2)) :
    BlockInv g nc (done ++ J ++ [y]) rest fresh2 := by
  obtain ⟨hbound, hgf, huniq, htopo, hrest, hkp, hdone⟩ := hinv
  have hre : (done ++ J ++ [y]) ++ rest = done ++ J ++ y :: rest :=
    list_reassoc (done ++ J) rest y
  have hnin2 : n.output < fresh ∧ ∀ u ∈ n.inputs, u < fresh :=
    hbound n (List.mem_append_right _ (List.mem_cons_self n rest))
  have hinsge : ∀ c ∈ J, fresh ≤ c.output := fun c hc => (hins c hc).1
  refine ⟨?_, Nat.le_trans hgf hfr2, ?_, ?_,
    fun m hm => hrest m (List.mem_cons_of_mem n hm), ?_, ?_⟩
  · rw [hre]
    intro m hm
    rcases List.mem_append.mp hm with hm1 | hm1
    · rcases List.mem_append.mp hm1 with hmd | hmi
      · have hb := hbound m (List.mem_append_left _ hmd)
        exact ⟨Nat.lt_of_lt_of_le hb.1 hfr2,
          fun u hu => Nat.lt_of_lt_of_le (hb.2 u hu) hfr2⟩
      · refine ⟨(hins m hmi).2, ?_⟩
        intro u hu
        exact Nat.lt_of_lt_of_le (hnin2.2 u (hininp m hmi u hu)) hfr2
    · rcases List.mem_cons.mp hm1 with rfl | hm2
      · refine ⟨by rw [hn2o]; exact Nat.lt_of_lt_of_le hnin2.1 hfr2, ?_⟩
        intro u hu
        rcases hn2in u hu with h | ⟨c, hc, hco⟩
        · exact Nat.lt_of_lt_of_le (hnin2.2 u h) hfr2
        · exact hco ▸ (hins c hc).2
      · have hb := hbound m (List.mem_append_right _
          (List.mem_cons_of_mem n hm2))
        exact ⟨Nat.lt_of_lt_of_le hb.1 hfr2,
          fun u hu => Nat.lt_of_lt_of_le (hb.2 u hu) hfr2⟩
  · rw [hre]
    exact uniqueIds_step huniq
      (fun p hp => Nat.lt_of_lt_of_le (hit p hp) hgf)
      (fun m hm => (hbound m hm).1) hinsge hnd hn2o
  · rw [hre]
    have havailD : ∀ v ∈ n.inputs,
        v ∈ g.inputTypes.map Prod.fst ++ done.map Node.output := by
      intro v hv
      rcases topoOk_mid htopo v hv with h | ⟨q, hq, hqo⟩
      · exact List.mem_append_left _ h
      · exact List.mem_append_right _ (hqo ▸ List.mem_map_of_mem _ hq)
    apply topoOk_step htopo
      (fun c hc v hv => havailD v (hininp c hc v hv)) ?_ hn2o
    intro v hv
    rcases hn2in v hv with h | ⟨c, hc, hco⟩
    · exact List.mem_append_left _ (havailD v h)
    · exact List.mem_append_right _ (hco ▸ List.mem_map_of_mem _ hc)
  · intro v hvlt
    rw [hre, kindOf_step (Nat.lt_of_lt_of_le hvlt hgf) hinsge hn2o hn2k]
    exact hkp v hvlt
  · intro m hm
    rw [hre]
    rcases List.mem_append.mp hm with hm1 | hm1
    · rcases List.mem_append.mp hm1 with hmd | hmi
      · exact nodeOK_step (hstab_m m hmd) hinsge hn2o (hdone m hmd)
      · intro hsup
        rw [notSup_of_created (hinskind m hmi)] at hsup
        cases hsup
    · rw [List.mem_singleton] at hm1
      subst hm1
      exact hok

end ScalarTypeAnalysis

namespace ScalarTypeAnalysis

/-- One driver step preserves the block invariant. -/
theorem processNode_conform {g : Graph}
    (hit : ∀ p ∈ g.inputTypes, p.1 < g.fresh)
    {done rest : List Node} {n : Node} {fresh : ValueId} {r1 : BlockResult}
    (hpn : ProcessNode g.inputTypes done n rest fresh = some r1)
    (hinv : BlockInv g (NCW g) done (n :: rest) fresh) :
    BlockInv g (NCW g) r1.nodes rest r1.fresh := by
  obtain ⟨hbound, hgf, huniq, htopo, hrest, hkp, hdone⟩ := hinv
  have hinv2 : BlockInv g (NCW g) done (n :: rest) fresh :=
    ⟨hbound, hgf, huniq, htopo, hrest, hkp, hdone⟩
  have hnin := hrest n (List.mem_cons_self n rest)
  have Hdone : ∀ m ∈ done, m.output < fresh :=
    fun m hm => (hbound m (List.mem_append_left _ hm)).1
  have Horig : ∀ u ∈ n.inputs, u < fresh :=
    fun u hu => Nat.lt_of_lt_of_le (hnin.2.2 u hu) hgf
  have hstab_avail : ∀ v, (v ∈ g.inputTypes.map Prod.fst ∨
      ∃ q ∈ done, q.output = v) → v < fresh → IdStable done rest n fresh v :=
    fun v hv hvf => idStable_of_avail huniq hv hvf
  have havail_n : ∀ u ∈ n.inputs, u ∈ g.inputTypes.map Prod.fst ∨
      ∃ q ∈ done, q.output = u := fun u hu => topoOk_mid htopo u hu
  have Hstable : ∀ u ∈ n.inputs, IdStable done rest n fresh u :=
    fun u hu => hstab_avail u (havail_n u hu) (Horig u hu)
  have htd : TopoOk (g.inputTypes.map Prod.fst) done :=
    (topoOk_split.mp htopo).1
  have hGP : ∀ u, (u ∈ g.inputTypes.map Prod.fst ∨
      ∃ q ∈ done, q.output = u) →
      ∀ pn w2, producerOf (done ++ n :: rest) u = some pn →
      pn.inputs.get? 0 = some w2 → IdStable done rest n fresh w2 := by
    intro u hu pn w2 hpn2 hw2
    rcases hu with hu | ⟨q, hq, hqo⟩
    · exfalso
      have hnone : producerOf (done ++ n :: rest) u = none :=
        producerOf_none_of_ne (fun m hm he =>
          (List.disjoint_of_nodup_append huniq) hu
            (he ▸ List.mem_map_of_mem Node.output hm))
      rw [hnone] at hpn2
      cases hpn2
    · obtain ⟨p0, hp0⟩ := Option.isSome_iff_exists.mp
        (producerOf_isSome_of_mem hq hqo)
      rw [producerOf_append_of_some _ hp0, Option.some.injEq] at hpn2
      subst hpn2
      have hpnd : p0 ∈ done := List.mem_of_find?_eq_some hp0
      have hw2m : w2 ∈ p0.inputs := List.get?_mem hw2
      rcases topoOk_mem htd p0 hpnd w2 hw2m with hin | ⟨q2, hq2, hq2o⟩
      · refine hstab_avail w2 (Or.inl hin) ?_
        obtain ⟨p, hp, hpo⟩ := List.mem_map.mp hin
        exact hpo ▸ Nat.lt_of_lt_of_le (hit p hp) hgf
      · exact hstab_avail w2 (Or.inr ⟨q2, hq2, hq2o⟩)
          (hq2o ▸ (hbound q2 (List.mem_append_left _ hq2)).1)
  have HstableG : ∀ u ∈ n.inputs, ∀ pn w2,
      producerOf (done ++ n :: rest) u = some pn →
      pn.inputs.get? 0 = some w2 → IdStable done rest n fresh w2 :=
    fun u hu => hGP u (havail_n u hu)
  have hstab_m : ∀ m ∈ done, ∀ u ∈ m.inputs,
      IdStable done rest n fresh u ∧
      (∀ pn w2, producerOf (done ++ n :: rest) u = some pn →
        pn.inputs.get? 0 = some w2 → IdStable done rest n fresh w2) := by
    intro m hm u hu
    have havm : u ∈ g.inputTypes.map Prod.fst ∨
        ∃ q ∈ done, q.output = u := by
      rcases topoOk_mem htd m hm u hu with h | h
      · exact Or.inl h
      · exact Or.inr h
    exact ⟨hstab_avail u havm
      ((hbound m (List.mem_append_left _ hm)).2 u hu), hGP u havm⟩
  unfold ProcessNode at hpn
  by_cases hsup : IsImplicitCastSupported n.kind = true
  · rw [if_pos hsup] at hpn
    cases hinf : InferExpectedScalarType
        ⟨g.inputTypes, done ++ n :: rest, [], fresh⟩ n with
    | none => rw [hinf] at hpn; cases hpn
    | some p =>
      obtain ⟨ost, ws⟩ := p
      rw [hinf] at hpn
      cases ost with
      | none =>
        dsimp only at hpn
        rw [Option.some.injEq] at hpn
        subst hpn
        exact blockInv_keep hinv2
          (fun _ => ⟨none, ws, hinf, fun T h => by cases h⟩)
      | some T =>
        dsimp only at hpn
        cases hupd : UpdateScalarTypeForInputs g.inputTypes done n rest
            fresh T with
        | none => rw [hupd] at hpn; dsimp only at hpn; cases hpn
        | some q =>
          obtain ⟨s, ws2⟩ := q
          rw [hupd] at hpn
          dsimp only at hpn
          by_cases hlt : ScalarTypeToONNXType T < 0
          · have hsent : s = ⟨done, n, fresh⟩ := by
              unfold UpdateScalarTypeForInputs at hupd
              dsimp only at hupd
              rw [if_pos hlt] at hupd
              rw [Option.some.injEq, Prod.mk.injEq] at hupd
              exact hupd.1.symm
            subst hsent
            by_cases hcmp : IsComparisonOp n.kind = true
            · rw [if_pos hcmp] at hpn
              rw [Option.some.injEq] at hpn
              subst hpn
              refine blockInv_keep hinv2 (fun _ => ⟨some T, ws, hinf, ?_⟩)
              intro T' hT'
              rw [Option.some.injEq] at hT'
              subst hT'
              exact ⟨(fun hf => by rw [hcmp] at hf; cases hf),
                fun hge2 => absurd hge2 (Int.not_le.mpr hlt)⟩
            · rw [if_neg hcmp] at hpn
              have hcmpf := Bool.of_not_eq_true hcmp
              cases hout : UpdateScalarTypeForOutput n T with
              | none =>
                rw [show UpdateScalarTypeForOutput
                  (RewriteState.mk done n fresh).node T =
                  UpdateScalarTypeForOutput n T from rfl, hout] at hpn
                cases hpn
              | some n2 =>
                rw [show UpdateScalarTypeForOutput
                  (RewriteState.mk done n fresh).node T =
                  UpdateScalarTypeForOutput n T from rfl, hout] at hpn
                dsimp only at hpn
                rw [Option.some.injEq] at hpn
                subst hpn
                obtain ⟨tt0, htt0, rfl⟩ := updateOutput_spec hout
                have hok : NodeOK g.inputTypes ((done ++ []) ++
                    ({ n with outputType := some ⟨some T⟩ } : Node) :: rest)
                    fresh g.fresh (NCW g)
                    { n with outputType := some ⟨some T⟩ } := by
                  rw [List.append_nil]
                  exact nodeOK_sentinel Hstable HstableG hinf hlt hcmpf rfl
                have hbi := blockInv_upd (J := [])
                  (y := { n with outputType := some ⟨some T⟩ })
                  hit hinv2 (Nat.le_refl fresh)
                  (fun c hc => absurd hc (List.not_mem_nil c))
                  (by simp)
                  (fun c hc => absurd hc (List.not_mem_nil c))
                  (fun c hc => absurd hc (List.not_mem_nil c))
                  rfl rfl
                  (fun w hw => Or.inl hw)
                  hok hstab_m
                rw [List.append_nil] at hbi
                exact hbi
          · have hge : 0 ≤ ScalarTypeToONNXType T := Int.not_lt.mp hlt
            obtain ⟨hws2nil, ins, hfix, hcast⟩ :=
              updateInputs_fix hge Hdone Horig Hstable hupd
            subst hws2nil
            obtain ⟨hpre, hlen, hk, ho, hoty, hattr, hfr, hbnd, hnd, hpos,
              hinsin⟩ := hfix
            have hfix2 : LoopFix g.inputTypes done rest n fresh T
                n.inputs.length ins s :=
              ⟨hpre, hlen, hk, ho, hoty, hattr, hfr, hbnd, hnd, hpos, hinsin⟩
            obtain ⟨⟨ins2, hpre2, hkinds2⟩, _⟩ := updateInputs_meta hupd
            have hie : ins = ins2 :=
              List.append_cancel_left (hpre.symm.trans hpre2)
            have hinskind : ∀ c ∈ ins, c.kind = NodeKind.Cast ∨
                c.kind = NodeKind.Constant :=
              fun c hc => (hkinds2 c (hie ▸ hc)).1
            have hnccur : NCW g → ∀ u2 ∈ n.inputs,
                kindOf (done ++ n :: rest) u2 ≠ NodeKind.Constant := by
              intro hnc u2 hu2
              rw [hkp u2 (hnin.2.2 u2 hu2)]
              exact hnc n hnin.1 hsup u2 hu2
            have hininp : ∀ c ∈ ins, ∀ v ∈ c.inputs, v ∈ n.inputs := by
              intro c hc v hv
              rcases hinsin c hc with h | ⟨u, hu, he⟩
              · rw [h] at hv
                cases hv
              · rw [he, List.mem_singleton] at hv
                subst hv
                exact hu
            have hn2inFact : ∀ w ∈ s.node.inputs,
                w ∈ n.inputs ∨ ∃ c ∈ ins, c.output = w := by
              intro w hw
              obtain ⟨u, hu, hrel2⟩ :=
                forall₂_mem_right (loopFix_inRel Horig hfix2) w hw
              rcases hrel2 with ⟨heq, _⟩ | ⟨c, hc, hcw, _⟩
              · subst heq
                exact Or.inl hu
              · exact Or.inr ⟨c, hc, hcw⟩
            by_cases hcmp : IsComparisonOp n.kind = true
            · rw [if_pos hcmp] at hpn
              rw [Option.some.injEq] at hpn
              subst hpn
              have hok := nodeOK_new (G := s.fresh) (P := NCW g)
                Hdone Horig Hstable HstableG hfix2 hcast hinf hgf hnccur
                hk rfl ho (fun _ => hoty)
                (fun hf => by rw [hcmp] at hf; cases hf)
              have hbi := blockInv_upd hit hinv2 hfr hbnd hnd hinskind
                hininp ho hk hn2inFact hok hstab_m
              show BlockInv g (NCW g) (s.pre ++ [s.node]) rest s.fresh
              rw [hpre]
              exact hbi
            · rw [if_neg hcmp] at hpn
              have hcmpf := Bool.of_not_eq_true hcmp
              cases hout : UpdateScalarTypeForOutput s.node T with
              | none => rw [hout] at hpn; cases hpn
              | some n2 =>
                rw [hout] at hpn
                dsimp only at hpn
                rw [Option.some.injEq] at hpn
                subst hpn
                obtain ⟨tt0, htt0, rfl⟩ := updateOutput_spec hout
                have hok := nodeOK_new (G := s.fresh) (P := NCW g)
                  (q := { s.node with outputType := some ⟨some T⟩ })
                  Hdone Horig Hstable HstableG hfix2 hcast hinf hgf hnccur
                  hk rfl ho
                  (fun hf => by rw [hf] at hcmpf; cases hcmpf)
                  (fun _ => rfl)
                have hbi := blockInv_upd hit hinv2 hfr hbnd hnd hinskind
                  hininp (show ({ s.node with
                      outputType := some ⟨some T⟩ } : Node).output = n.output
                    from ho)
                  (show ({ s.node with
                      outputType := some ⟨some T⟩ } : Node).kind = n.kind
                    from hk)
                  hn2inFact hok hstab_m
                show BlockInv g (NCW g)
                  (s.pre ++ [{ s.node with outputType := some ⟨some T⟩ }])
                  rest s.fresh
                rw [hpre]
                exact hbi
  · rw [if_neg hsup] at hpn
    rw [Option.some.injEq] at hpn
    subst hpn
    exact blockInv_keep hinv2 (fun hsup2 => absurd hsup2 hsup)

end ScalarTypeAnalysis

namespace ScalarTypeAnalysis

theorem processBlock_conform {g : Graph}
    (hit : ∀ p ∈ g.inputTypes, p.1 < g.fresh) :
    ∀ (rest done : List Node) (fresh : ValueId) (r : BlockResult),
    ProcessBlock g.inputTypes done rest fresh = some r →
    BlockInv g (NCW g) done rest fresh →
    BlockInv g (NCW g) r.nodes [] r.fresh := by
  intro rest
  induction rest with
  | nil =>
    intro done fresh r h hinv
    unfold ProcessBlock at h
    rw [Option.some.injEq] at h
    subst h
    exact hinv
  | cons n rest ih =>
    intro done fresh r h hinv
    unfold ProcessBlock at h
    cases hpn : ProcessNode g.inputTypes done n rest fresh with
    | none => rw [hpn] at h; cases h
    | some r1 =>
      rw [hpn] at h
      dsimp only at h
      cases hpb : ProcessBlock g.inputTypes r1.nodes rest r1.fresh with
      | none => rw [hpb] at h; cases h
      | some r2 =>
        rw [hpb] at h
        dsimp only at h
        rw [Option.some.injEq] at h
        subst h
        exact ih r1.nodes r1.fresh r2 hpb (processNode_conform hit hpn hinv)

theorem blockInv_init {g : Graph} (hwf : WellFormedGraph g) :
    BlockInv g (NCW g) [] g.nodes g.fresh := by
  obtain ⟨⟨hitb, hnb⟩, huniq, htopo⟩ := hwf
  refine ⟨?_, Nat.le_refl _, ?_, ?_, ?_, ?_, ?_⟩
  · intro m hm
    rw [List.nil_append] at hm
    exact hnb m hm
  · rw [List.nil_append]
    exact huniq
  · rw [List.nil_append]
    exact htopo
  · intro m hm
    exact ⟨hm, (hnb m hm).1, (hnb m hm).2⟩
  · intro v _
    rw [List.nil_append]
  · intro m hm
    cases hm

theorem blockInv_final {g : Graph} {nc : Prop} {L : List Node} {F : ValueId}
    (h : BlockInv g nc L [] F) :
    (∀ m ∈ L, m.output < F ∧ ∀ u ∈ m.inputs, u < F) ∧
    g.fresh ≤ F ∧ UniqueIds g.inputTypes L ∧
    TopoOk (g.inputTypes.map Prod.fst) L ∧
    (∀ m ∈ L, NodeOK g.inputTypes L F g.fresh nc m) := by
  obtain ⟨h1, h2, h3, h4, _, _, h7⟩ := h
  rw [List.append_nil] at h1 h3 h4
  refine ⟨h1, h2, h3, h4, ?_⟩
  intro m hm
  have h8 := h7 m hm
  rw [List.append_nil] at h8
  exact h8

theorem dce_sublist {outs : List ValueId} :
    ∀ {l : List Node}, (EliminateDeadCode outs l).Sublist l := by
  intro l
  induction l with
  | nil => exact List.Sublist.refl _
  | cons n rest ih =>
    unfold EliminateDeadCode
    dsimp only
    split
    · exact List.Sublist.cons₂ n ih
    · exact List.Sublist.cons n ih

theorem dce_live {outs : List ValueId} :
    ∀ {l : List Node} {avail : List ValueId},
    TopoOk avail l →
    (∀ v ∈ avail, ∀ q ∈ l, q.output ≠ v) →
    (l.map Node.output).Nodup →
    ∀ {u : ValueId} {p : Node}, producerOf l u = some p →
    (∃ m ∈ EliminateDeadCode outs l, u ∈ m.inputs) →
    p ∈ EliminateDeadCode outs l := by
  intro l
  induction l with
  | nil =>
    intro avail _ _ _ u p hp _
    cases hp
  | cons a rest ih =>
    intro avail htopo hdisj hnd u p hp hm
    obtain ⟨m, hmk, hu⟩ := hm
    have hdisj2 : ∀ v ∈ avail ++ [a.output], ∀ q ∈ rest, q.output ≠ v := by
      intro v hv q hq
      rcases List.mem_append.mp hv with hv | hv
      · exact hdisj v hv q (List.mem_cons_of_mem a hq)
      · rw [List.mem_singleton] at hv
        subst hv
        intro he
        exact (List.nodup_cons.mp (by simpa using hnd)).1
          (he ▸ List.mem_map_of_mem Node.output hq)
    have hnd2 : (rest.map Node.output).Nodup :=
      (List.nodup_cons.mp (by simpa using hnd)).2
    unfold EliminateDeadCode at hmk ⊢
    dsimp only at hmk ⊢
    by_cases hK : a.output ∈ outs ∨
        ∃ m2 ∈ EliminateDeadCode outs rest, a.output ∈ m2.inputs
    · rw [if_pos hK] at hmk ⊢
      by_cases hau : a.output = u
      · have hpa : p = a := by
          rw [← hau, producerOf_cons_self, Option.some.injEq] at hp
          exact hp.symm
        subst hpa
        exact List.mem_cons_self _ _
      · rw [producerOf_cons_ne hau] at hp
        rcases List.mem_cons.mp hmk with rfl | hmk2
        · exfalso
          have huav : u ∈ avail := htopo.1 u hu
          have hpm : p ∈ rest := List.mem_of_find?_eq_some hp
          have hpo : p.output = u := by
            have hps := List.find?_some hp
            simpa using hps
          exact hdisj u huav p (List.mem_cons_of_mem m hpm) hpo
        · exact List.mem_cons_of_mem a
            (ih htopo.2 hdisj2 hnd2 hp ⟨m, hmk2, hu⟩)
    · rw [if_neg hK] at hmk ⊢
      by_cases hau : a.output = u
      · exfalso
        apply hK
        right
        exact ⟨m, hmk, hau ▸ hu⟩
      · rw [producerOf_cons_ne hau] at hp
        exact ih htopo.2 hdisj2 hnd2 hp ⟨m, hmk, hu⟩

theorem producerOf_dce_eq {outs : List ValueId} {L : List Node}
    {avail : List ValueId}
    (htopo : TopoOk avail L)
    (hdisj : ∀ v ∈ avail, ∀ q ∈ L, q.output ≠ v)
    (hnd : (L.map Node.output).Nodup)
    {m : Node} (hm : m ∈ EliminateDeadCode outs L) {u : ValueId}
    (hu : u ∈ m.inputs) :
    producerOf (EliminateDeadCode outs L) u = producerOf L u := by
  cases hp : producerOf L u with
  | none =>
    apply producerOf_none_of_ne
    intro q hq
    have := List.find?_eq_none.mp hp q (dce_subset hq)
    simpa using this
  | some p =>
    apply producerOf_eq_of_mem
    · exact List.Nodup.sublist (List.Sublist.map Node.output dce_sublist) hnd
    · exact dce_live htopo hdisj hnd hp ⟨m, hm, hu⟩
    · have hps := List.find?_some hp
      simpa using hps

end ScalarTypeAnalysis

namespace ScalarTypeAnalysis

/-- NodeOK survives dead-code elimination: producers of a kept node's
inputs are kept, so every lookup inference and the rewriting loop make
is unchanged. -/
theorem nodeOK_dce {it : List (ValueId × TensorTypeAnn)}
    {outs : List ValueId} {L : List Node} {F F2 fresh0 : ValueId}
    {nc : Prop} {m : Node}
    (htopo : TopoOk (it.map Prod.fst) L)
    (huniq : UniqueIds it L)
    (hmk : m ∈ EliminateDeadCode outs L)
    (h : NodeOK it L F fresh0 nc m) :
    NodeOK it (EliminateDeadCode outs L) F2 fresh0 nc m := by
  have hdisj : ∀ v ∈ it.map Prod.fst, ∀ q ∈ L, q.output ≠ v := by
    intro v hv q hq he
    exact (List.disjoint_of_nodup_append huniq) hv
      (he ▸ List.mem_map_of_mem Node.output hq)
  have hnd : (L.map Node.output).Nodup := List.Nodup.of_append_right huniq
  have hpe : ∀ u ∈ m.inputs,
      producerOf (EliminateDeadCode outs L) u = producerOf L u :=
    fun u hu => producerOf_dce_eq htopo hdisj hnd hmk hu
  have hgp : ∀ u ∈ m.inputs, ∀ pn w2, producerOf L u = some pn →
      pn.inputs.get? 0 = some w2 →
      producerOf (EliminateDeadCode outs L) w2 = producerOf L w2 := by
    intro u hu pn w2 hpn hw2
    have hpnk : pn ∈ EliminateDeadCode outs L :=
      dce_live htopo hdisj hnd hpn ⟨m, hmk, hu⟩
    exact producerOf_dce_eq htopo hdisj hnd hpnk (List.get?_mem hw2)
  intro hsup
  obtain ⟨st, ws, hinf, hT⟩ := h hsup
  have hcongr : InferExpectedScalarType
      ⟨it, EliminateDeadCode outs L, [], F2⟩ m =
      InferExpectedScalarType ⟨it, L, [], F⟩ m := by
    apply infer_congr
    intro v hv
    refine ⟨hpe v hv, ?_⟩
    intro pn w2 hpn hw2
    unfold kindOf
    rw [hgp v hv pn w2 hpn hw2]
  refine ⟨st, ws, by rw [hcongr]; exact hinf, ?_⟩
  intro T hstT
  obtain ⟨hout, hinp⟩ := hT T hstT
  refine ⟨hout, ?_⟩
  intro hcodec u hu
  obtain ⟨⟨tt, hvt, hdisj'⟩, hnc⟩ := hinp hcodec u hu
  refine ⟨⟨tt, ?_, ?_⟩, ?_⟩
  · rw [vtypeOf_congr (hpe u hu)]
    exact hvt
  · rcases hdisj' with ⟨hk, hsc⟩ | ⟨c, hc, hcf, hcs, hck⟩
    · refine Or.inl ⟨?_, hsc⟩
      intro hx
      apply hk
      unfold kindOf at hx ⊢
      rw [hpe u hu] at hx
      exact hx
    · exact Or.inr ⟨c, by rw [hpe u hu]; exact hc, hcf, hcs, hck⟩
  · intro hncp hx
    apply hnc hncp
    unfold kindOf at hx ⊢
    rw [hpe u hu] at hx
    exact hx

end ScalarTypeAnalysis

namespace ScalarTypeAnalysis

/-- After the pass, in the resulting graph every kept node satisfies
NodeOK: inference still succeeds and, for an encodable concrete inferred
type, every input agrees with it or is rewired to a pass-created node. -/
theorem pass_conform {g : Graph} (hwf : WellFormedGraph g)
    {r : BlockResult}
    (hpb : ProcessBlock g.inputTypes [] g.nodes g.fresh = some r) :
    ∀ m ∈ EliminateDeadCode g.outs r.nodes,
      NodeOK g.inputTypes (EliminateDeadCode g.outs r.nodes) r.fresh g.fresh
        (NCW g) m := by
  intro m hm
  obtain ⟨hbF, hgfF, huniqF, htopoF, hokF⟩ :=
    blockInv_final
      (processBlock_conform hwf.1.1 g.nodes [] g.fresh r hpb
        (blockInv_init hwf))
  exact nodeOK_dce htopoF huniqF hm (hokF m (dce_subset hm))

end ScalarTypeAnalysis

namespace ScalarTypeAnalysis

/-- The input-conformance property claimed after the pass, read on the
resulting graph: for a whitelisted node with concretely inferred type,
every input with a known annotated element type carries that type or is
produced by a pass-inserted Cast encoding it. -/
def C1Claim (g : Graph) : Prop :=
  ∀ g2 ws, ScalarTypeAnalysisForONNX g = some (g2, ws) →
  ∀ N ∈ g2.nodes, IsImplicitCastSupported N.kind = true →
  ∀ T wsN, InferExpectedScalarType g2 N = some (some T, wsN) →
  ∀ u ∈ N.inputs, ∀ tt, vtypeOf g2 u = some tt →
  ∀ S, tt.scalarType = some S →
    S = T ∨ ∃ c, producerOf g2.nodes u = some c ∧ g.fresh ≤ c.output ∧
      c.kind = NodeKind.Cast ∧ c.attrTo = some (ScalarTypeToONNXType T)

/-- Two Float tensors feeding an Add whose output is annotated BFloat16:
the inferred type BFloat16 has no ONNX wire-format code, the sentinel
path skips the input rewrite, and both inputs keep their Float
annotation. -/
def cexG1 : Graph :=
  ⟨[(0, ⟨some ScalarType.Float⟩), (1, ⟨some ScalarType.Float⟩)],
   [⟨NodeKind.Add, [0, 1], 2, none, none, some ⟨some ScalarType.BFloat16⟩⟩],
   [2], 3⟩

/-- C1, counterexample: the claimed invariant fails when the inferred
type has no ONNX wire-format code (here BFloat16): the warn-and-return
path of UpdateScalarTypeForInputs leaves inputs with differing known
element types untouched. -/
theorem C1_counterexample : ¬ C1Claim cexG1 := by
  intro h
  have h2 := h cexG1
    [Warning.unsupportedScalarType ScalarType.BFloat16 NodeKind.Add]
    (by decide)
    ⟨NodeKind.Add, [0, 1], 2, none, none, some ⟨some ScalarType.BFloat16⟩⟩
    (by decide) (by decide) ScalarType.BFloat16 [] (by decide)
    0 (by decide) ⟨some ScalarType.Float⟩ (by decide)
    ScalarType.Float (by decide)
  rcases h2 with h2 | ⟨c, hc, _⟩
  · cases h2
  · rw [show producerOf cexG1.nodes 0 = none from by decide] at hc
    cases hc

/-- C1 (amended): for a well-formed graph, after the pass, a whitelisted
node of the resulting graph whose inference yields a concrete type with
a non-negative ONNX wire-format code has each input with a known
annotated element type equal to that type or produced by a pass-inserted
Cast encoding it. -/
theorem C1_amended_input_conformance (g : Graph) (hwf : WellFormedGraph g)
    (g2 : Graph) (ws : List Warning)
    (h : ScalarTypeAnalysisForONNX g = some (g2, ws))
    (N : Node) (hN : N ∈ g2.nodes)
    (hsup : IsImplicitCastSupported N.kind = true)
    (T : ScalarType) (wsN : List Warning)
    (hinf : InferExpectedScalarType g2 N = some (some T, wsN))
    (hcodec : 0 ≤ ScalarTypeToONNXType T)
    (u : ValueId) (hu : u ∈ N.inputs)
    (tt : TensorTypeAnn) (hvt : vtypeOf g2 u = some tt)
    (S : ScalarType) (hS : tt.scalarType = some S) :
    S = T ∨ ∃ c, producerOf g2.nodes u = some c ∧ g.fresh ≤ c.output ∧
      c.kind = NodeKind.Cast ∧ c.attrTo = some (ScalarTypeToONNXType T) := by
  unfold ScalarTypeAnalysisForONNX ImplicitCastForONNX at h
  cases hpb : ProcessBlock g.inputTypes [] g.nodes g.fresh with
  | none => rw [hpb] at h; cases h
  | some r =>
    rw [hpb] at h
    dsimp only at h
    rw [Option.some.injEq, Prod.mk.injEq] at h
    obtain ⟨hg2, hws⟩ := h
    subst hg2
    have hok := pass_conform hwf hpb N hN
    obtain ⟨st, ws', hinf', hT⟩ := hok hsup
    have hconv : InferExpectedScalarType
        ⟨g.inputTypes, EliminateDeadCode g.outs r.nodes, [], r.fresh⟩ N =
        InferExpectedScalarType
          ⟨g.inputTypes, EliminateDeadCode g.outs r.nodes, g.outs,
            r.fresh⟩ N :=
      infer_congr (fun v _ => ⟨rfl, fun pn w2 _ _ => rfl⟩)
    rw [hconv, hinf] at hinf'
    rw [Option.some.injEq, Prod.mk.injEq] at hinf'
    obtain ⟨hst, _⟩ := hinf'
    obtain ⟨hout, hinp⟩ := hT T hst.symm
    obtain ⟨⟨tt', hvt', hdisj⟩, _⟩ := hinp hcodec u hu
    have hvconv : vtypeOf
        ⟨g.inputTypes, EliminateDeadCode g.outs r.nodes, [], r.fresh⟩ u =
        vtypeOf ⟨g.inputTypes, EliminateDeadCode g.outs r.nodes, g.outs,
          r.fresh⟩ u :=
      vtypeOf_congr rfl
    rw [hvconv, hvt] at hvt'
    rw [Option.some.injEq] at hvt'
    subst hvt'
    rcases hdisj with ⟨_, hsc⟩ | ⟨_, _, _, hcs, _⟩
    · rcases hsc with hsc | hsc
      · rw [hsc] at hS
        cases hS
      · rw [hsc, Option.some.injEq] at hS
        exact Or.inl hS.symm
    · rw [hcs, Option.some.injEq] at hS
      exact Or.inl hS.symm

end ScalarTypeAnalysis

namespace ScalarTypeAnalysis

/-- A Float tensor and an Int tensor feeding an Add with unknown output
type: the pass infers Float and inserts a Cast for the Int input. -/
def wG1 : Graph :=
  ⟨[(0, ⟨some ScalarType.Float⟩), (1, ⟨some ScalarType.Int⟩)],
   [⟨NodeKind.Add, [0, 1], 2, none, none, some ⟨none⟩⟩],
   [2], 3⟩

/-- The graph the pass produces from wG1. -/
def wG1r : Graph :=
  ⟨[(0, ⟨some ScalarType.Float⟩), (1, ⟨some ScalarType.Int⟩)],
   [⟨NodeKind.Cast, [1], 3, none, some 1, some ⟨some ScalarType.Float⟩⟩,
    ⟨NodeKind.Add, [0, 3], 2, none, none, some ⟨some ScalarType.Float⟩⟩],
   [2], 4⟩

/-- The rewritten Add node of wG1r. -/
def wG1N : Node :=
  ⟨NodeKind.Add, [0, 3], 2, none, none, some ⟨some ScalarType.Float⟩⟩

theorem C1_witness :
    WellFormedGraph wG1 ∧
    (ScalarType.Float = ScalarType.Float ∨
      ∃ c, producerOf wG1r.nodes 3 = some c ∧ wG1.fresh ≤ c.output ∧
        c.kind = NodeKind.Cast ∧
        c.attrTo = some (ScalarTypeToONNXType ScalarType.Float)) := by
  have hwf : WellFormedGraph wG1 :=
    ⟨⟨by decide, by decide⟩, by unfold UniqueIds; decide, by decide⟩
  exact ⟨hwf, C1_amended_input_conformance wG1 hwf wG1r
    [Warning.scalarTypeMismatch NodeKind.Add ScalarType.Float] (by decide)
    wG1N (by decide) (by decide) ScalarType.Float [] (by decide) (by decide)
    3 (by decide) ⟨some ScalarType.Float⟩ (by decide) ScalarType.Float
    (by decide)⟩

end ScalarTypeAnalysis

namespace ScalarTypeAnalysis

theorem node_upd_self {n : Node} {x : Option TensorTypeAnn}
    (h : n.outputType = x) : { n with outputType := x } = n := by
  subst h
  rfl

theorem foldlM_const {α β : Type} {f : β → α → Option β} {s : β} :
    ∀ {l : List α}, (∀ i ∈ l, f s i = some s) → l.foldlM f s = some s := by
  intro l
  induction l with
  | nil => intro _; rfl
  | cons a l ih =>
    intro h
    rw [List.foldlM_cons, h a (List.mem_cons_self a l)]
    simp only [Option.bind_eq_bind, Option.some_bind]
    exact ih (fun i hi => h i (List.mem_cons_of_mem a hi))

theorem dce_idem {outs : List ValueId} :
    ∀ (l : List Node), EliminateDeadCode outs (EliminateDeadCode outs l) =
      EliminateDeadCode outs l := by
  intro l
  induction l with
  | nil => rfl
  | cons a rest ih =>
    by_cases hK : a.output ∈ outs ∨
        ∃ m ∈ EliminateDeadCode outs rest, a.output ∈ m.inputs
    · have heq : EliminateDeadCode outs (a :: rest) =
          a :: EliminateDeadCode outs rest := by
        simp only [EliminateDeadCode]
        rw [if_pos hK]
      rw [heq]
      have heq2 : EliminateDeadCode outs
          (a :: EliminateDeadCode outs rest) =
          a :: EliminateDeadCode outs (EliminateDeadCode outs rest) := by
        simp only [EliminateDeadCode]
        rw [if_pos (by rw [ih]; exact hK)]
      rw [heq2, ih]
    · have heq : EliminateDeadCode outs (a :: rest) =
          EliminateDeadCode outs rest := by
        simp only [EliminateDeadCode]
        rw [if_neg hK]
      rw [heq]
      exact ih

/-- On a graph the pass has already processed, a second driver step is
the identity on the node (up to warnings). -/
theorem run2_node {it : List (ValueId × TensorTypeAnn)} {L1 : List Node}
    {F fresh0g : ValueId} {nc : Prop} {done2 rest2 : List Node} {n : Node}
    (heq : done2 ++ n :: rest2 = L1) (hncp : nc)
    (hok : NodeOK it L1 F fresh0g nc n) :
    ∃ wsn, ProcessNode it done2 n rest2 F =
      some ⟨done2 ++ [n], F, wsn⟩ := by
  unfold ProcessNode
  by_cases hsup : IsImplicitCastSupported n.kind = true
  · rw [if_pos hsup]
    obtain ⟨st, ws0, hinf, hT⟩ := hok hsup
    have hinf2 : InferExpectedScalarType ⟨it, done2 ++ n :: rest2, [], F⟩ n =
        some (st, ws0) := by
      rw [heq]
      exact hinf
    rw [hinf2]
    cases st with
    | none =>
      dsimp only
      exact ⟨ws0, rfl⟩
    | some T =>
      dsimp only
      obtain ⟨houtc, hinpc⟩ := hT T rfl
      by_cases hlt : ScalarTypeToONNXType T < 0
      · have hupd : UpdateScalarTypeForInputs it done2 n rest2 F T =
            some (⟨done2, n, F⟩,
              [Warning.unsupportedScalarType T n.kind]) := by
          unfold UpdateScalarTypeForInputs
          dsimp only
          rw [if_pos hlt]
        rw [hupd]
        dsimp only
        by_cases hcmp : IsComparisonOp n.kind = true
        · rw [if_pos hcmp]
          exact ⟨ws0 ++ [Warning.unsupportedScalarType T n.kind], rfl⟩
        · rw [if_neg hcmp]
          have hupd2 : UpdateScalarTypeForOutput n T = some n := by
            unfold UpdateScalarTypeForOutput
            rw [houtc (Bool.of_not_eq_true hcmp)]
            dsimp only
            exact congrArg some (node_upd_self (houtc (Bool.of_not_eq_true hcmp)))
          rw [hupd2]
          dsimp only
          exact ⟨ws0 ++ [Warning.unsupportedScalarType T n.kind], rfl⟩
      · have hge : 0 ≤ ScalarTypeToONNXType T := Int.not_lt.mp hlt
        have hinps := hinpc hge
        have hstep : ∀ i ∈ List.range n.inputs.length,
            UpdateLoopStep it rest2 T (ScalarTypeToONNXType T)
              ⟨done2, n, F⟩ i = some ⟨done2, n, F⟩ := by
          intro i hi
          rw [List.mem_range] at hi
          obtain ⟨u, hu⟩ : ∃ u, n.inputs.get? i = some u :=
            ⟨_, List.get?_eq_get hi⟩
          have humem : u ∈ n.inputs := List.get?_mem hu
          obtain ⟨⟨tt, hvt, hdisj⟩, hncc⟩ := hinps u humem
          unfold UpdateLoopStep
          dsimp only
          rw [hu]
          dsimp only
          rw [heq, hvt]
          dsimp only
          have hcnot : ¬(kindOf L1 u = NodeKind.Constant ∨
              tt.scalarType.isSome = true ∧ tt.scalarType ≠ some T) := by
            intro hcond
            rcases hcond with hkc | ⟨hsome, hne⟩
            · rcases hdisj with ⟨hkne, _⟩ | _
              · exact hkne hkc
              · exact (hncc hncp) hkc
            · rcases hdisj with ⟨_, hsc⟩ | ⟨c, _, _, hcs, _⟩
              · rcases hsc with hsc | hsc
                · rw [hsc] at hsome
                  cases hsome
                · exact hne hsc
              · exact hne hcs
          rw [if_neg hcnot]
        have hupd : UpdateScalarTypeForInputs it done2 n rest2 F T =
            some (⟨done2, n, F⟩, []) := by
          unfold UpdateScalarTypeForInputs
          dsimp only
          rw [if_neg (Int.not_lt.mpr hge), foldlM_const hstep]
        rw [hupd]
        dsimp only
        by_cases hcmp : IsComparisonOp n.kind = true
        · rw [if_pos hcmp]
          exact ⟨ws0 ++ [], rfl⟩
        · rw [if_neg hcmp]
          have hupd2 : UpdateScalarTypeForOutput n T = some n := by
            unfold UpdateScalarTypeForOutput
            rw [houtc (Bool.of_not_eq_true hcmp)]
            dsimp only
            exact congrArg some (node_upd_self (houtc (Bool.of_not_eq_true hcmp)))
          rw [hupd2]
          dsimp only
          exact ⟨ws0 ++ [], rfl⟩
  · rw [if_neg hsup]
    exact ⟨[], rfl⟩

theorem run2_block {it : List (ValueId × TensorTypeAnn)} {L1 : List Node}
    {F fresh0g : ValueId} {nc : Prop} (hncp : nc)
    (hall : ∀ m ∈ L1, NodeOK it L1 F fresh0g nc m) :
    ∀ (rest2 done2 : List Node), done2 ++ rest2 = L1 →
    ∃ WS, ProcessBlock it done2 rest2 F = some ⟨L1, F, WS⟩ := by
  intro rest2
  induction rest2 with
  | nil =>
    intro done2 heq
    rw [List.append_nil] at heq
    subst heq
    exact ⟨[], rfl⟩
  | cons n rest2 ih =>
    intro done2 heq
    have hnmem : n ∈ L1 := by
      rw [← heq]
      exact List.mem_append_right _ (List.mem_cons_self n rest2)
    obtain ⟨wsn, hpn⟩ := run2_node heq hncp (hall n hnmem)
    obtain ⟨WS, hpb⟩ := ih (done2 ++ [n])
      (by rw [list_reassoc]; exact heq)
    refine ⟨wsn ++ WS, ?_⟩
    unfold ProcessBlock
    rw [hpn]
    dsimp only
    rw [hpb]

end ScalarTypeAnalysis

namespace ScalarTypeAnalysis

/-- The idempotence property claimed of the pass: the graph of a second
run equals the graph of the first. -/
def C4Claim (g : Graph) : Prop :=
  ∀ g1 ws1, ScalarTypeAnalysisForONNX g = some (g1, ws1) →
  ∀ g2 ws2, ScalarTypeAnalysisForONNX g1 = some (g2, ws2) → g2 = g1

/-- A Constant feeding an Add next to a Float tensor: each run replaces
the constant by a fresh one, so a second run renames it again. -/
def cexG4 : Graph :=
  ⟨[(0, ⟨some ScalarType.Float⟩)],
   [⟨NodeKind.Constant, [], 1, some ⟨7, ScalarType.Int⟩, none,
      some ⟨some ScalarType.Int⟩⟩,
    ⟨NodeKind.Add, [0, 1], 2, none, none, some ⟨none⟩⟩],
   [2], 3⟩

/-- The graph after one run on cexG4. -/
def cexG4r1 : Graph :=
  ⟨[(0, ⟨some ScalarType.Float⟩)],
   [⟨NodeKind.Constant, [], 3, some ⟨7, ScalarType.Float⟩, none,
      some ⟨some ScalarType.Float⟩⟩,
    ⟨NodeKind.Add, [0, 3], 2, none, none, some ⟨some ScalarType.Float⟩⟩],
   [2], 4⟩

/-- The graph after a second run on cexG4r1. -/
def cexG4r2 : Graph :=
  ⟨[(0, ⟨some ScalarType.Float⟩)],
   [⟨NodeKind.Constant, [], 4, some ⟨7, ScalarType.Float⟩, none,
      some ⟨some ScalarType.Float⟩⟩,
    ⟨NodeKind.Add, [0, 4], 2, none, none, some ⟨some ScalarType.Float⟩⟩],
   [2], 5⟩

/-- C4, counterexample: on a graph with a Constant input to a
whitelisted node, the second run re-replaces the (already converted)
constant under a fresh id, so the graphs differ. -/
theorem C4_counterexample : ¬ C4Claim cexG4 := by
  intro h
  have h2 := h cexG4r1 [] (by decide) cexG4r2 [] (by decide)
  exact absurd h2 (by decide)

/-- C4 (amended): on a well-formed graph in which no input of a
whitelisted node is produced by a Constant, the pass is idempotent: a
second run returns the same graph. -/
theorem C4_amended_idempotent (g : Graph) (hwf : WellFormedGraph g)
    (hnc : NCW g) (g1 : Graph) (ws1 : List Warning)
    (h1 : ScalarTypeAnalysisForONNX g = some (g1, ws1)) :
    ∃ ws2, ScalarTypeAnalysisForONNX g1 = some (g1, ws2) := by
  unfold ScalarTypeAnalysisForONNX ImplicitCastForONNX at h1
  cases hpb : ProcessBlock g.inputTypes [] g.nodes g.fresh with
  | none => rw [hpb] at h1; cases h1
  | some r =>
    rw [hpb] at h1
    dsimp only at h1
    rw [Option.some.injEq, Prod.mk.injEq] at h1
    obtain ⟨hg1, _⟩ := h1
    subst hg1
    have hall := pass_conform hwf hpb
    obtain ⟨WS, hpb2⟩ := run2_block hnc hall
      (EliminateDeadCode g.outs r.nodes) [] (by rw [List.nil_append])
    refine ⟨WS, ?_⟩
    unfold ScalarTypeAnalysisForONNX ImplicitCastForONNX
    dsimp only
    rw [hpb2]
    dsimp only
    rw [dce_idem]

end ScalarTypeAnalysis

namespace ScalarTypeAnalysis

/-- A Float tensor and an Int tensor feeding an Add: no Constant inputs,
so amended idempotence applies. -/
def wG4 : Graph :=
  ⟨[(0, ⟨some ScalarType.Float⟩), (1, ⟨some ScalarType.Int⟩)],
   [⟨NodeKind.Add, [0, 1], 2, none, none, some ⟨none⟩⟩],
   [2], 3⟩

/-- The graph the pass produces from wG4. -/
def wG4r : Graph :=
  ⟨[(0, ⟨some ScalarType.Float⟩), (1, ⟨some ScalarType.Int⟩)],
   [⟨NodeKind.Cast, [1], 3, none, some 1, some ⟨some ScalarType.Float⟩⟩,
    ⟨NodeKind.Add, [0, 3], 2, none, none, some ⟨some ScalarType.Float⟩⟩],
   [2], 4⟩

theorem C4_witness :
    NCW wG4 ∧ ∃ ws2, ScalarTypeAnalysisForONNX wG4r = some (wG4r, ws2) := by
  have hwf : WellFormedGraph wG4 :=
    ⟨⟨by decide, by decide⟩, by unfold UniqueIds; decide, by decide⟩
  have hnc : NCW wG4 := by
    unfold NCW
    decide
  exact ⟨hnc, C4_amended_idempotent wG4 hwf hnc wG4r
    [Warning.scalarTypeMismatch NodeKind.Add ScalarType.Float] (by decide)⟩

end ScalarTypeAnalysis
